import Mathlib

/-!
# gopool: a resizable worker pool (`pool.go`)

The pool is a concurrent program: worker goroutines, callers of `Execute`,
`ExecuteA`, `ExecuteM`, the goroutine that holds the mutex inside `SetSize`, and the
background goroutine of `ExecuteM` that closes the result channel.  It is embedded as
an interleaving transition system: a `State`, a labelled, executable `step` function
(one label per goroutine step, a rendezvous on an unbuffered channel being one joint
step of its two parties), and the states reachable from `NewPool size`.

Conventions of the embedding
* `interface{}` is `Option V` (`none` is `nil`); `error` is `Option GoError`.
* The user function `f` is a total function: a call of `f` that panics or never
  returns is outside the model.
* `pool.inputChannel` is unbuffered and no statement of `pool.go` closes it, so it has
  no state of its own: a send on it is the joint step `Action.accept`.
* A result channel and a `sync.WaitGroup` are made once per call of `Execute` /
  `ExecuteM`; they are named by the index of that call in `State.calls`.
* `int` arguments are natural numbers (`SetSize` with a negative `n` indexes
  `pool.workers` out of range); `queuedJobs` is an unbounded integer.
* A Go runtime panic (closing a closed channel, sending on a closed channel, a negative
  `WaitGroup` counter, an index out of range) sets `State.panicked`; nothing runs after.
-/

namespace GoPool

/-! ## The program -/

/-- The `error` values of the package: `ErrPoolClosed` and the errors of the user function. -/
inductive GoError where
  | ErrPoolClosed
  | userError (code : Nat)
deriving DecidableEq, Repr

/-- The `Result` struct: the result of one call of the user function. -/
structure Result (V : Type) where
  Output : Option V
  Err : Option GoError
deriving DecidableEq, Repr

/-- The `request` struct.  `outputChannel` and `wg` are handles: the index of the call
that made the channel, respectively the `WaitGroup` (`none` is the nil pointer). -/
structure request (V : Type) where
  param : Option V
  outputChannel : Nat
  wg : Option Nat
deriving DecidableEq, Repr

/-- Program counter of the goroutine `structWorker.run`. -/
inductive WorkerPc (V : Type) where
  /-- at the `select` of line 58 -/
  | select
  /-- a request was received (line 59), `pool.f` not yet called (line 64) -/
  | call (r : request V)
  /-- `pool.f` returned, the send of line 65 is pending -/
  | send (r : request V) (res : Result V)
  /-- the result was sent, the `atomic.AddInt64(.., -1)` of line 66 is pending -/
  | dec (r : request V)
  /-- lines 67-69 pending -/
  | done (r : request V)
  /-- `run` returned and the deferred `close(worker.closed)` ran -/
  | exited
deriving DecidableEq, Repr

/-- The `structWorker` struct together with the goroutine started for it by `newWorker`:
`close` and `closed` tell whether the channel of that name has been closed. -/
structure structWorker (V : Type) where
  close : Bool
  closed : Bool
  pc : WorkerPc V
deriving DecidableEq, Repr

/-- Program counter of the goroutine inside `SetSize`, after `poolLen` was read. -/
inductive SetSizePc where
  /-- head of the loop of line 102 with loop variable `i` -/
  | grow (i : Nat)
  /-- `newWorker` returned the worker with handle `w`; its `append` (line 103) is pending -/
  | append (i : Nat) (w : Nat)
  /-- head of the loop of line 105 -/
  | stop (i : Nat)
  /-- head of the loop of line 108 -/
  | join (i : Nat)
  /-- line 112 and the deferred unlock -/
  | truncate
deriving DecidableEq, Repr

/-- The frame of the call `SetSize(n)` that holds `pool.mutex`. -/
structure SetSizeCall where
  n : Nat
  poolLen : Nat
  pc : SetSizePc
deriving DecidableEq, Repr

/-- The `Pool` struct.  `workers` holds handles to `State.threads`; the mutex is
`State.resizer`, `inputChannel` is stateless and `f` is a parameter of `step`. -/
structure Pool where
  queuedJobs : Int
  workers : List Nat
deriving DecidableEq, Repr

/-- The entry point a caller used. -/
inductive Api (V : Type) where
  | Execute (x : Option V)
  | ExecuteA (x : Option V)
  | ExecuteM (xs : List (Option V))
deriving DecidableEq, Repr

/-- The slice `in` that `ExecuteM` iterates over (`ExecuteA` passes a one-element slice);
for `Execute` the single parameter. -/
def Api.input {V : Type} : Api V → List (Option V)
  | .Execute x => [x]
  | .ExecuteA x => [x]
  | .ExecuteM xs => xs

/-- Program counter of a caller. -/
inductive CallerPc (V : Type) where
  /-- `Execute` entered (before line 141) -/
  | execStart
  /-- `Execute` at the send of line 143 -/
  | execPush
  /-- `Execute` at the receive of line 144 -/
  | execAwait
  /-- `Execute` returned `(out, err)` -/
  | execReturned (out : Option V) (err : Option GoError)
  /-- `ExecuteA` entered (before line 153) -/
  | aStart
  /-- `ExecuteM` entered (before line 159) -/
  | mStart
  /-- `ExecuteM` at the head of the loop of line 164, `i` requests sent -/
  | mPush (i : Nat)
  /-- `ExecuteM` returned the channel -/
  | mReturned
deriving DecidableEq, Repr

/-- Program counter of the goroutine of lines 167-170. -/
inductive CloserPc where
  /-- not started -/
  | absent
  /-- at `wg.Wait()` -/
  | wait
  /-- at `close(output)` -/
  | close
  | finished
deriving DecidableEq, Repr

/-- One call of `Execute`, `ExecuteA` or `ExecuteM`, with the channel `output` and the
`WaitGroup` it made and the consumer of the returned channel. -/
structure Call (V : Type) where
  api : Api V
  pc : CallerPc V
  /-- capacity of `output` -/
  cap : Nat
  /-- buffered elements of `output`, oldest first -/
  buf : List (Result V)
  /-- `output` has been closed -/
  closed : Bool
  /-- counter of `wg` -/
  wg : Nat
  closer : CloserPc
  /-- what the consumer has received from the returned channel so far -/
  received : List (Result V)
  /-- the consumer has seen the returned channel closed and empty -/
  drained : Bool
deriving DecidableEq, Repr

/-- A call that has just been made. -/
def Call.new {V : Type} (api : Api V) (pc : CallerPc V) : Call V :=
  { api := api, pc := pc, cap := 0, buf := [], closed := false, wg := 0,
    closer := .absent, received := [], drained := false }

/-- The whole program state. -/
structure State (V : Type) where
  pool : Pool
  /-- every worker goroutine ever started, by handle -/
  threads : List (structWorker V)
  /-- the call of `SetSize` holding `pool.mutex`; `none` when the mutex is free -/
  resizer : Option SetSizeCall
  calls : List (Call V)
  /-- `NewPool` has returned the pool -/
  constructed : Bool
  panicked : Bool
deriving DecidableEq, Repr

/-- The labels of the transition system. -/
inductive Action (V : Type) where
  /-- a caller enters `SetSize(n)`, takes the mutex and reads `poolLen` (lines 99-101) -/
  | SetSize (n : Nat)
  /-- the holder of the mutex takes its next step -/
  | resize
  /-- a caller enters `Execute(x)` -/
  | Execute (x : Option V)
  /-- a caller enters `ExecuteA(x)` -/
  | ExecuteA (x : Option V)
  /-- a caller enters `ExecuteM(xs)` -/
  | ExecuteM (xs : List (Option V))
  /-- call `c` takes its next step that involves no other goroutine -/
  | caller (c : Nat)
  /-- rendezvous on `pool.inputChannel`: call `c` sends, worker `w` receives -/
  | accept (w c : Nat)
  /-- worker `w` takes its next step that involves no other goroutine -/
  | work (w : Nat)
  /-- rendezvous on the unbuffered `output` of call `c`: worker `w` sends, `Execute` receives -/
  | deliver (w c : Nat)
  /-- the goroutine of lines 167-170 of call `c` takes its next step -/
  | closer (c : Nat)
  /-- the consumer of the channel returned by call `c` receives once -/
  | recv (c : Nat)
deriving DecidableEq, Repr

variable {V : Type}

/-- The state inside `NewPool(size, f)` when it calls `pool.SetSize(size)` on the fresh
`Pool` literal (lines 175-179); the mutex is taken and `poolLen` is `0`. -/
def NewPool (size : Nat) : State V :=
  { pool := { queuedJobs := 0, workers := [] }
    threads := []
    resizer := some { n := size, poolLen := 0, pc := .grow 0 }
    calls := []
    constructed := false
    panicked := false }

/-- Replace the state of worker goroutine `w`. -/
def State.setThread (s : State V) (w : Nat) (t : structWorker V) : State V :=
  { s with threads := s.threads.set w t }

/-- Replace the state of call `c`. -/
def State.setCall (s : State V) (c : Nat) (x : Call V) : State V :=
  { s with calls := s.calls.set c x }

/-- Set the frame of the mutex holder. -/
def State.setResizer (s : State V) (fr : SetSizeCall) : State V :=
  { s with resizer := some fr }

/-- `atomic.AddInt64(&pool.queuedJobs, d)`. -/
def State.addQueued (s : State V) (d : Int) : State V :=
  { s with pool := { s.pool with queuedJobs := s.pool.queuedJobs + d } }

/-- A runtime panic. -/
def State.panic (s : State V) : State V :=
  { s with panicked := true }

/-- One step of the goroutine inside `SetSize` (lines 102-113), frame `fr`. -/
def stepResize (s : State V) (fr : SetSizeCall) : Option (State V) :=
  match fr.pc with
  | .grow i =>
    if i < fr.n then
      -- `newWorker`: the channels are made and `go worker.run()` starts the goroutine
      some { s with threads := s.threads ++ [{ close := false, closed := false, pc := .select }]
                    resizer := some { fr with pc := .append i s.threads.length } }
    else some (s.setResizer { fr with pc := .stop fr.n })
  | .append i w =>
    some { s with pool := { s.pool with workers := s.pool.workers ++ [w] }
                  resizer := some { fr with pc := .grow (i + 1) } }
  | .stop i =>
    if i < fr.poolLen then
      match s.pool.workers[i]? with
      | none => some s.panic
      | some h =>
        match s.threads[h]? with
        | none => none
        | some t =>
          -- `close(worker.close)`
          if t.close then some s.panic
          else some ((s.setThread h { t with close := true }).setResizer
                      { fr with pc := .stop (i + 1) })
    else some (s.setResizer { fr with pc := .join fr.n })
  | .join i =>
    if i < fr.poolLen then
      match s.pool.workers[i]? with
      | none => some s.panic
      | some h =>
        match s.threads[h]? with
        | none => none
        | some t =>
          -- `<-worker.closed` blocks until the channel is closed
          if t.closed then some (s.setResizer { fr with pc := .join (i + 1) }) else none
    else some (s.setResizer { fr with pc := .truncate })
  | .truncate =>
    -- `pool.workers[:n]`; beyond the length of the slice it is treated as out of range
    if fr.n ≤ s.pool.workers.length then
      some { s with pool := { s.pool with workers := s.pool.workers.take fr.n }
                    resizer := none
                    constructed := true }
    else some s.panic

/-- One step of caller `c` on its own (lines 141-142, 153, 159-163, 167-171, and the
receive of line 144 from a closed channel). -/
def stepCaller (s : State V) (c : Nat) (x : Call V) : Option (State V) :=
  match x.pc with
  | .execStart => some ((s.addQueued 1).setCall c { x with pc := .execPush, cap := 0 })
  | .execPush => none
  | .execAwait =>
    if x.closed then some (s.setCall c { x with pc := .execReturned none (some .ErrPoolClosed) })
    else none
  | .execReturned _ _ => none
  | .aStart => some ((s.addQueued 1).setCall c { x with pc := .mStart })
  | .mStart =>
    some ((s.addQueued x.api.input.length).setCall c
      { x with pc := .mPush 0, cap := x.api.input.length, wg := x.wg + x.api.input.length })
  | .mPush i =>
    if i < x.api.input.length then none
    else some (s.setCall c { x with pc := .mReturned, closer := .wait })
  | .mReturned => none

/-- The send on `pool.inputChannel` of call `c` (line 143 or 165) meets the receive of
worker `w` in its `select` (line 59). -/
def stepAccept (s : State V) (w c : Nat) (t : structWorker V) (x : Call V) : Option (State V) :=
  match t.pc with
  | .select =>
    match x.pc with
    | .execPush =>
      match x.api.input[0]? with
      | some p =>
        some ((s.setThread w { t with pc := .call { param := p, outputChannel := c, wg := none } }).setCall
          c { x with pc := .execAwait })
      | none => none
    | .mPush i =>
      match x.api.input[i]? with
      | some p =>
        some ((s.setThread w { t with pc := .call { param := p, outputChannel := c, wg := some c } }).setCall
          c { x with pc := .mPush (i + 1) })
      | none => none
    | _ => none
  | _ => none

/-- One step of worker `w` on its own (lines 64-71, the send of line 65 being to a
buffered channel). -/
def stepWork (f : Option V → Option V × Option GoError) (s : State V) (w : Nat)
    (t : structWorker V) : Option (State V) :=
  match t.pc with
  | .select =>
    -- `case <-worker.close: return`, then the deferred `close(worker.closed)`
    if t.close then
      if t.closed then some s.panic
      else some (s.setThread w { t with pc := .exited, closed := true })
    else none
  | .call r => some (s.setThread w { t with pc := .send r ⟨(f r.param).1, (f r.param).2⟩ })
  | .send r res =>
    match s.calls[r.outputChannel]? with
    | none => none
    | some x =>
      if x.closed then some s.panic
      else if x.buf.length < x.cap then
        some ((s.setCall r.outputChannel { x with buf := x.buf ++ [res] }).setThread
          w { t with pc := .dec r })
      else none
  | .dec r => some ((s.addQueued (-1)).setThread w { t with pc := .done r })
  | .done r =>
    match r.wg with
    | none => some (s.setThread w { t with pc := .select })
    | some g =>
      match s.calls[g]? with
      | none => none
      | some x =>
        -- `wg.Done()`
        if x.wg = 0 then some s.panic
        else some ((s.setCall g { x with wg := x.wg - 1 }).setThread w { t with pc := .select })
  | .exited => none

/-- The send of line 65 on the unbuffered `output` of `Execute` meets the receive of
line 144; `Execute` returns `result.Output, result.Err`. -/
def stepDeliver (s : State V) (w c : Nat) (t : structWorker V) (x : Call V) : Option (State V) :=
  match t.pc with
  | .send r res =>
    if r.outputChannel = c then
      match x.pc with
      | .execAwait =>
        if x.closed then some s.panic
        else some ((s.setThread w { t with pc := .dec r }).setCall
              c { x with pc := .execReturned res.Output res.Err })
      | _ => none
    else none
  | _ => none

/-- One step of the goroutine of lines 167-170 of call `c`. -/
def stepCloser (s : State V) (c : Nat) (x : Call V) : Option (State V) :=
  match x.closer with
  | .absent => none
  | .wait => if x.wg = 0 then some (s.setCall c { x with closer := .close }) else none
  | .close =>
    if x.closed then some s.panic
    else some (s.setCall c { x with closed := true, closer := .finished })
  | .finished => none

/-- One receive of the consumer from the channel returned by `ExecuteA` / `ExecuteM`. -/
def stepRecv (s : State V) (c : Nat) (x : Call V) : Option (State V) :=
  match x.pc with
  | .mReturned =>
    if x.drained then none
    else
      match x.buf with
      | r :: rest => some (s.setCall c { x with buf := rest, received := x.received ++ [r] })
      | [] => if x.closed then some (s.setCall c { x with drained := true }) else none
  | _ => none

/-- The transition function: `step f s a` is the state after the step labelled `a`, or
`none` when that step is not enabled in `s` (the goroutine is blocked or does not exist). -/
def step (f : Option V → Option V × Option GoError) (s : State V) (a : Action V) :
    Option (State V) :=
  if s.panicked then none
  else
    match a with
    | .SetSize n =>
      if s.constructed then
        match s.resizer with
        | none =>
          some (s.setResizer
            { n := n, poolLen := s.pool.workers.length, pc := .grow s.pool.workers.length })
        | some _ => none
      else none
    | .resize =>
      match s.resizer with
      | none => none
      | some fr => stepResize s fr
    | .Execute x =>
      if s.constructed then some { s with calls := s.calls ++ [Call.new (.Execute x) .execStart] }
      else none
    | .ExecuteA x =>
      if s.constructed then some { s with calls := s.calls ++ [Call.new (.ExecuteA x) .aStart] }
      else none
    | .ExecuteM xs =>
      if s.constructed then some { s with calls := s.calls ++ [Call.new (.ExecuteM xs) .mStart] }
      else none
    | .caller c =>
      match s.calls[c]? with
      | none => none
      | some x => stepCaller s c x
    | .accept w c =>
      match s.threads[w]?, s.calls[c]? with
      | some t, some x => stepAccept s w c t x
      | _, _ => none
    | .work w =>
      match s.threads[w]? with
      | none => none
      | some t => stepWork f s w t
    | .deliver w c =>
      match s.threads[w]?, s.calls[c]? with
      | some t, some x => stepDeliver s w c t x
      | _, _ => none
    | .closer c =>
      match s.calls[c]? with
      | none => none
      | some x => stepCloser s c x
    | .recv c =>
      match s.calls[c]? with
      | none => none
      | some x => stepRecv s c x

/-- Run a schedule: the steps labelled by the list, in order. -/
def run (f : Option V → Option V × Option GoError) (s : State V) :
    List (Action V) → Option (State V)
  | [] => some s
  | a :: as => (step f s a).bind (fun s' => run f s' as)

/-- The states the program can be in, for a pool made by `NewPool(size, f)`. -/
inductive Reachable (f : Option V → Option V × Option GoError) (size : Nat) : State V → Prop
  | init : Reachable f size (NewPool size)
  | step {s s' : State V} (a : Action V) :
      Reachable f size s → step f s a = some s' → Reachable f size s'

/-- `GetSize()`: the length of `pool.workers`, read under the mutex (`none`: the call
is blocked while a `SetSize` holds the mutex). -/
def GetSize (s : State V) : Option Nat :=
  match s.resizer with
  | none => some s.pool.workers.length
  | some _ => none

/-- `GetQueuedJobs()`: an atomic load of the counter. -/
def GetQueuedJobs (s : State V) : Int :=
  s.pool.queuedJobs

/-- The program counter a call starts at. -/
def Api.startPc : Api V → CallerPc V
  | .Execute _ => .execStart
  | .ExecuteA _ => .aStart
  | .ExecuteM _ => .mStart

/-- The label of the step by which a caller enters an entry point. -/
def Api.action : Api V → Action V
  | .Execute x => .Execute x
  | .ExecuteA x => .ExecuteA x
  | .ExecuteM xs => .ExecuteM xs

/-- The steps at which the Go runtime panics. -/
inductive Panics : State V → Action V → Prop
  | stopIndex {s : State V} (fr : SetSizeCall) (i : Nat) :
      s.resizer = some fr → fr.pc = .stop i → i < fr.poolLen → s.pool.workers[i]? = none → Panics s .resize

  | stopClosed {s : State V} (fr : SetSizeCall) (i h : Nat) (t : structWorker V) :
      s.resizer = some fr → fr.pc = .stop i → i < fr.poolLen → s.pool.workers[i]? = some h →
      s.threads[h]? = some t → t.close = true → Panics s .resize

  | joinIndex {s : State V} (fr : SetSizeCall) (i : Nat) :
      s.resizer = some fr → fr.pc = .join i → i < fr.poolLen → s.pool.workers[i]? = none → Panics s .resize

  | truncate {s : State V} (fr : SetSizeCall) :
      s.resizer = some fr → fr.pc = .truncate → s.pool.workers.length < fr.n → Panics s .resize

  | exitClosed {s : State V} (w : Nat) (t : structWorker V) :
      s.threads[w]? = some t → t.pc = .select → t.close = true → t.closed = true → Panics s (.work w)

  | sendClosed {s : State V} (w : Nat) (t : structWorker V) (r : request V) (res : Result V)
      (x : Call V) :
      s.threads[w]? = some t → t.pc = .send r res → s.calls[r.outputChannel]? = some x →
      x.closed = true → Panics s (.work w)

  | deliverClosed {s : State V} (w : Nat) (t : structWorker V) (r : request V) (res : Result V)
      (x : Call V) :
      s.threads[w]? = some t → t.pc = .send r res → s.calls[r.outputChannel]? = some x →
      x.pc = .execAwait → x.closed = true → Panics s (.deliver w r.outputChannel)

  | doneNegative {s : State V} (w : Nat) (t : structWorker V) (r : request V) (g : Nat)
      (x : Call V) :
      s.threads[w]? = some t → t.pc = .done r → r.wg = some g → s.calls[g]? = some x →
      x.wg = 0 → Panics s (.work w)

  | closeClosed {s : State V} (c : Nat) (x : Call V) :
      s.calls[c]? = some x → x.closer = .close → x.closed = true → Panics s (.closer c)

/-- The transition relation, one constructor per kind of step. -/
inductive Step (f : Option V → Option V × Option GoError) :
    State V → Action V → State V → Prop
  | panic {s : State V} {a : Action V} : Panics s a → Step f s a s.panic

  | lock {s : State V} (n : Nat) :
      s.constructed = true → s.resizer = none →
      Step f s (.SetSize n) (s.setResizer
        { n := n, poolLen := s.pool.workers.length, pc := .grow s.pool.workers.length })

  | spawn {s : State V} (fr : SetSizeCall) (i : Nat) :
      s.resizer = some fr → fr.pc = .grow i → i < fr.n →
      Step f s .resize
        { s with threads := s.threads ++ [{ close := false, closed := false, pc := .select }],
                 resizer := some { fr with pc := .append i s.threads.length } }

  | growEnd {s : State V} (fr : SetSizeCall) (i : Nat) :
      s.resizer = some fr → fr.pc = .grow i → ¬ i < fr.n →
      Step f s .resize (s.setResizer { fr with pc := .stop fr.n })

  | append {s : State V} (fr : SetSizeCall) (i w : Nat) :
      s.resizer = some fr → fr.pc = .append i w →
      Step f s .resize
        { s with pool := { s.pool with workers := s.pool.workers ++ [w] },
                 resizer := some { fr with pc := .grow (i + 1) } }

  | stop {s : State V} (fr : SetSizeCall) (i h : Nat) (t : structWorker V) :
      s.resizer = some fr → fr.pc = .stop i → i < fr.poolLen → s.pool.workers[i]? = some h →
      s.threads[h]? = some t → t.close = false →
      Step f s .resize ((s.setThread h { t with close := true }).setResizer { fr with pc := .stop (i + 1) })

  | stopEnd {s : State V} (fr : SetSizeCall) (i : Nat) :
      s.resizer = some fr → fr.pc = .stop i → ¬ i < fr.poolLen →
      Step f s .resize (s.setResizer { fr with pc := .join fr.n })

  | join {s : State V} (fr : SetSizeCall) (i h : Nat) (t : structWorker V) :
      s.resizer = some fr → fr.pc = .join i → i < fr.poolLen → s.pool.workers[i]? = some h →
      s.threads[h]? = some t → t.closed = true →
      Step f s .resize (s.setResizer { fr with pc := .join (i + 1) })

  | joinEnd {s : State V} (fr : SetSizeCall) (i : Nat) :
      s.resizer = some fr → fr.pc = .join i → ¬ i < fr.poolLen →
      Step f s .resize (s.setResizer { fr with pc := .truncate })

  | truncate {s : State V} (fr : SetSizeCall) :
      s.resizer = some fr → fr.pc = .truncate → fr.n ≤ s.pool.workers.length →
      Step f s .resize
        { s with pool := { s.pool with workers := s.pool.workers.take fr.n },
                 resizer := none,
                 constructed := true }

  | newCall {s : State V} (api : Api V) :
      s.constructed = true →
      Step f s api.action { s with calls := s.calls ++ [Call.new api api.startPc] }

  | execStart {s : State V} (c : Nat) (x : Call V) :
      s.calls[c]? = some x → x.pc = .execStart →
      Step f s (.caller c) ((s.addQueued 1).setCall c { x with pc := .execPush, cap := 0 })

  | execClosed {s : State V} (c : Nat) (x : Call V) :
      s.calls[c]? = some x → x.pc = .execAwait → x.closed = true →
      Step f s (.caller c) (s.setCall c { x with pc := .execReturned none (some .ErrPoolClosed) })

  | aStart {s : State V} (c : Nat) (x : Call V) :
      s.calls[c]? = some x → x.pc = .aStart →
      Step f s (.caller c) ((s.addQueued 1).setCall c { x with pc := .mStart })

  | mStart {s : State V} (c : Nat) (x : Call V) :
      s.calls[c]? = some x → x.pc = .mStart →
      Step f s (.caller c) ((s.addQueued x.api.input.length).setCall c
        { x with pc := .mPush 0, cap := x.api.input.length, wg := x.wg + x.api.input.length })

  | mReturn {s : State V} (c : Nat) (x : Call V) (i : Nat) :
      s.calls[c]? = some x → x.pc = .mPush i → ¬ i < x.api.input.length →
      Step f s (.caller c) (s.setCall c { x with pc := .mReturned, closer := .wait })

  | acceptExec {s : State V} (w c : Nat) (t : structWorker V) (x : Call V) (p : Option V) :
      s.threads[w]? = some t → s.calls[c]? = some x → t.pc = .select → x.pc = .execPush →
      x.api.input[0]? = some p →
      Step f s (.accept w c) ((s.setThread w
        { t with pc := .call { param := p, outputChannel := c, wg := none } }).setCall
          c { x with pc := .execAwait })

  | acceptBatch {s : State V} (w c : Nat) (t : structWorker V) (x : Call V) (i : Nat)
      (p : Option V) :
      s.threads[w]? = some t → s.calls[c]? = some x → t.pc = .select → x.pc = .mPush i →
      x.api.input[i]? = some p →
      Step f s (.accept w c) ((s.setThread w
        { t with pc := .call { param := p, outputChannel := c, wg := some c } }).setCall
          c { x with pc := .mPush (i + 1) })

  | exit {s : State V} (w : Nat) (t : structWorker V) :
      s.threads[w]? = some t → t.pc = .select → t.close = true → t.closed = false →
      Step f s (.work w) (s.setThread w { t with pc := .exited, closed := true })

  | callF {s : State V} (w : Nat) (t : structWorker V) (r : request V) :
      s.threads[w]? = some t → t.pc = .call r →
      Step f s (.work w) (s.setThread w { t with pc := .send r ⟨(f r.param).1, (f r.param).2⟩ })

  | sendBuf {s : State V} (w : Nat) (t : structWorker V) (r : request V) (res : Result V)
      (x : Call V) :
      s.threads[w]? = some t → t.pc = .send r res → s.calls[r.outputChannel]? = some x →
      x.closed = false → x.buf.length < x.cap →
      Step f s (.work w) ((s.setCall r.outputChannel { x with buf := x.buf ++ [res] }).setThread
          w { t with pc := .dec r })

  | dec {s : State V} (w : Nat) (t : structWorker V) (r : request V) :
      s.threads[w]? = some t → t.pc = .dec r →
      Step f s (.work w) ((s.addQueued (-1)).setThread w { t with pc := .done r })

  | doneNil {s : State V} (w : Nat) (t : structWorker V) (r : request V) :
      s.threads[w]? = some t → t.pc = .done r → r.wg = none →
      Step f s (.work w) (s.setThread w { t with pc := .select })

  | doneWg {s : State V} (w : Nat) (t : structWorker V) (r : request V) (g : Nat) (x : Call V) :
      s.threads[w]? = some t → t.pc = .done r → r.wg = some g → s.calls[g]? = some x →
      x.wg ≠ 0 →
      Step f s (.work w) ((s.setCall g { x with wg := x.wg - 1 }).setThread w { t with pc := .select })

  | deliver {s : State V} (w c : Nat) (t : structWorker V) (r : request V) (res : Result V)
      (x : Call V) :
      s.threads[w]? = some t → s.calls[c]? = some x → t.pc = .send r res →
      r.outputChannel = c → x.pc = .execAwait → x.closed = false →
      Step f s (.deliver w c) ((s.setThread w { t with pc := .dec r }).setCall
              c { x with pc := .execReturned res.Output res.Err })

  | closerWait {s : State V} (c : Nat) (x : Call V) :
      s.calls[c]? = some x → x.closer = .wait → x.wg = 0 →
      Step f s (.closer c) (s.setCall c { x with closer := .close })

  | closerClose {s : State V} (c : Nat) (x : Call V) :
      s.calls[c]? = some x → x.closer = .close → x.closed = false →
      Step f s (.closer c) (s.setCall c { x with closed := true, closer := .finished })

  | recv {s : State V} (c : Nat) (x : Call V) (r : Result V) (rest : List (Result V)) :
      s.calls[c]? = some x → x.pc = .mReturned → x.drained = false → x.buf = r :: rest →
      Step f s (.recv c) (s.setCall c { x with buf := rest, received := x.received ++ [r] })

  | recvClosed {s : State V} (c : Nat) (x : Call V) :
      s.calls[c]? = some x → x.pc = .mReturned → x.drained = false → x.buf = [] →
      x.closed = true →
      Step f s (.recv c) (s.setCall c { x with drained := true })

/-- Sum of a natural-number measure over a list. -/
def lsum {α : Type} (g : α → Nat) (l : List α) : Nat := (l.map g).sum

/-- `Upd l l' i a b`: `l'` is `l` with the entry `a` at index `i` replaced by `b`, or
nothing changed (and `a = b`). -/
inductive Upd {α : Type} : List α → List α → Nat → α → α → Prop
  | same (l : List α) (i : Nat) (a : α) : Upd l l i a a
  | set (l : List α) (i : Nat) (a b : α) : l[i]? = some a → Upd l (l.set i b) i a b

/-- The request a worker holds, if it is between the receive of line 59 and the end of
the loop body. -/
def WorkerPc.job : WorkerPc V → Option (request V)
  | .call r => some r
  | .send r _ => some r
  | .dec r => some r
  | .done r => some r
  | .select => none
  | .exited => none

/-- The `Result` the worker builds from `pool.f(param)` (lines 64-65). -/
def Rf (f : Option V → Option V × Option GoError) (p : Option V) : Result V :=
  ⟨(f p).1, (f p).2⟩

def Api.isExecute : Api V → Bool
  | .Execute _ => true
  | _ => false

def CallerPc.isExec : CallerPc V → Bool
  | .execStart => true
  | .execPush => true
  | .execAwait => true
  | .execReturned _ _ => true
  | _ => false

/-- The `wg` field of the requests a call sends. -/
def wgFor (x : Call V) (c : Nat) : Option Nat :=
  if x.api.isExecute then none else some c

/-- The worker holds a request whose `wg` is the `WaitGroup` of call `c` and has not yet
called `Done`. -/
def holdsWg (c : Nat) (t : structWorker V) : Nat :=
  match t.pc.job with
  | some r => if r.wg = some c then 1 else 0
  | none => 0

/-- The worker holds a request and has not yet decremented `queuedJobs` for it. -/
def counted (t : structWorker V) : Nat :=
  match t.pc with
  | .call _ => 1
  | .send _ _ => 1
  | .dec _ => 1
  | _ => 0

/-- The worker holds a request of call `c` whose result satisfies `p` and is not yet sent. -/
def pendingP (f : Option V → Option V × Option GoError) (p : Result V → Bool) (c : Nat)
    (t : structWorker V) : Nat :=
  match t.pc with
  | .call r => if r.outputChannel = c ∧ p (Rf f r.param) = true then 1 else 0
  | .send r res => if r.outputChannel = c ∧ p res = true then 1 else 0
  | _ => 0

/-- Results satisfying `p` that have left the workers: in the buffer of `output`,
received by the consumer, or returned by `Execute`. -/
def delivered (p : Result V → Bool) (x : Call V) : Nat :=
  (x.received ++ x.buf).countP p +
    match x.pc with
    | .execReturned o e => if p ⟨o, e⟩ = true then 1 else 0
    | _ => 0

/-- Results satisfying `p` of the inputs not yet sent to a worker. -/
def unsent (f : Option V → Option V × Option GoError) (p : Result V → Bool) (x : Call V) : Nat :=
  match x.pc with
  | .execStart => (x.api.input.map (Rf f)).countP p
  | .execPush => (x.api.input.map (Rf f)).countP p
  | .aStart => (x.api.input.map (Rf f)).countP p
  | .mStart => (x.api.input.map (Rf f)).countP p
  | .mPush i => ((x.api.input.drop i).map (Rf f)).countP p
  | _ => 0

/-- Requests the call has added to `queuedJobs` and not yet handed to a worker. -/
def unpushed (x : Call V) : Nat :=
  match x.pc with
  | .execPush => 1
  | .mPush i => x.api.input.length - i
  | _ => 0

/-- Requests the call has added to its `WaitGroup` and not yet handed to a worker. -/
def unpushedW (x : Call V) : Nat :=
  match x.pc with
  | .mPush i => x.api.input.length - i
  | _ => 0

/-- The increment of line 153, which no decrement matches. -/
def leaked (x : Call V) : Nat :=
  match x.api, x.pc with
  | .ExecuteA _, .aStart => 0
  | .ExecuteA _, _ => 1
  | _, _ => 0

/-- Facts about one call. -/
structure CallOk (x : Call V) : Prop where
  kind : x.pc.isExec = x.api.isExecute
  closed_fin : x.closed = true → x.closer = .finished
  closer_ret : x.closer ≠ .absent → x.pc = .mReturned
  closer_wg : x.closer = .close ∨ x.closer = .finished → x.wg = 0
  cap_eq : x.pc = .mReturned ∨ (∃ i, x.pc = .mPush i) → x.cap = x.api.input.length
  astart : x.pc = .aStart → ∃ v, x.api = .ExecuteA v
  drained_ok : x.drained = true → x.closed = true ∧ x.buf = []
  start_wg : x.pc = .execStart ∨ x.pc = .aStart ∨ x.pc = .mStart → x.wg = 0

/-- The invariant on calls, requests and counters. -/
structure QInv (f : Option V → Option V × Option GoError) (s : State V) : Prop where
  callOk : ∀ (c : Nat) (x : Call V), s.calls[c]? = some x → CallOk x
  reqOk : ∀ (h : Nat) (t : structWorker V) (r : request V), s.threads[h]? = some t → t.pc.job = some r →
    ∃ x, s.calls[r.outputChannel]? = some x ∧ r.wg = wgFor x r.outputChannel
  noReq : ∀ (c : Nat), s.calls.length ≤ c → ∀ (h : Nat) (t : structWorker V) (r : request V), s.threads[h]? = some t → t.pc.job = some r →
    r.wg ≠ some c
  wgInv : ∀ (c : Nat) (x : Call V), s.calls[c]? = some x → x.wg = unpushedW x + lsum (holdsWg c) s.threads
  resInv : ∀ (p : Result V → Bool) (c : Nat) (x : Call V), s.calls[c]? = some x →
    delivered p x + lsum (pendingP f p c) s.threads + unsent f p x
      = (x.api.input.map (Rf f)).countP p
  cntInv : s.pool.queuedJobs
    = ((lsum unpushed s.calls + lsum counted s.threads + lsum leaked s.calls : Nat) : Int)

variable {f : Option V → Option V × Option GoError}

/-- The channel `close` of worker `h` has been closed: its stop signal is raised. -/
def closeAt (s : State V) (h : Nat) : Bool :=
  match s.threads[h]? with
  | some t => t.close
  | none => false

/-- The channel `closed` of worker `h` has been closed: the worker confirmed that it ended. -/
def closedAt (s : State V) (h : Nat) : Bool :=
  match s.threads[h]? with
  | some t => t.closed
  | none => false

/-- Facts about one worker goroutine. -/
structure ThreadOk (t : structWorker V) : Prop where
  closed_iff : t.closed = true ↔ t.pc = .exited
  closed_close : t.closed = true → t.close = true

/-- What holds of `pool.workers` at each point of `SetSize`, and while the mutex is free. -/
def PhaseOk (s : State V) : Prop :=
  match s.resizer with
  | none => ∀ (j h : Nat), s.pool.workers[j]? = some h → closeAt s h = false
  | some fr =>
    match fr.pc with
    | .grow i =>
      s.pool.workers.length = i ∧ fr.poolLen ≤ i ∧ i ≤ max fr.n fr.poolLen ∧
        ∀ (j h : Nat), s.pool.workers[j]? = some h → closeAt s h = false
    | .append i w =>
      s.pool.workers.length = i ∧ fr.poolLen ≤ i ∧ i < fr.n ∧
        (∀ (j h : Nat), s.pool.workers[j]? = some h → closeAt s h = false) ∧
        w < s.threads.length ∧ w ∉ s.pool.workers ∧ closeAt s w = false ∧ closedAt s w = false
    | .stop i =>
      fr.n ≤ s.pool.workers.length ∧ fr.poolLen ≤ s.pool.workers.length ∧
        s.pool.workers.length ≤ max fr.n fr.poolLen ∧ fr.n ≤ i ∧ i ≤ max fr.n fr.poolLen ∧
        ∀ (j h : Nat), s.pool.workers[j]? = some h → (closeAt s h = true ↔ fr.n ≤ j ∧ j < i)
    | .join i =>
      fr.n ≤ s.pool.workers.length ∧ fr.poolLen ≤ s.pool.workers.length ∧
        s.pool.workers.length ≤ max fr.n fr.poolLen ∧ fr.n ≤ i ∧
        (∀ (j h : Nat), s.pool.workers[j]? = some h →
          (closeAt s h = true ↔ fr.n ≤ j ∧ j < fr.poolLen)) ∧
        ∀ (j h : Nat), s.pool.workers[j]? = some h → fr.n ≤ j → j < i → closedAt s h = true
    | .truncate =>
      fr.n ≤ s.pool.workers.length ∧ fr.poolLen ≤ s.pool.workers.length ∧
        s.pool.workers.length ≤ max fr.n fr.poolLen ∧
        (∀ (j h : Nat), s.pool.workers[j]? = some h →
          (closeAt s h = true ↔ fr.n ≤ j ∧ j < fr.poolLen)) ∧
        ∀ (j h : Nat), s.pool.workers[j]? = some h → fr.n ≤ j → j < fr.poolLen →
          closedAt s h = true

/-- The invariant on the worker slice, the worker goroutines and the mutex holder, for a
pool made by `NewPool(size, f)`. -/
structure SInv (size : Nat) (s : State V) : Prop where
  nodup : s.pool.workers.Nodup
  valid : ∀ h ∈ s.pool.workers, h < s.threads.length
  threadOk : ∀ (h : Nat) (t : structWorker V), s.threads[h]? = some t → ThreadOk t
  offset : ∀ (h : Nat), h < s.threads.length → h ∉ s.pool.workers →
    closedAt s h = true ∨ ∃ fr i, s.resizer = some fr ∧ fr.pc = .append i h
  phase : PhaseOk s
  ctor : s.constructed = false → ∃ fr, s.resizer = some fr ∧ fr.n = size

/-- What the steps of worker `h` keep of the rest of the state. -/
structure WFrame (h : Nat) (s s' : State V) : Prop where
  resizer : s'.resizer = s.resizer
  workers : s'.pool.workers = s.pool.workers
  constructed : s'.constructed = s.constructed
  tlen : s'.threads.length = s.threads.length
  clen : s'.calls.length = s.calls.length
  close : ∀ k, closeAt s' k = closeAt s k
  closed : ∀ k, closedAt s' k = closedAt s k
  fresh : ∀ (c : Nat) (x : Call V), s.calls[c]? = some x →
    (x.pc = .execStart ∨ x.pc = .aStart ∨ x.pc = .mStart) → s'.calls[c]? = some x
  others : ∀ k, k ≠ h → s'.threads[k]? = s.threads[k]?
  keep : ∀ (c : Nat) (x : Call V), s.calls[c]? = some x →
    ∃ x', s'.calls[c]? = some x' ∧ x'.api = x.api ∧ (x.pc ≠ .execAwait → x'.pc = x.pc) ∧
      x'.closer = x.closer ∧ x'.drained = x.drained ∧ x'.closed = x.closed

/-- The outcome of a completed `SetSize(n)`. -/
def Finished (f : Option V → Option V × Option GoError) (s : State V) (n : Nat) : Prop :=
  ∃ acts s', run f s acts = some s' ∧ s'.resizer = none ∧ s'.constructed = true ∧
    s'.pool.workers.length = n

/-- The labels by which a caller submits work. -/
def Action.isSubmit : Action V → Bool
  | .Execute _ => true
  | .ExecuteA _ => true
  | .ExecuteM _ => true
  | _ => false

/-- The call has returned to its caller. -/
def CallerPc.isReturned : CallerPc V → Bool
  | .execReturned _ _ => true
  | .mReturned => true
  | _ => false

/-- How one step relates the old and new state of the worker and of the call it touches. -/
structure Local (s s' : State V) (a : Action V) (c : Nat) (t t' : structWorker V)
    (x x' : Call V) : Prop where
  api : x'.api = x.api
  ret : x.pc.isReturned = true → x'.pc = x.pc
  exit : t'.pc = .exited → t.pc = .select ∨ t.pc = .exited
  job : ∀ r, t'.pc.job = some r → counted t' = 1 →
    (t.pc.job = some r ∧ counted t = 1) ∨
      (s.calls[c]? = some x ∧ r.outputChannel = c ∧ x.pc.isReturned = false)
  frame : a ≠ .resize → (∀ n, a ≠ .SetSize n) →
    s'.resizer = s.resizer ∧ s'.pool.workers = s.pool.workers ∧ t'.close = t.close

/-- No submission is in flight: every call has returned and no worker holds a request
whose decrement of `queuedJobs` is still to come. -/
def quiet (s : State V) : Bool :=
  s.calls.all (fun x => x.pc.isReturned) && s.threads.all (fun t => counted t == 0)

/-- What holds while the batch made in `s0` is the only submission in flight. -/
structure Alone (s0 : State V) (xs : List (Option V)) (s : State V) : Prop where
  len : s.calls.length = s0.calls.length + 1
  old : ∀ (j : Nat) (y : Call V), s0.calls[j]? = some y →
    ∃ y', s.calls[j]? = some y' ∧ y'.api = y.api ∧ y'.pc = y.pc
  new : ∃ x, s.calls[s0.calls.length]? = some x ∧ x.api = .ExecuteM xs
  jobs : ∀ (k : Nat) (t : structWorker V) (r : request V), s.threads[k]? = some t →
    t.pc.job = some r → counted t = 1 → r.outputChannel = s0.calls.length

/-- The label is the entry of a caller into `SetSize`. -/
def Action.isSetSize : Action V → Bool
  | .SetSize _ => true
  | _ => false

/-- What holds of `pool.workers` and of the number of goroutines started, during and
after the call `SetSize(n)` that was made when the slice was `ws` and `T0` worker
goroutines had been started. -/
def Mid (ws : List Nat) (T0 n : Nat) (s : State V) : Prop :=
  match s.resizer with
  | none =>
    s.pool.workers = ws.take n ++ List.range' T0 (n - ws.length) ∧
      s.threads.length = T0 + (n - ws.length)
  | some fr =>
    fr.n = n ∧ fr.poolLen = ws.length ∧
      match fr.pc with
      | .grow i =>
        ws.length ≤ i ∧ i ≤ max n ws.length ∧
          s.pool.workers = ws ++ List.range' T0 (i - ws.length) ∧
          s.threads.length = T0 + (i - ws.length)
      | .append i w =>
        ws.length ≤ i ∧ i < n ∧ w = T0 + (i - ws.length) ∧
          s.pool.workers = ws ++ List.range' T0 (i - ws.length) ∧
          s.threads.length = T0 + (i - ws.length) + 1
      | _ =>
        s.pool.workers = ws ++ List.range' T0 (n - ws.length) ∧
          s.threads.length = T0 + (n - ws.length)

/-- The number of jobs being executed: the worker goroutines that have received a request
(line 59) and have not yet reached the end of the loop body.  A worker holds at most one
request, so this counts the jobs as well as the busy workers. -/
def jobsRunning (s : State V) : Nat :=
  s.threads.countP (fun t => t.pc.job.isSome)

/-- The worker whose goroutine `newWorker` has started (line 131) inside the call of
`SetSize` that holds the mutex and that line 103 has not yet appended to `pool.workers`. -/
def startedNotAppended (s : State V) : List Nat :=
  match s.resizer with
  | some fr =>
    match fr.pc with
    | .append _ w => [w]
    | _ => []
  | none => []

/-- The user function of `TestPoolFunc`, on natural numbers: `in * 2` and a nil error; on
a nil input it reports an error. -/
def fdouble : Option Nat → Option Nat × Option GoError
  | some n => (some (2 * n), none)
  | none => (none, some (.userError 1))

/-- The six steps of `NewPool(1, f)`: the loop of line 102 starts and appends one worker,
the two other loops are empty, line 112 and the return. -/
def newPool1 : List (Action Nat) :=
  [.resize, .resize, .resize, .resize, .resize, .resize]

/-- The pool that `NewPool(1, f)` returns. -/
def pool1 : State Nat :=
  { pool := { queuedJobs := 0, workers := [0] }
    threads := [{ close := false, closed := false, pc := .select }]
    resizer := none
    calls := []
    constructed := true
    panicked := false }

/-- A complete `ExecuteM([10, 11])` on `pool1`: both requests go to the one worker, the
background goroutine closes the channel, the consumer receives twice and sees it closed. -/
def batchSchedule : List (Action Nat) :=
  [.caller 0, .accept 0 0, .work 0, .work 0, .work 0, .work 0,
    .accept 0 0, .caller 0, .work 0, .work 0, .work 0, .work 0,
    .closer 0, .closer 0, .recv 0, .recv 0, .recv 0]

/-- The state after `batchSchedule`. -/
def batchFinal : State Nat :=
  (run fdouble pool1 (.ExecuteM [some 10, some 11] :: batchSchedule)).getD pool1

/-- `NewPool(1, f)`, then `Execute(10)` up to its return: the worker receives the request,
calls `f`, and its send of line 65 meets the receive of line 144. -/
def executeSchedule : List (Action Nat) :=
  newPool1 ++ [.Execute (some 10), .caller 0, .accept 0 0, .work 0, .deliver 0 0]

/-- `NewPool(1, f)`, then `ExecuteA(10)` until the consumer has received the one result
and has seen the channel closed. -/
def executeASchedule : List (Action Nat) :=
  newPool1 ++ [.ExecuteA (some 10), .caller 0, .caller 0, .accept 0 0, .caller 0,
    .work 0, .work 0, .work 0, .work 0, .closer 0, .closer 0, .recv 0, .recv 0]

/-- `NewPool(1, f)`, a call of `Execute(10)` that reaches its send of line 143, then a
complete `Close()`: the stop signal is raised, the idle worker takes it, `SetSize(0)`
joins the worker and truncates the slice. -/
def closeSchedule : List (Action Nat) :=
  newPool1 ++ [.Execute (some 10), .caller 0, .SetSize 0, .resize, .resize, .work 0,
    .resize, .resize, .resize, .resize]

/-- `NewPool(0, f)`, a call of `Execute(10)` that waits at its send of line 143, then
`SetSize(1)` up to the return of `newWorker`: the goroutine started at line 131 receives
the request before line 103 has appended the worker. -/
def growSchedule : List (Action Nat) :=
  [.resize, .resize, .resize, .resize, .Execute (some 10), .caller 0, .SetSize 1,
    .resize, .accept 0 0]

/-- The state after `growSchedule`. -/
def growState : State Nat :=
  (run fdouble (NewPool 0) growSchedule).getD pool1

/-! ## Theorems -/

theorem step_not_panicked {s s' : State V} {a : Action V} (h : step f s a = some s') :
    s.panicked = false := by
  unfold step at h
  split at h
  · simp at h
  · simp_all

theorem stepResize_sound {s s' : State V} {fr : SetSizeCall} (hr : s.resizer = some fr)
    (h : stepResize s fr = some s') : Step f s .resize s' := by
  unfold stepResize at h
  split at h
  next i hpc =>
    split at h
    next hi => cases h; exact Step.spawn fr i hr hpc hi
    next hi => cases h; exact Step.growEnd fr i hr hpc hi
  next i w hpc => cases h; exact Step.append fr i w hr hpc
  next i hpc =>
    split at h
    next hi =>
      split at h
      next hw => cases h; exact Step.panic (Panics.stopIndex fr i hr hpc hi hw)
      next hd hw =>
        split at h
        next => cases h
        next t ht =>
          split at h
          next hc => cases h; exact Step.panic (Panics.stopClosed fr i hd t hr hpc hi hw ht hc)
          next hc => cases h; exact Step.stop fr i hd t hr hpc hi hw ht (by simpa using hc)
    next hi => cases h; exact Step.stopEnd fr i hr hpc hi
  next i hpc =>
    split at h
    next hi =>
      split at h
      next hw => cases h; exact Step.panic (Panics.joinIndex fr i hr hpc hi hw)
      next hd hw =>
        split at h
        next => cases h
        next t ht =>
          split at h
          next hc => cases h; exact Step.join fr i hd t hr hpc hi hw ht hc
          next hc => cases h
    next hi => cases h; exact Step.joinEnd fr i hr hpc hi
  next hpc =>
    split at h
    next hn => cases h; exact Step.truncate fr hr hpc hn
    next hn => cases h; exact Step.panic (Panics.truncate fr hr hpc (by omega))

theorem stepCaller_sound {s s' : State V} {c : Nat} {x : Call V} (hc : s.calls[c]? = some x)
    (h : stepCaller s c x = some s') : Step f s (.caller c) s' := by
  unfold stepCaller at h
  split at h
  next hpc => cases h; exact Step.execStart c x hc hpc
  next => cases h
  next hpc =>
    split at h
    next hcl => cases h; exact Step.execClosed c x hc hpc hcl
    next => cases h
  next => cases h
  next hpc => cases h; exact Step.aStart c x hc hpc
  next hpc => cases h; exact Step.mStart c x hc hpc
  next i hpc =>
    split at h
    next => cases h
    next hi => cases h; exact Step.mReturn c x i hc hpc hi
  next => cases h

theorem stepAccept_sound {s s' : State V} {w c : Nat} {t : structWorker V} {x : Call V}
    (hw : s.threads[w]? = some t) (hc : s.calls[c]? = some x)
    (h : stepAccept s w c t x = some s') : Step f s (.accept w c) s' := by
  unfold stepAccept at h
  split at h
  next hpc =>
    split at h
    next hx =>
      split at h
      next p hp => cases h; exact Step.acceptExec w c t x p hw hc hpc hx hp
      next => cases h
    next i hx =>
      split at h
      next p hp => cases h; exact Step.acceptBatch w c t x i p hw hc hpc hx hp
      next => cases h
    next => cases h
  next => cases h

theorem stepWork_sound {s s' : State V} {w : Nat} {t : structWorker V}
    (hw : s.threads[w]? = some t) (h : stepWork f s w t = some s') : Step f s (.work w) s' := by
  unfold stepWork at h
  split at h
  next hpc =>
    split at h
    next hcl =>
      split at h
      next hcd => cases h; exact Step.panic (Panics.exitClosed w t hw hpc hcl hcd)
      next hcd => cases h; exact Step.exit w t hw hpc hcl (by simpa using hcd)
    next => cases h
  next r hpc => cases h; exact Step.callF w t r hw hpc
  next r res hpc =>
    split at h
    next => cases h
    next x hx =>
      split at h
      next hcl => cases h; exact Step.panic (Panics.sendClosed w t r res x hw hpc hx hcl)
      next hcl =>
        split at h
        next hb => cases h; exact Step.sendBuf w t r res x hw hpc hx (by simpa using hcl) hb
        next => cases h
  next r hpc => cases h; exact Step.dec w t r hw hpc
  next r hpc =>
    split at h
    next hg => cases h; exact Step.doneNil w t r hw hpc hg
    next g hg =>
      split at h
      next => cases h
      next x hx =>
        split at h
        next h0 => cases h; exact Step.panic (Panics.doneNegative w t r g x hw hpc hg hx h0)
        next h0 => cases h; exact Step.doneWg w t r g x hw hpc hg hx h0
  next => cases h

theorem stepDeliver_sound {s s' : State V} {w c : Nat} {t : structWorker V} {x : Call V}
    (hw : s.threads[w]? = some t) (hc : s.calls[c]? = some x)
    (h : stepDeliver s w c t x = some s') : Step f s (.deliver w c) s' := by
  unfold stepDeliver at h
  split at h
  next r res hpc =>
    split at h
    next hrc =>
      split at h
      next hx =>
        split at h
        next hcl =>
          cases h
          subst hrc
          exact Step.panic (Panics.deliverClosed w t r res x hw hpc hc hx hcl)
        next hcl =>
          cases h; exact Step.deliver w c t r res x hw hc hpc hrc hx (by simpa using hcl)
      next => cases h
    next => cases h
  next => cases h

theorem stepCloser_sound {s s' : State V} {c : Nat} {x : Call V} (hc : s.calls[c]? = some x)
    (h : stepCloser s c x = some s') : Step f s (.closer c) s' := by
  unfold stepCloser at h
  split at h
  next => cases h
  next hpc =>
    split at h
    next h0 => cases h; exact Step.closerWait c x hc hpc h0
    next => cases h
  next hpc =>
    split at h
    next hcl => cases h; exact Step.panic (Panics.closeClosed c x hc hpc hcl)
    next hcl => cases h; exact Step.closerClose c x hc hpc (by simpa using hcl)
  next => cases h

theorem stepRecv_sound {s s' : State V} {c : Nat} {x : Call V} (hc : s.calls[c]? = some x)
    (h : stepRecv s c x = some s') : Step f s (.recv c) s' := by
  unfold stepRecv at h
  split at h
  next hpc =>
    split at h
    next => cases h
    next hd =>
      split at h
      next r rest hb => cases h; exact Step.recv c x r rest hc hpc (by simpa using hd) hb
      next hb =>
        split at h
        next hcl => cases h; exact Step.recvClosed c x hc hpc (by simpa using hd) hb hcl
        next => cases h
  next => cases h

/-- Every step of the executable transition function is a step of the relation. -/
theorem step_sound {s s' : State V} {a : Action V} (h : step f s a = some s') : Step f s a s' := by
  unfold step at h
  split at h
  · cases h
  · cases a with
    | SetSize n =>
      simp only at h
      split at h
      next hcon =>
        split at h
        next hr => cases h; exact Step.lock n hcon hr
        next => cases h
      next => cases h
    | resize =>
      simp only at h
      split at h
      next => cases h
      next fr hr => exact stepResize_sound hr h
    | Execute x =>
      simp only at h
      split at h
      next hcon => cases h; exact Step.newCall (.Execute x) hcon
      next => cases h
    | ExecuteA x =>
      simp only at h
      split at h
      next hcon => cases h; exact Step.newCall (.ExecuteA x) hcon
      next => cases h
    | ExecuteM xs =>
      simp only at h
      split at h
      next hcon => cases h; exact Step.newCall (.ExecuteM xs) hcon
      next => cases h
    | caller c =>
      simp only at h
      split at h
      next => cases h
      next x hx => exact stepCaller_sound hx h
    | accept w c =>
      simp only at h
      split at h
      next t x ht hx => exact stepAccept_sound ht hx h
      next => cases h
    | work w =>
      simp only at h
      split at h
      next => cases h
      next t ht => exact stepWork_sound ht h
    | deliver w c =>
      simp only at h
      split at h
      next t x ht hx => exact stepDeliver_sound ht hx h
      next => cases h
    | closer c =>
      simp only at h
      split at h
      next => cases h
      next x hx => exact stepCloser_sound hx h
    | recv c =>
      simp only at h
      split at h
      next => cases h
      next x hx => exact stepRecv_sound hx h

@[simp] theorem lsum_nil {α : Type} (g : α → Nat) : lsum g [] = 0 := rfl

@[simp] theorem lsum_cons {α : Type} (g : α → Nat) (a : α) (l : List α) :
    lsum g (a :: l) = g a + lsum g l := by simp [lsum]

@[simp] theorem lsum_append {α : Type} (g : α → Nat) (l₁ l₂ : List α) :
    lsum g (l₁ ++ l₂) = lsum g l₁ + lsum g l₂ := by simp [lsum]

theorem lsum_set {α : Type} (g : α → Nat) {l : List α} {i : Nat} {a : α} (b : α)
    (h : l[i]? = some a) : lsum g (l.set i b) + g a = lsum g l + g b := by
  induction l generalizing i with
  | nil => simp at h
  | cons x xs ih =>
    cases i with
    | zero => simp at h; subst h; simp; omega
    | succ j =>
      simp at h
      have := ih h
      simp; omega

theorem le_lsum {α : Type} (g : α → Nat) {l : List α} {i : Nat} {a : α}
    (h : l[i]? = some a) : g a ≤ lsum g l := by
  induction l generalizing i with
  | nil => simp at h
  | cons x xs ih =>
    cases i with
    | zero => simp at h; subst h; simp
    | succ j => simp at h; have := ih h; simp; omega

theorem lsum_eq_zero {α : Type} (g : α → Nat) {l : List α}
    (h : ∀ (i : Nat) (a : α), l[i]? = some a → g a = 0) : lsum g l = 0 := by
  induction l with
  | nil => rfl
  | cons x xs ih =>
    have h0 := h 0 x (by simp)
    have := ih (fun i a hi => h (i + 1) a (by simpa using hi))
    simp; omega

theorem Upd.lsum {α : Type} (g : α → Nat) {l l' : List α} {i : Nat} {a b : α}
    (h : Upd l l' i a b) : lsum g l' + g a = lsum g l + g b := by
  cases h with
  | same => rfl
  | set _ _ _ hi => exact lsum_set g b hi

theorem Upd.length {α : Type} {l l' : List α} {i : Nat} {a b : α}
    (h : Upd l l' i a b) : l'.length = l.length := by
  cases h with
  | same => rfl
  | set _ _ _ hi => simp

/-- An entry of the new list is an old entry, or it is the new value at the index. -/
theorem Upd.get_new {α : Type} {l l' : List α} {i : Nat} {a b : α}
    (h : Upd l l' i a b) {j : Nat} {y : α} (hj : l'[j]? = some y) :
    (j ≠ i ∧ l[j]? = some y) ∨ (j = i ∧ y = b ∧ l[j]? = some a) ∨ (l[j]? = some y ∧ a = b) := by
  cases h with
  | same => exact Or.inr (Or.inr ⟨hj, rfl⟩)
  | set _ _ _ hi =>
    by_cases hji : j = i
    · subst hji
      have hlt : j < l.length := by
        rcases Nat.lt_or_ge j l.length with h1 | h1
        · exact h1
        · rw [List.getElem?_eq_none h1] at hi; cases hi
      rw [List.getElem?_set_self hlt] at hj
      cases hj
      exact Or.inr (Or.inl ⟨rfl, rfl, hi⟩)
    · rw [List.getElem?_set_ne (Ne.symm hji)] at hj
      exact Or.inl ⟨hji, hj⟩

theorem Upd.get_old {α : Type} {l l' : List α} {i : Nat} {a b : α}
    (h : Upd l l' i a b) {j : Nat} {y : α} (hj : l[j]? = some y) :
    (j ≠ i ∧ l'[j]? = some y) ∨ (j = i ∧ y = a ∧ l'[j]? = some b) ∨ (l'[j]? = some y ∧ a = b) := by
  cases h with
  | same => exact Or.inr (Or.inr ⟨hj, rfl⟩)
  | set _ _ _ hi =>
    by_cases hji : j = i
    · subst hji
      have hlt : j < l.length := by
        rcases Nat.lt_or_ge j l.length with h1 | h1
        · exact h1
        · rw [List.getElem?_eq_none h1] at hi; cases hi
      rw [hi] at hj
      cases hj
      exact Or.inr (Or.inl ⟨rfl, rfl, List.getElem?_set_self hlt⟩)
    · exact Or.inl ⟨hji, by rw [List.getElem?_set_ne (Ne.symm hji)]; exact hj⟩

theorem wgFor_congr {x x' : Call V} (h : x'.api = x.api) (c : Nat) : wgFor x' c = wgFor x c := by
  simp [wgFor, h]

/-- The invariant is kept by a step that replaces the state of at most one worker and of
at most one call and adds `d` to the counter, when the measures balance locally. -/
theorem QInv.upd {s s' : State V} (inv : QInv f s)
    {w c : Nat} {t t' : structWorker V} {x x' : Call V} {d : Int}
    (ht : Upd s.threads s'.threads w t t')
    (hc : Upd s.calls s'.calls c x x')
    (hq : s'.pool.queuedJobs = s.pool.queuedJobs + d)
    (hapi : x'.api = x.api)
    (hok : CallOk x → CallOk x')
    (hreq : ∀ r, t'.pc.job = some r →
      t.pc.job = some r ∨ (s.calls[c]? = some x ∧ r.outputChannel = c ∧ r.wg = wgFor x c))
    (hwg : x'.wg + unpushedW x + holdsWg c t = x.wg + unpushedW x' + holdsWg c t')
    (hwg' : ∀ c', c' ≠ c → holdsWg c' t = holdsWg c' t')
    (hres : ∀ p, delivered p x' + unsent f p x' + pendingP f p c t'
      = delivered p x + unsent f p x + pendingP f p c t)
    (hres' : ∀ p c', c' ≠ c → pendingP f p c' t = pendingP f p c' t')
    (hcnt : d + unpushed x + counted t + leaked x = unpushed x' + counted t' + leaked x') :
    QInv f s' := by
  have hlen : s'.calls.length = s.calls.length := hc.length
  -- an old call is still there, up to the change at `c`
  have hcall : ∀ (j : Nat) (y : Call V), s.calls[j]? = some y →
      ∃ y', s'.calls[j]? = some y' ∧ y'.api = y.api := by
    intro j y hy
    rcases hc.get_old hy with ⟨_, h1⟩ | ⟨_, h1, h2⟩ | ⟨h1, _⟩
    · exact ⟨y, h1, rfl⟩
    · exact ⟨x', h2, by rw [hapi, h1]⟩
    · exact ⟨y, h1, rfl⟩
  have hjob : ∀ (h : Nat) (u : structWorker V) (r : request V),
      s'.threads[h]? = some u → u.pc.job = some r →
      (∃ u0, s.threads[h]? = some u0 ∧ u0.pc.job = some r) ∨
        (s.calls[c]? = some x ∧ r.outputChannel = c ∧ r.wg = wgFor x c) := by
    intro h u r hu hr
    rcases ht.get_new hu with ⟨_, h1⟩ | ⟨_, h1, h2⟩ | ⟨h1, _⟩
    · exact Or.inl ⟨u, h1, hr⟩
    · subst h1
      rcases hreq r hr with h3 | h3
      · exact Or.inl ⟨t, h2, h3⟩
      · exact Or.inr h3
    · exact Or.inl ⟨u, h1, hr⟩
  refine ⟨?_, ?_, ?_, ?_, ?_, ?_⟩
  · intro j y hy
    rcases hc.get_new hy with ⟨_, h1⟩ | ⟨_, h1, h2⟩ | ⟨h1, _⟩
    · exact inv.callOk j y h1
    · subst h1; exact hok (inv.callOk j x h2)
    · exact inv.callOk j y h1
  · intro h u r hu hr
    rcases hjob h u r hu hr with ⟨u0, h1, h2⟩ | ⟨h1, h2, h3⟩
    · obtain ⟨y, hy, hyw⟩ := inv.reqOk h u0 r h1 h2
      obtain ⟨y', hy', hya⟩ := hcall _ y hy
      exact ⟨y', hy', by rw [hyw, wgFor_congr hya]⟩
    · obtain ⟨y', hy', hya⟩ := hcall _ x h1
      exact ⟨y', h2 ▸ hy', by rw [h3, h2, wgFor_congr hya]⟩
  · intro j hj h u r hu hr
    rw [hlen] at hj
    rcases hjob h u r hu hr with ⟨u0, h1, h2⟩ | ⟨h1, h2, h3⟩
    · exact inv.noReq j hj h u0 r h1 h2
    · have hlt : c < s.calls.length := by
        rcases Nat.lt_or_ge c s.calls.length with h4 | h4
        · exact h4
        · rw [List.getElem?_eq_none h4] at h1; cases h1
      rw [h3]
      unfold wgFor
      split
      · simp
      · simp; omega
  · intro j y hy
    have hs := ht.lsum (holdsWg j)
    rcases hc.get_new hy with ⟨hne, h1⟩ | ⟨he, h1, h2⟩ | ⟨h1, he⟩
    · have := inv.wgInv j y h1
      have := hwg' j hne
      omega
    · subst he; subst h1
      have := inv.wgInv j x h2
      omega
    · have := inv.wgInv j y h1
      by_cases hjc : j = c
      · subst hjc; subst he; omega
      · have := hwg' j hjc
        omega
  · intro p j y hy
    have hs := ht.lsum (pendingP f p j)
    rcases hc.get_new hy with ⟨hne, h1⟩ | ⟨he, h1, h2⟩ | ⟨h1, he⟩
    · have := inv.resInv p j y h1
      have := hres' p j hne
      omega
    · subst he; subst h1
      have := inv.resInv p j x h2
      have := hres p
      rw [hapi]
      omega
    · have := inv.resInv p j y h1
      by_cases hjc : j = c
      · subst hjc; subst he
        have := hres p
        omega
      · have := hres' p j hjc
        omega
  · have h1 := ht.lsum counted
    have h2 := hc.lsum unpushed
    have h3 := hc.lsum leaked
    have h4 := inv.cntInv
    rw [hq, h4]
    omega

theorem getElem?_append_single {α : Type} {l : List α} {a y : α} {j : Nat}
    (h : (l ++ [a])[j]? = some y) : l[j]? = some y ∨ (j = l.length ∧ y = a) := by
  rcases Nat.lt_trichotomy j l.length with h1 | h1 | h1
  · rw [List.getElem?_append_left h1] at h; exact Or.inl h
  · subst h1; simp at h; exact Or.inr ⟨rfl, h.symm⟩
  · rw [List.getElem?_eq_none (by simp; omega)] at h; cases h

theorem getElem?_lt {α : Type} {l : List α} {a : α} {j : Nat} (h : l[j]? = some a) :
    j < l.length := by
  rcases Nat.lt_or_ge j l.length with h1 | h1
  · exact h1
  · rw [List.getElem?_eq_none h1] at h; cases h

theorem getElem?_append_old {α : Type} {l : List α} {a y : α} {j : Nat}
    (h : l[j]? = some y) : (l ++ [a])[j]? = some y := by
  rw [List.getElem?_append_left (getElem?_lt h)]; exact h

/-- The invariant does not depend on the mutex, the worker slice or the panic flag. -/
theorem QInv.frameQ {s s' : State V} (inv : QInv f s) (h1 : s'.threads = s.threads)
    (h2 : s'.calls = s.calls) (h3 : s'.pool.queuedJobs = s.pool.queuedJobs) : QInv f s' := by
  refine ⟨?_, ?_, ?_, ?_, ?_, ?_⟩
  · rw [h2]; exact inv.callOk
  · rw [h1, h2]; exact inv.reqOk
  · rw [h1, h2]; exact inv.noReq
  · rw [h1, h2]; exact inv.wgInv
  · rw [h1, h2]; exact inv.resInv
  · rw [h1, h2, h3]; exact inv.cntInv

theorem QInv.no_pending {s : State V} (inv : QInv f s) (p : Result V → Bool) :
    lsum (pendingP f p s.calls.length) s.threads = 0 := by
  apply lsum_eq_zero
  intro h t ht
  unfold pendingP
  split
  next r hpc =>
    obtain ⟨x, hx, _⟩ := inv.reqOk h t r ht (by simp [WorkerPc.job, hpc])
    have := getElem?_lt hx
    have : r.outputChannel ≠ s.calls.length := by omega
    simp [this]
  next r res hpc =>
    obtain ⟨x, hx, _⟩ := inv.reqOk h t r ht (by simp [WorkerPc.job, hpc])
    have := getElem?_lt hx
    have : r.outputChannel ≠ s.calls.length := by omega
    simp [this]
  next => rfl

theorem QInv.no_holds {s : State V} (inv : QInv f s) :
    lsum (holdsWg s.calls.length) s.threads = 0 := by
  apply lsum_eq_zero
  intro h t ht
  unfold holdsWg
  split
  next r hj =>
    have := inv.noReq s.calls.length (Nat.le_refl _) h t r ht hj
    simp [this]
  next => rfl

theorem CallOk.new (api : Api V) : CallOk (Call.new api api.startPc) := by
  cases api <;> constructor <;> simp [Call.new, Api.startPc, CallerPc.isExec, Api.isExecute]

/-- A caller entering `Execute`, `ExecuteA` or `ExecuteM` keeps the invariant. -/
theorem QInv.newCall {s s' : State V} (inv : QInv f s) (api : Api V)
    (h1 : s'.threads = s.threads)
    (h2 : s'.calls = s.calls ++ [Call.new api api.startPc])
    (h3 : s'.pool.queuedJobs = s.pool.queuedJobs) : QInv f s' := by
  refine ⟨?_, ?_, ?_, ?_, ?_, ?_⟩
  · intro c x hx
    rw [h2] at hx
    rcases getElem?_append_single hx with h | ⟨_, h⟩
    · exact inv.callOk c x h
    · rw [h]; exact CallOk.new api
  · intro h t r ht hr
    rw [h1] at ht
    obtain ⟨x, hx, hw⟩ := inv.reqOk h t r ht hr
    exact ⟨x, by rw [h2]; exact getElem?_append_old hx, hw⟩
  · intro c hc h t r ht hr
    rw [h1] at ht
    rw [h2] at hc
    exact inv.noReq c (by simp at hc; omega) h t r ht hr
  · intro c x hx
    rw [h2] at hx
    rw [h1]
    rcases getElem?_append_single hx with h | ⟨hc, h⟩
    · exact inv.wgInv c x h
    · rw [h, hc, inv.no_holds]
      cases api <;> simp [Call.new, Api.startPc, unpushedW]
  · intro p c x hx
    rw [h2] at hx
    rw [h1]
    rcases getElem?_append_single hx with h | ⟨hc, h⟩
    · exact inv.resInv p c x h
    · rw [h, hc, inv.no_pending]
      cases api <;> simp [Call.new, Api.startPc, unsent, delivered]
  · rw [h1, h2, h3, inv.cntInv]
    have : unpushed (Call.new api api.startPc) = 0 := by
      cases api <;> simp [Call.new, Api.startPc, unpushed]
    have : leaked (Call.new api api.startPc) = 0 := by
      cases api <;> simp [Call.new, Api.startPc, leaked]
    simp [*]

/-- Starting a worker goroutine keeps the invariant. -/
theorem QInv.spawn {s s' : State V} (inv : QInv f s)
    (h1 : s'.threads = s.threads ++ [{ close := false, closed := false, pc := .select }])
    (h2 : s'.calls = s.calls)
    (h3 : s'.pool.queuedJobs = s.pool.queuedJobs) : QInv f s' := by
  have hjob : ∀ (h : Nat) (t : structWorker V) (r : request V), s'.threads[h]? = some t →
      t.pc.job = some r → s.threads[h]? = some t := by
    intro h t r ht hr
    rw [h1] at ht
    rcases getElem?_append_single ht with h | ⟨_, h⟩
    · exact h
    · rw [h] at hr; simp [WorkerPc.job] at hr
  refine ⟨?_, ?_, ?_, ?_, ?_, ?_⟩
  · rw [h2]; exact inv.callOk
  · intro h t r ht hr
    rw [h2]
    exact inv.reqOk h t r (hjob h t r ht hr) hr
  · intro c hc h t r ht hr
    rw [h2] at hc
    exact inv.noReq c hc h t r (hjob h t r ht hr) hr
  · intro c x hx
    rw [h2] at hx
    rw [h1, inv.wgInv c x hx]
    simp [holdsWg, WorkerPc.job]
  · intro p c x hx
    rw [h2] at hx
    rw [h1, ← inv.resInv p c x hx]
    simp [pendingP]
  · rw [h1, h2, h3, inv.cntInv]
    simp [counted]

theorem leaked_eq (x x' : Call V) (ha : x'.api = x.api) (h1 : x.pc ≠ .aStart)
    (h2 : x'.pc ≠ .aStart) : leaked x' = leaked x := by
  unfold leaked
  rw [ha]
  cases x.api <;> cases hp : x.pc <;> cases hp' : x'.pc <;> simp_all

theorem input_of_isExecute {api : Api V} (h : api.isExecute = true) :
    ∃ v, api.input = [v] := by
  cases api <;> simp [Api.isExecute, Api.input] at h ⊢

/-- The invariant on calls, requests and counters is kept by every step. -/
theorem QInv.stepQ {s s' : State V} {a : Action V} (inv : QInv f s)
    (h : Step f s a s') : QInv f s' := by
  cases h with
  | panic _ => exact inv.frameQ rfl rfl rfl
  | lock n _ _ => exact inv.frameQ rfl rfl rfl
  | spawn fr i _ _ _ => exact inv.spawn rfl rfl rfl
  | growEnd fr i _ _ _ => exact inv.frameQ rfl rfl rfl
  | append fr i w _ _ => exact inv.frameQ rfl rfl rfl
  | stop fr i h t _ _ _ _ ht hcl =>
    apply QInv.upd inv
    · exact Upd.set s.threads h t _ ht
    · exact Upd.same s.calls 0 (Call.new (.Execute none) .execStart)
    · exact (show _ = _ + (0 : Int) by simp [State.setResizer, State.setThread])
    · rfl
    · exact id
    · intro r hr; exact Or.inl hr
    · simp [holdsWg]
    · intro c' _; simp [holdsWg]
    · intro p; simp [pendingP]
    · intro p c' _; simp [pendingP]
    · simp [counted]
  | stopEnd fr i _ _ _ => exact inv.frameQ rfl rfl rfl
  | join fr i h t _ _ _ _ _ _ => exact inv.frameQ rfl rfl rfl
  | joinEnd fr i _ _ _ => exact inv.frameQ rfl rfl rfl
  | truncate fr _ _ _ => exact inv.frameQ rfl rfl rfl
  | newCall api _ => exact inv.newCall api rfl rfl rfl
  | execStart c x hc hpc =>
    have ok := inv.callOk c x hc
    apply QInv.upd inv
    · exact Upd.same s.threads 0 ⟨false, false, .select⟩
    · exact Upd.set s.calls c x _ hc
    · exact (show _ = _ + (1 : Int) by simp [State.setCall, State.addQueued])
    · rfl
    · intro _
      have h1 := ok.kind
      have h2 := ok.closer_ret
      have h3 := ok.closed_fin
      have h4 := ok.closer_wg
      have h6 := ok.drained_ok
      have h7 := ok.start_wg
      rw [hpc] at h1 h2
      constructor <;> simp_all [CallerPc.isExec]
    · intro r hr; exact Or.inl hr
    · simp [unpushedW, hpc]
    · intro c' _; rfl
    · intro p; simp [delivered, unsent, hpc]
    · intro p c' _; rfl
    · cases hx : x.api <;> simp [unpushed, leaked, hpc, hx, counted]
  | execClosed c x hc hpc hcl =>
    have ok := inv.callOk c x hc
    have h1 := ok.closer_ret (by rw [ok.closed_fin hcl]; simp)
    rw [hpc] at h1; cases h1
  | aStart c x hc hpc =>
    have ok := inv.callOk c x hc
    obtain ⟨v, hv⟩ := ok.astart hpc
    apply QInv.upd inv
    · exact Upd.same s.threads 0 ⟨false, false, .select⟩
    · exact Upd.set s.calls c x _ hc
    · exact (show _ = _ + (1 : Int) by simp [State.setCall, State.addQueued])
    · rfl
    · intro _
      have h1 := ok.kind
      have h2 := ok.closer_ret
      have h3 := ok.closed_fin
      have h4 := ok.closer_wg
      have h6 := ok.drained_ok
      have h7 := ok.start_wg
      rw [hpc] at h1 h2
      constructor <;> simp_all [CallerPc.isExec]
    · intro r hr; exact Or.inl hr
    · simp [unpushedW, hpc]
    · intro c' _; rfl
    · intro p; simp [delivered, unsent, hpc]
    · intro p c' _; rfl
    · simp [unpushed, leaked, hpc, hv, counted]
  | mStart c x hc hpc =>
    have ok := inv.callOk c x hc
    apply QInv.upd inv
    · exact Upd.same s.threads 0 ⟨false, false, .select⟩
    · exact Upd.set s.calls c x _ hc
    · exact (show _ = _ + ((x.api.input.length : Nat) : Int) by simp [State.setCall, State.addQueued])
    · rfl
    · intro _
      have h1 := ok.kind
      have h2 := ok.closer_ret
      have h3 := ok.closed_fin
      have h4 := ok.closer_wg
      have h6 := ok.drained_ok
      have h7 := ok.start_wg
      rw [hpc] at h1 h2
      constructor <;> simp_all [CallerPc.isExec]
    · intro r hr; exact Or.inl hr
    · simp [unpushedW, hpc]
    · intro c' _; rfl
    · intro p; simp [delivered, unsent, hpc]
    · intro p c' _; rfl
    · cases hx : x.api <;> simp [unpushed, leaked, hpc, hx, counted]
  | mReturn c x i hc hpc hi =>
    have ok := inv.callOk c x hc
    apply QInv.upd inv
    · exact Upd.same s.threads 0 ⟨false, false, .select⟩
    · exact Upd.set s.calls c x _ hc
    · exact (show _ = _ + (0 : Int) by simp [State.setCall])
    · rfl
    · intro _
      have h1 := ok.kind
      have h2 := ok.closer_ret
      have h3 := ok.closed_fin
      have h4 := ok.closer_wg
      have h6 := ok.drained_ok
      have h7 := ok.start_wg
      have h5 := ok.cap_eq
      rw [hpc] at h1 h2 h5
      constructor <;> simp_all [CallerPc.isExec]
    · intro r hr; exact Or.inl hr
    · simp [unpushedW, hpc]; omega
    · intro c' _; rfl
    · intro p
      have : List.drop i x.api.input = [] := List.drop_eq_nil_of_le (by omega)
      simp [delivered, unsent, hpc, this]
    · intro p c' _; rfl
    · have hl := leaked_eq x { x with pc := .mReturned, closer := .wait } rfl
        (by simp [hpc]) (by simp)
      simp [unpushed, hpc, hl, counted]; omega
  | acceptExec w c t x p hw hc hpc hx hp =>
    have ok := inv.callOk c x hc
    have hk := ok.kind
    rw [hx] at hk
    obtain ⟨v, hv⟩ := input_of_isExecute hk.symm
    rw [hv] at hp
    simp at hp
    subst hp
    apply QInv.upd inv
    · exact Upd.set s.threads w t _ hw
    · exact Upd.set s.calls c x _ hc
    · exact (show _ = _ + (0 : Int) by simp [State.setCall, State.setThread])
    · rfl
    · intro _
      have h1 := ok.kind
      have h2 := ok.closer_ret
      have h3 := ok.closed_fin
      have h4 := ok.closer_wg
      have h6 := ok.drained_ok
      have h7 := ok.start_wg
      rw [hx] at h1 h2
      constructor <;> simp_all [CallerPc.isExec]
    · intro r hr
      simp [WorkerPc.job] at hr
      subst hr
      exact Or.inr ⟨hc, rfl, by simp [wgFor, ← hk, CallerPc.isExec]⟩
    · simp [unpushedW, hx, holdsWg, WorkerPc.job, hpc]
    · intro c' _; simp [holdsWg, WorkerPc.job, hpc]
    · intro q
      simp [delivered, unsent, hx, pendingP, hpc, hv, List.countP_cons]
    · intro q c' hne; simp [pendingP, hpc, Ne.symm hne]
    · cases hx' : x.api <;> simp [unpushed, leaked, hx, hx', counted, hpc]
  | acceptBatch w c t x i p hw hc hpc hx hp =>
    have ok := inv.callOk c x hc
    have hk := ok.kind
    rw [hx] at hk
    have hi := getElem?_lt hp
    apply QInv.upd inv
    · exact Upd.set s.threads w t _ hw
    · exact Upd.set s.calls c x _ hc
    · exact (show _ = _ + (0 : Int) by simp [State.setCall, State.setThread])
    · rfl
    · intro _
      have h1 := ok.kind
      have h2 := ok.closer_ret
      have h3 := ok.closed_fin
      have h4 := ok.closer_wg
      have h6 := ok.drained_ok
      have h7 := ok.start_wg
      have h5 := ok.cap_eq
      rw [hx] at h1 h2 h5
      constructor <;> simp_all [CallerPc.isExec]
    · intro r hr
      simp [WorkerPc.job] at hr
      subst hr
      exact Or.inr ⟨hc, rfl, by simp [wgFor, ← hk, CallerPc.isExec]⟩
    · simp [unpushedW, hx, holdsWg, WorkerPc.job, hpc]; omega
    · intro c' hne; simp [holdsWg, WorkerPc.job, hpc, Ne.symm hne]
    · intro q
      have hd : List.drop i x.api.input = p :: List.drop (i + 1) x.api.input := by
        rw [List.drop_eq_getElem_cons hi]
        congr 1
        rw [List.getElem?_eq_getElem hi] at hp
        exact Option.some.inj hp
      simp [delivered, unsent, hx, pendingP, hpc, hd, List.countP_cons]
      omega
    · intro q c' hne; simp [pendingP, hpc, Ne.symm hne]
    · have hl := leaked_eq x { x with pc := .mPush (i + 1) } rfl (by simp [hx]) (by simp)
      simp [unpushed, hx, hl, counted, hpc]; omega
  | exit w t hw hpc _ _ =>
    apply QInv.upd inv
    · exact Upd.set s.threads w t _ hw
    · exact Upd.same s.calls 0 (Call.new (.Execute none) .execStart)
    · exact (show _ = _ + (0 : Int) by simp [State.setThread])
    · rfl
    · exact id
    · intro r hr; simp [WorkerPc.job] at hr
    · simp [holdsWg, WorkerPc.job, hpc]
    · intro c' _; simp [holdsWg, WorkerPc.job, hpc]
    · intro p; simp [pendingP, hpc]
    · intro p c' _; simp [pendingP, hpc]
    · simp [counted, hpc]
  | callF w t r hw hpc =>
    apply QInv.upd inv
    · exact Upd.set s.threads w t _ hw
    · exact Upd.same s.calls 0 (Call.new (.Execute none) .execStart)
    · exact (show _ = _ + (0 : Int) by simp [State.setThread])
    · rfl
    · exact id
    · intro r' hr; left; simpa [WorkerPc.job, hpc] using hr
    · simp [holdsWg, WorkerPc.job, hpc]
    · intro c' _; simp [holdsWg, WorkerPc.job, hpc]
    · intro p; simp [pendingP, hpc, Rf]
    · intro p c' _; simp [pendingP, hpc, Rf]
    · simp [counted, hpc]
  | sendBuf w t r res x hw hpc hx hcl hb =>
    have ok := inv.callOk _ x hx
    apply QInv.upd inv
    · exact Upd.set s.threads w t _ hw
    · exact Upd.set s.calls r.outputChannel x _ hx
    · exact (show _ = _ + (0 : Int) by simp [State.setCall, State.setThread])
    · rfl
    · intro _
      refine ⟨ok.kind, ok.closed_fin, ok.closer_ret, ok.closer_wg, ok.cap_eq, ok.astart, ?_, ok.start_wg⟩
      intro hd
      have := (ok.drained_ok hd).1
      rw [hcl] at this; cases this
    · intro r' hr; left; simpa [WorkerPc.job, hpc] using hr
    · simp [unpushedW, holdsWg, WorkerPc.job, hpc]
    · intro c' _; simp [holdsWg, WorkerPc.job, hpc]
    · intro p
      simp [delivered, unsent, pendingP, hpc, List.countP_cons]
      omega
    · intro p c' hne; simp [pendingP, hpc, Ne.symm hne]
    · simp [unpushed, leaked, counted, hpc]
  | dec w t r hw hpc =>
    apply QInv.upd inv
    · exact Upd.set s.threads w t _ hw
    · exact Upd.same s.calls 0 (Call.new (.Execute none) .execStart)
    · exact (show _ = _ + (-1 : Int) by simp [State.setThread, State.addQueued])
    · rfl
    · exact id
    · intro r' hr; left; simpa [WorkerPc.job, hpc] using hr
    · simp [holdsWg, WorkerPc.job, hpc]
    · intro c' _; simp [holdsWg, WorkerPc.job, hpc]
    · intro p; simp [pendingP, hpc]
    · intro p c' _; simp [pendingP, hpc]
    · simp [counted, hpc]
  | doneNil w t r hw hpc hg =>
    apply QInv.upd inv
    · exact Upd.set s.threads w t _ hw
    · exact Upd.same s.calls 0 (Call.new (.Execute none) .execStart)
    · exact (show _ = _ + (0 : Int) by simp [State.setThread])
    · rfl
    · exact id
    · intro r' hr; simp [WorkerPc.job] at hr
    · simp [holdsWg, WorkerPc.job, hpc, hg]
    · intro c' _; simp [holdsWg, WorkerPc.job, hpc, hg]
    · intro p; simp [pendingP, hpc]
    · intro p c' _; simp [pendingP, hpc]
    · simp [counted, hpc]
  | doneWg w t r g x hw hpc hg hx h0 =>
    have ok := inv.callOk _ x hx
    apply QInv.upd inv
    · exact Upd.set s.threads w t _ hw
    · exact Upd.set s.calls g x _ hx
    · exact (show _ = _ + (0 : Int) by simp [State.setCall, State.setThread])
    · rfl
    · intro _
      refine ⟨ok.kind, ok.closed_fin, ok.closer_ret, ?_, ok.cap_eq, ok.astart, ok.drained_ok, ?_⟩
      · intro hcl
        have := ok.closer_wg hcl
        simp [this]
      · intro hst
        have := ok.start_wg hst
        simp [this]
    · intro r' hr; simp [WorkerPc.job] at hr
    · simp [unpushedW, holdsWg, WorkerPc.job, hpc, hg]; omega
    · intro c' hne; simp [holdsWg, WorkerPc.job, hpc, hg, Ne.symm hne]
    · intro p; simp [delivered, unsent, pendingP, hpc]
    · intro p c' hne; simp [pendingP, hpc]
    · simp [unpushed, leaked, counted, hpc]
  | deliver w c t r res x hw hc hpc hrc hx hcl =>
    have ok := inv.callOk _ x hc
    apply QInv.upd inv
    · exact Upd.set s.threads w t _ hw
    · exact Upd.set s.calls c x _ hc
    · exact (show _ = _ + (0 : Int) by simp [State.setCall, State.setThread])
    · rfl
    · intro _
      have h1 := ok.kind
      have h2 := ok.closer_ret
      have h3 := ok.closed_fin
      have h4 := ok.closer_wg
      have h6 := ok.drained_ok
      have h7 := ok.start_wg
      rw [hx] at h1 h2
      constructor <;> simp_all [CallerPc.isExec]
    · intro r' hr; left; simpa [WorkerPc.job, hpc] using hr
    · simp [unpushedW, holdsWg, WorkerPc.job, hpc, hx]
    · intro c' _; simp [holdsWg, WorkerPc.job, hpc]
    · intro p
      simp [delivered, unsent, pendingP, hpc, hx, hrc]
    · intro p c' hne; simp [pendingP, hpc, hrc, Ne.symm hne]
    · cases hx' : x.api <;> simp [unpushed, leaked, hx, hx', counted, hpc]
  | closerWait c x hc hcw h0 =>
    have ok := inv.callOk _ x hc
    apply QInv.upd inv
    · exact Upd.same s.threads 0 ⟨false, false, .select⟩
    · exact Upd.set s.calls c x _ hc
    · exact (show _ = _ + (0 : Int) by simp [State.setCall])
    · rfl
    · intro _
      have h2 := ok.closer_ret
      have h3 := ok.closed_fin
      rw [hcw] at h2 h3
      refine ⟨ok.kind, ?_, ?_, ?_, ok.cap_eq, ok.astart, ok.drained_ok, ok.start_wg⟩
      · intro hcl; simp at h3; simp [h3] at hcl
      · intro _; exact h2 (by simp)
      · intro _; exact h0
    · intro r hr; exact Or.inl hr
    · simp [unpushedW]
    · intro c' _; rfl
    · intro p; simp [delivered, unsent]
    · intro p c' _; rfl
    · simp [unpushed, leaked]
  | closerClose c x hc hcw hcl =>
    have ok := inv.callOk _ x hc
    apply QInv.upd inv
    · exact Upd.same s.threads 0 ⟨false, false, .select⟩
    · exact Upd.set s.calls c x _ hc
    · exact (show _ = _ + (0 : Int) by simp [State.setCall])
    · rfl
    · intro _
      have h2 := ok.closer_ret
      have h4 := ok.closer_wg
      have h6 := ok.drained_ok
      have h7 := ok.start_wg
      rw [hcw] at h2 h4
      refine ⟨ok.kind, ?_, ?_, ?_, ok.cap_eq, ok.astart, ?_, ok.start_wg⟩
      rotate_right
      · intro hd
        have := (ok.drained_ok hd).1
        rw [hcl] at this; cases this
      · intro _; rfl
      · intro _; exact h2 (by simp)
      · intro _; exact h4 (by simp)
    · intro r hr; exact Or.inl hr
    · simp [unpushedW]
    · intro c' _; rfl
    · intro p; simp [delivered, unsent]
    · intro p c' _; rfl
    · simp [unpushed, leaked]
  | recv c x r rest hc hpc hd hb =>
    have ok := inv.callOk _ x hc
    apply QInv.upd inv
    · exact Upd.same s.threads 0 ⟨false, false, .select⟩
    · exact Upd.set s.calls c x _ hc
    · exact (show _ = _ + (0 : Int) by simp [State.setCall])
    · rfl
    · intro _
      refine ⟨ok.kind, ok.closed_fin, ok.closer_ret, ok.closer_wg, ok.cap_eq, ok.astart, ?_, ok.start_wg⟩
      intro hd'
      have hd'' : x.drained = true := hd'
      rw [hd] at hd''; cases hd''
    · intro r hr; exact Or.inl hr
    · simp [unpushedW]
    · intro c' _; rfl
    · intro p; simp [delivered, unsent, hb, List.countP_cons]
    · intro p c' _; rfl
    · simp [unpushed, leaked]
  | recvClosed c x hc hpc hd hb hcl =>
    have ok := inv.callOk _ x hc
    apply QInv.upd inv
    · exact Upd.same s.threads 0 ⟨false, false, .select⟩
    · exact Upd.set s.calls c x _ hc
    · exact (show _ = _ + (0 : Int) by simp [State.setCall])
    · rfl
    · intro _
      exact ⟨ok.kind, ok.closed_fin, ok.closer_ret, ok.closer_wg, ok.cap_eq, ok.astart,
        fun _ => ⟨hcl, hb⟩, ok.start_wg⟩
    · intro r hr; exact Or.inl hr
    · simp [unpushedW]
    · intro c' _; rfl
    · intro p; simp [delivered, unsent]
    · intro p c' _; rfl
    · simp [unpushed, leaked]

theorem PhaseOk.frameP {s s' : State V} (hp : PhaseOk s)
    (hw : s'.pool.workers = s.pool.workers) (hr : s'.resizer = s.resizer)
    (hl : s.threads.length ≤ s'.threads.length)
    (hcl : ∀ h, closeAt s' h = closeAt s h)
    (hcd : ∀ h, closedAt s h = true → closedAt s' h = true)
    (hcd' : ∀ h, closeAt s h = false → closedAt s h = false → closedAt s' h = false) :
    PhaseOk s' := by
  unfold PhaseOk at hp ⊢
  rw [hr, hw]
  cases hres : s.resizer with
  | none =>
    rw [hres] at hp
    simp only [hcl] at hp ⊢
    exact hp
  | some fr =>
    rw [hres] at hp
    cases hpc : fr.pc with
    | grow i => simp only [hpc, hcl] at hp ⊢; exact hp
    | append i w =>
      simp only [hpc, hcl] at hp ⊢
      obtain ⟨h1, h2, h3, h4, h5, h6, h7, h8⟩ := hp
      exact ⟨h1, h2, h3, h4, by omega, h6, h7, hcd' w h7 h8⟩
    | stop i => simp only [hpc, hcl] at hp ⊢; exact hp
    | join i =>
      simp only [hpc, hcl] at hp ⊢
      obtain ⟨h1, h2, h3, h4, h5, h6⟩ := hp
      exact ⟨h1, h2, h3, h4, h5, fun j h a b c => hcd h (h6 j h a b c)⟩
    | truncate =>
      simp only [hpc, hcl] at hp ⊢
      obtain ⟨h1, h2, h3, h4, h5⟩ := hp
      exact ⟨h1, h2, h3, h4, fun j h a b c => hcd h (h5 j h a b c)⟩

/-- A step that leaves the worker slice, the mutex holder and the stop signals alone. -/
theorem SInv.frame {size : Nat} {s s' : State V} (inv : SInv size s)
    {w : Nat} {t t' : structWorker V}
    (ht : Upd s.threads s'.threads w t t')
    (hw : s'.pool.workers = s.pool.workers) (hr : s'.resizer = s.resizer)
    (hcon : s'.constructed = s.constructed)
    (hclose : t'.close = t.close) (hclosed : t.closed = true → t'.closed = true)
    (hclosed' : t'.closed = true → t.close = true)
    (hok : ThreadOk t → ThreadOk t') : SInv size s' := by
  have hlen : s'.threads.length = s.threads.length := ht.length
  have hcl : ∀ h, closeAt s' h = closeAt s h := by
    intro h
    unfold closeAt
    cases hh : s'.threads[h]? with
    | none =>
      have : s.threads[h]? = none := by
        rw [List.getElem?_eq_none_iff] at hh ⊢; omega
      rw [this]
    | some u =>
      rcases ht.get_new hh with ⟨_, h1⟩ | ⟨_, h1, h2⟩ | ⟨h1, _⟩
      · rw [h1]
      · rw [h2, h1]; exact hclose
      · rw [h1]
  have hcd : ∀ h, closedAt s h = true → closedAt s' h = true := by
    intro h
    unfold closedAt
    cases hh : s.threads[h]? with
    | none => simp
    | some u =>
      rcases ht.get_old hh with ⟨_, h1⟩ | ⟨_, h1, h2⟩ | ⟨h1, _⟩
      · rw [h1]; exact id
      · rw [h2, h1]; exact hclosed
      · rw [h1]; exact id
  have hcd' : ∀ h, closeAt s h = false → closedAt s h = false → closedAt s' h = false := by
    intro h
    unfold closedAt closeAt
    cases hh : s'.threads[h]? with
    | none => simp
    | some u =>
      rcases ht.get_new hh with ⟨_, h1⟩ | ⟨_, h1, h2⟩ | ⟨h1, _⟩
      · rw [h1]; exact fun _ a => a
      · rw [h2, h1]
        intro h3 _
        simp only at h3 ⊢
        cases h4 : t'.closed with
        | false => rfl
        | true => rw [hclosed' h4] at h3; cases h3
      · rw [h1]; exact fun _ a => a
  refine ⟨?_, ?_, ?_, ?_, ?_, ?_⟩
  · rw [hw]; exact inv.nodup
  · rw [hw, hlen]; exact inv.valid
  · intro h u hu
    rcases ht.get_new hu with ⟨_, h1⟩ | ⟨_, h1, h2⟩ | ⟨h1, _⟩
    · exact inv.threadOk h u h1
    · rw [h1]; exact hok (inv.threadOk h t h2)
    · exact inv.threadOk h u h1
  · intro h hh hn
    rw [hlen] at hh
    rw [hw] at hn
    rw [hr]
    rcases inv.offset h hh hn with h1 | h1
    · exact Or.inl (hcd h h1)
    · exact Or.inr h1
  · exact inv.phase.frameP hw hr (by omega) hcl hcd hcd'
  · rw [hcon, hr]; exact inv.ctor

theorem closeAt_congr {s s' : State V} (h : s'.threads = s.threads) (k : Nat) :
    closeAt s' k = closeAt s k := by
  unfold closeAt; rw [h]

theorem closedAt_congr {s s' : State V} (h : s'.threads = s.threads) (k : Nat) :
    closedAt s' k = closedAt s k := by
  unfold closedAt; rw [h]

/-- A step of the mutex holder that changes only its own frame. -/
theorem SInv.resizer_step {size : Nat} {s s' : State V} (inv : SInv size s)
    (ht : s'.threads = s.threads) (hw : s'.pool.workers = s.pool.workers)
    (hoff : ∀ (fr : SetSizeCall) (i h : Nat), s.resizer = some fr → fr.pc ≠ .append i h)
    (hctor : s'.constructed = false → ∃ fr, s'.resizer = some fr ∧ fr.n = size)
    (hp : PhaseOk s') : SInv size s' := by
  refine ⟨?_, ?_, ?_, ?_, hp, hctor⟩
  · rw [hw]; exact inv.nodup
  · rw [hw, ht]; exact inv.valid
  · rw [ht]; exact inv.threadOk
  · intro h hh hn
    rw [ht] at hh
    rw [hw] at hn
    rcases inv.offset h hh hn with h1 | ⟨fr, i, h1, h2⟩
    · left; rw [closedAt_congr ht]; exact h1
    · exact absurd h2 (hoff fr i h h1)

/-- The phase facts at a frame `fr` whose program counter is known. -/
theorem SInv.phase_at {size : Nat} {s : State V} (inv : SInv size s) {fr : SetSizeCall}
    (hr : s.resizer = some fr) :
    match fr.pc with
    | .grow i =>
      s.pool.workers.length = i ∧ fr.poolLen ≤ i ∧ i ≤ max fr.n fr.poolLen ∧
        ∀ (j h : Nat), s.pool.workers[j]? = some h → closeAt s h = false
    | .append i w =>
      s.pool.workers.length = i ∧ fr.poolLen ≤ i ∧ i < fr.n ∧
        (∀ (j h : Nat), s.pool.workers[j]? = some h → closeAt s h = false) ∧
        w < s.threads.length ∧ w ∉ s.pool.workers ∧ closeAt s w = false ∧ closedAt s w = false
    | .stop i =>
      fr.n ≤ s.pool.workers.length ∧ fr.poolLen ≤ s.pool.workers.length ∧
        s.pool.workers.length ≤ max fr.n fr.poolLen ∧ fr.n ≤ i ∧ i ≤ max fr.n fr.poolLen ∧
        ∀ (j h : Nat), s.pool.workers[j]? = some h → (closeAt s h = true ↔ fr.n ≤ j ∧ j < i)
    | .join i =>
      fr.n ≤ s.pool.workers.length ∧ fr.poolLen ≤ s.pool.workers.length ∧
        s.pool.workers.length ≤ max fr.n fr.poolLen ∧ fr.n ≤ i ∧
        (∀ (j h : Nat), s.pool.workers[j]? = some h →
          (closeAt s h = true ↔ fr.n ≤ j ∧ j < fr.poolLen)) ∧
        ∀ (j h : Nat), s.pool.workers[j]? = some h → fr.n ≤ j → j < i → closedAt s h = true
    | .truncate =>
      fr.n ≤ s.pool.workers.length ∧ fr.poolLen ≤ s.pool.workers.length ∧
        s.pool.workers.length ≤ max fr.n fr.poolLen ∧
        (∀ (j h : Nat), s.pool.workers[j]? = some h →
          (closeAt s h = true ↔ fr.n ≤ j ∧ j < fr.poolLen)) ∧
        ∀ (j h : Nat), s.pool.workers[j]? = some h → fr.n ≤ j → j < fr.poolLen →
          closedAt s h = true := by
  have hp := inv.phase
  unfold PhaseOk at hp
  rw [hr] at hp
  exact hp

/-- While `NewPool` has not returned, the frame of the mutex holder is that of
`SetSize(size)`. -/
theorem SInv.ctor_n {size : Nat} {s : State V} (inv : SInv size s) {fr : SetSizeCall}
    (hr : s.resizer = some fr) (hc : s.constructed = false) : fr.n = size := by
  obtain ⟨fr0, h1, h2⟩ := inv.ctor hc
  rw [hr] at h1
  cases h1
  exact h2

/-- A step that touches no worker goroutine, the worker slice or the mutex holder. -/
theorem SInv.calls_only {size : Nat} {s s' : State V} (inv : SInv size s)
    (ht : s'.threads = s.threads) (hw : s'.pool.workers = s.pool.workers)
    (hr : s'.resizer = s.resizer) (hcon : s'.constructed = s.constructed) : SInv size s' := by
  have hu : Upd s.threads s'.threads 0 (⟨false, false, .select⟩ : structWorker V)
      ⟨false, false, .select⟩ := by
    rw [ht]; exact Upd.same _ _ _
  exact inv.frame hu hw hr hcon rfl id id id

/-- A step of a live worker that stays alive. -/
theorem SInv.thread_pc {size : Nat} {s s' : State V} (inv : SInv size s)
    {w : Nat} {t : structWorker V} (pc' : WorkerPc V)
    (hw : s.threads[w]? = some t) (hpc : t.pc ≠ .exited) (hpc' : pc' ≠ .exited)
    (ht : s'.threads = s.threads.set w { t with pc := pc' })
    (hws : s'.pool.workers = s.pool.workers)
    (hr : s'.resizer = s.resizer) (hcon : s'.constructed = s.constructed) : SInv size s' := by
  have hu : Upd s.threads s'.threads w t { t with pc := pc' } := by
    rw [ht]; exact Upd.set _ _ _ _ hw
  have ok := inv.threadOk w t hw
  refine inv.frame hu hws hr hcon rfl id ok.closed_close ?_
  intro _
  refine ⟨?_, ok.closed_close⟩
  constructor
  · intro h; exact absurd (ok.closed_iff.mp h) hpc
  · intro h; exact absurd h hpc'

theorem closeAt_append_lt {s s' : State V} {t : structWorker V}
    (ht : s'.threads = s.threads ++ [t]) {k : Nat} (hk : k < s.threads.length) :
    closeAt s' k = closeAt s k := by
  unfold closeAt; rw [ht, List.getElem?_append_left hk]

theorem closedAt_append_lt {s s' : State V} {t : structWorker V}
    (ht : s'.threads = s.threads ++ [t]) {k : Nat} (hk : k < s.threads.length) :
    closedAt s' k = closedAt s k := by
  unfold closedAt; rw [ht, List.getElem?_append_left hk]

theorem SInv.valid_get {size : Nat} {s : State V} (inv : SInv size s) {j h : Nat}
    (hj : s.pool.workers[j]? = some h) : h < s.threads.length :=
  inv.valid h (List.getElem?_mem hj)

/-- The invariant on the worker slice is kept by every step. -/
theorem SInv.step {size : Nat} {s s' : State V} {a : Action V}
    (inv : SInv size s) (h : Step f s a s') : SInv size s' := by
  cases h with
  | panic _ => exact inv.calls_only rfl rfl rfl rfl
  | lock n hcon hr =>
    apply SInv.resizer_step inv
    · rfl
    · rfl
    · intro fr i h h1; rw [hr] at h1; cases h1
    · intro h1
      have : s.constructed = false := h1
      rw [hcon] at this; cases this
    · have hp := inv.phase
      unfold PhaseOk at hp ⊢
      rw [hr] at hp
      exact ⟨rfl, Nat.le_refl _, Nat.le_max_right _ _, hp⟩
  | spawn fr i hr hpc hi =>
    have hp := inv.phase_at hr
    simp only [hpc] at hp
    obtain ⟨h1, h2, h3, h4⟩ := hp
    refine ⟨inv.nodup, ?_, ?_, ?_, ?_, ?_⟩
    · intro h hh
      have := inv.valid h hh
      simp; omega
    · intro h t ht
      rcases getElem?_append_single ht with h5 | ⟨_, h5⟩
      · exact inv.threadOk h t h5
      · rw [h5]; constructor <;> simp
    · intro h hh hn
      simp at hh
      by_cases he : h = s.threads.length
      · right; exact ⟨_, i, rfl, by rw [he]⟩
      · have hlt : h < s.threads.length := by omega
        rcases inv.offset h hlt hn with h5 | ⟨fr', i', h5, h6⟩
        · left; rw [closedAt_append_lt rfl hlt]; exact h5
        · rw [hr] at h5; cases h5; rw [hpc] at h6; cases h6
    · unfold PhaseOk
      simp only
      refine ⟨h1, h2, hi, ?_, by simp, ?_, ?_, ?_⟩
      · intro j h hj
        rw [closeAt_append_lt rfl (inv.valid_get hj)]
        exact h4 j h hj
      · intro hm
        have := inv.valid _ hm
        omega
      · simp [closeAt]
      · simp [closedAt]
    · intro hc
      exact ⟨_, rfl, (inv.ctor_n hr hc : fr.n = size)⟩
  | growEnd fr i hr hpc hi =>
    have hp := inv.phase_at hr
    simp only [hpc] at hp
    obtain ⟨h1, h2, h3, h4⟩ := hp
    apply SInv.resizer_step inv
    · rfl
    · rfl
    · intro fr' i' h h5; rw [hr] at h5; cases h5; rw [hpc]; simp
    · intro hc; exact ⟨_, rfl, (inv.ctor_n hr hc : fr.n = size)⟩
    · unfold PhaseOk
      simp only [State.setResizer]
      refine ⟨by omega, by omega, by omega, Nat.le_refl _, Nat.le_max_left _ _, ?_⟩
      intro j h hj
      have : closeAt s h = false := h4 j h hj
      change closeAt s h = true ↔ _
      rw [this]
      constructor
      · intro h5; cases h5
      · intro h5; omega
  | append fr i w hr hpc =>
    have hp := inv.phase_at hr
    simp only [hpc] at hp
    obtain ⟨h1, h2, h3, h4, h5, h6, h7, h8⟩ := hp
    refine ⟨?_, ?_, inv.threadOk, ?_, ?_, ?_⟩
    · show (s.pool.workers ++ [w]).Nodup
      rw [List.nodup_append]
      refine ⟨inv.nodup, List.nodup_singleton w, ?_⟩
      intro a ha hb
      simp at hb
      subst hb
      exact h6 ha
    · intro h hh
      have hh' : h ∈ s.pool.workers ++ [w] := hh
      simp at hh'
      rcases hh' with h9 | h9
      · exact inv.valid h h9
      · rw [h9]; exact h5
    · intro h hh hn
      have hn' : h ∉ s.pool.workers ++ [w] := hn
      simp at hn'
      rcases inv.offset h hh hn'.1 with h9 | ⟨fr', i', h9, h10⟩
      · left; exact h9
      · rw [hr] at h9; cases h9; rw [hpc] at h10; cases h10
        exact absurd rfl hn'.2
    · unfold PhaseOk
      simp only
      refine ⟨by simp; omega, by omega, by omega, ?_⟩
      intro j h hj
      rcases getElem?_append_single hj with h9 | ⟨_, h9⟩
      · exact h4 j h h9
      · rw [h9]; exact h7
    · intro hc; exact ⟨_, rfl, (inv.ctor_n hr hc : fr.n = size)⟩
  | stop fr i h t hr hpc hi hw ht hcl =>
    have hp := inv.phase_at hr
    simp only [hpc] at hp
    obtain ⟨h1, h2, h3, h4, h5, h6⟩ := hp
    have hclose : ∀ k, closeAt ((s.setThread h { t with close := true }).setResizer
        { fr with pc := .stop (i + 1) }) k = if k = h then true else closeAt s k := by
      intro k
      unfold closeAt
      simp only [State.setThread, State.setResizer]
      by_cases hk : k = h
      · subst hk
        rw [List.getElem?_set_self (getElem?_lt ht)]
        simp
      · rw [List.getElem?_set_ne (Ne.symm hk)]
        simp [hk]
    have hclosed : ∀ k, closedAt ((s.setThread h { t with close := true }).setResizer
        { fr with pc := .stop (i + 1) }) k = closedAt s k := by
      intro k
      unfold closedAt
      simp only [State.setThread, State.setResizer]
      by_cases hk : k = h
      · subst hk
        rw [List.getElem?_set_self (getElem?_lt ht), ht]
      · rw [List.getElem?_set_ne (Ne.symm hk)]
    refine ⟨inv.nodup, ?_, ?_, ?_, ?_, ?_⟩
    · intro k hk
      have := inv.valid k hk
      simpa [State.setThread, State.setResizer] using this
    · intro k u hu
      have hu' : (s.threads.set h { t with close := true })[k]? = some u := hu
      by_cases hk : k = h
      · subst hk
        rw [List.getElem?_set_self (getElem?_lt ht)] at hu'
        cases hu'
        have ok := inv.threadOk k t ht
        exact ⟨ok.closed_iff, fun _ => rfl⟩
      · rw [List.getElem?_set_ne (Ne.symm hk)] at hu'
        exact inv.threadOk k u hu'
    · intro k hk hn
      have hk' : k < s.threads.length := by
        simpa [State.setThread, State.setResizer] using hk
      rcases inv.offset k hk' hn with h9 | ⟨fr', i', h9, h10⟩
      · left; rw [hclosed]; exact h9
      · rw [hr] at h9; cases h9; rw [hpc] at h10; cases h10
    · unfold PhaseOk
      simp only [State.setThread, State.setResizer]
      refine ⟨h1, h2, h3, by omega, by omega, ?_⟩
      intro j k hj
      have hj' : s.pool.workers[j]? = some k := hj
      have := hclose k
      simp only [State.setThread, State.setResizer] at this
      rw [this]
      by_cases hk : k = h
      · subst hk
        have hij : i = j :=
          List.getElem?_inj (getElem?_lt hw) inv.nodup (by rw [hw, hj'])
        subst hij
        simp; omega
      · have hne : j ≠ i := by
          intro he
          subst he
          rw [hw] at hj'
          cases hj'
          exact hk rfl
        simp only [hk, if_false]
        rw [h6 j k hj']
        constructor
        · intro ⟨a, b⟩; exact ⟨a, by omega⟩
        · intro ⟨a, b⟩; exact ⟨a, by omega⟩
    · intro hc; exact ⟨_, rfl, (inv.ctor_n hr hc : fr.n = size)⟩
  | stopEnd fr i hr hpc hi =>
    have hp := inv.phase_at hr
    simp only [hpc] at hp
    obtain ⟨h1, h2, h3, h4, h5, h6⟩ := hp
    apply SInv.resizer_step inv
    · rfl
    · rfl
    · intro fr' i' h h7; rw [hr] at h7; cases h7; rw [hpc]; simp
    · intro hc; exact ⟨_, rfl, (inv.ctor_n hr hc : fr.n = size)⟩
    · unfold PhaseOk
      simp only [State.setResizer]
      refine ⟨h1, h2, h3, Nat.le_refl _, ?_, ?_⟩
      · intro j h hj
        change closeAt s h = true ↔ _
        rw [h6 j h hj]
        constructor
        · intro ⟨a, b⟩; exact ⟨a, by omega⟩
        · intro ⟨a, b⟩; exact ⟨a, by omega⟩
      · intro j h _ a b; omega
  | join fr i h t hr hpc hi hw ht hcd =>
    have hp := inv.phase_at hr
    simp only [hpc] at hp
    obtain ⟨h1, h2, h3, h4, h5, h6⟩ := hp
    apply SInv.resizer_step inv
    · rfl
    · rfl
    · intro fr' i' h h7; rw [hr] at h7; cases h7; rw [hpc]; simp
    · intro hc; exact ⟨_, rfl, (inv.ctor_n hr hc : fr.n = size)⟩
    · unfold PhaseOk
      simp only [State.setResizer]
      refine ⟨h1, h2, h3, by omega, h5, ?_⟩
      intro j k hj a b
      change closedAt s k = true
      by_cases hji : j = i
      · subst hji
        have hj' : s.pool.workers[j]? = some k := hj
        rw [hw] at hj'
        cases hj'
        unfold closedAt
        rw [ht]
        exact hcd
      · exact h6 j k hj a (by omega)
  | joinEnd fr i hr hpc hi =>
    have hp := inv.phase_at hr
    simp only [hpc] at hp
    obtain ⟨h1, h2, h3, h4, h5, h6⟩ := hp
    apply SInv.resizer_step inv
    · rfl
    · rfl
    · intro fr' i' h h7; rw [hr] at h7; cases h7; rw [hpc]; simp
    · intro hc; exact ⟨_, rfl, (inv.ctor_n hr hc : fr.n = size)⟩
    · unfold PhaseOk
      simp only [State.setResizer]
      exact ⟨h1, h2, h3, h5, fun j k hj a b => h6 j k hj a (by omega)⟩
  | truncate fr hr hpc hn =>
    have hp := inv.phase_at hr
    simp only [hpc] at hp
    obtain ⟨h1, h2, h3, h5, h6⟩ := hp
    refine ⟨?_, ?_, inv.threadOk, ?_, ?_, ?_⟩
    · exact List.Nodup.sublist (List.take_sublist _ _) inv.nodup
    · intro h hh
      exact inv.valid h (List.mem_of_mem_take hh)
    · intro h hh hnot
      have hnot' : h ∉ s.pool.workers.take fr.n := hnot
      left
      change closedAt s h = true
      by_cases hm : h ∈ s.pool.workers
      · obtain ⟨j, hj⟩ := List.mem_iff_getElem?.mp hm
        have hjl := getElem?_lt hj
        have hjn : fr.n ≤ j := by
          rcases Nat.lt_or_ge j fr.n with h7 | h7
          · exfalso
            apply hnot'
            have hjt : (s.pool.workers.take fr.n)[j]? = some h := by
              rw [List.getElem?_take_of_lt h7]
              exact hj
            exact List.getElem?_mem hjt
          · exact h7
        exact h6 j h hj hjn (by omega)
      · rcases inv.offset h hh hm with h9 | ⟨fr', i', h9, h10⟩
        · exact h9
        · rw [hr] at h9; cases h9; rw [hpc] at h10; cases h10
    · unfold PhaseOk
      simp only
      intro j h hj
      have hjn : j < fr.n := by
        rcases Nat.lt_or_ge j fr.n with h7 | h7
        · exact h7
        · rw [List.getElem?_take_eq_none h7] at hj
          cases hj
      rw [List.getElem?_take_of_lt hjn] at hj
      change closeAt s h = false
      have := h5 j h hj
      cases hc : closeAt s h with
      | false => rfl
      | true => rw [hc] at this; have := this.mp rfl; omega
    · intro hc; cases hc
  | newCall api _ => exact inv.calls_only rfl rfl rfl rfl
  | execStart c x hc hpc => exact inv.calls_only rfl rfl rfl rfl
  | execClosed c x hc hpc hcl => exact inv.calls_only rfl rfl rfl rfl
  | aStart c x hc hpc => exact inv.calls_only rfl rfl rfl rfl
  | mStart c x hc hpc => exact inv.calls_only rfl rfl rfl rfl
  | mReturn c x i hc hpc hi => exact inv.calls_only rfl rfl rfl rfl
  | acceptExec w c t x p hw hc hpc hx hp =>
    exact inv.thread_pc _ hw (by simp [hpc]) (by simp) rfl rfl rfl rfl
  | acceptBatch w c t x i p hw hc hpc hx hp =>
    exact inv.thread_pc _ hw (by simp [hpc]) (by simp) rfl rfl rfl rfl
  | exit w t hw hpc hcl hcd =>
    have hu : Upd s.threads (s.threads.set w { t with pc := .exited, closed := true }) w t
        { t with pc := .exited, closed := true } := Upd.set _ _ _ _ hw
    exact inv.frame hu rfl rfl rfl rfl (fun _ => rfl) (fun _ => hcl)
      (fun _ => ⟨by simp, fun _ => hcl⟩)
  | callF w t r hw hpc =>
    exact inv.thread_pc _ hw (by simp [hpc]) (by simp) rfl rfl rfl rfl
  | sendBuf w t r res x hw hpc hx hcl hb =>
    exact inv.thread_pc _ hw (by simp [hpc]) (by simp) rfl rfl rfl rfl
  | dec w t r hw hpc =>
    exact inv.thread_pc _ hw (by simp [hpc]) (by simp) rfl rfl rfl rfl
  | doneNil w t r hw hpc hg =>
    exact inv.thread_pc _ hw (by simp [hpc]) (by simp) rfl rfl rfl rfl
  | doneWg w t r g x hw hpc hg hx h0 =>
    exact inv.thread_pc _ hw (by simp [hpc]) (by simp) rfl rfl rfl rfl
  | deliver w c t r res x hw hc hpc hrc hx hcl =>
    exact inv.thread_pc _ hw (by simp [hpc]) (by simp) rfl rfl rfl rfl
  | closerWait c x hc hcw h0 => exact inv.calls_only rfl rfl rfl rfl
  | closerClose c x hc hcw hcl => exact inv.calls_only rfl rfl rfl rfl
  | recv c x r rest hc hpc hd hb => exact inv.calls_only rfl rfl rfl rfl
  | recvClosed c x hc hpc hd hb hcl => exact inv.calls_only rfl rfl rfl rfl

theorem SInv.init (size : Nat) : SInv size (NewPool size : State V) := by
  refine ⟨?_, ?_, ?_, ?_, ?_, ?_⟩
  · simp [NewPool]
  · intro h hh; simp [NewPool] at hh
  · intro h t ht; simp [NewPool] at ht
  · intro h hh; simp [NewPool] at hh
  · unfold PhaseOk
    simp [NewPool]
  · intro _; exact ⟨_, rfl, rfl⟩

theorem QInv.initQ (size : Nat) : QInv f (NewPool size : State V) := by
  refine ⟨?_, ?_, ?_, ?_, ?_, ?_⟩
  · intro c x hx; simp [NewPool] at hx
  · intro h t r ht; simp [NewPool] at ht
  · intro c _ h t r ht; simp [NewPool] at ht
  · intro c x hx; simp [NewPool] at hx
  · intro p c x hx; simp [NewPool] at hx
  · simp [NewPool]

/-- Under the invariants no step panics. -/
theorem no_panics {size : Nat} {s : State V} {a : Action V} (si : SInv size s)
    (qi : QInv f s) : ¬ Panics s a := by
  intro hp
  cases hp with
  | stopIndex fr i hr hpc hi hw =>
    have hp := si.phase_at hr
    simp only [hpc] at hp
    obtain ⟨h1, h2, h3, h4, h5, h6⟩ := hp
    rw [List.getElem?_eq_none_iff] at hw
    omega
  | stopClosed fr i h t hr hpc hi hw ht hcl =>
    have hp := si.phase_at hr
    simp only [hpc] at hp
    obtain ⟨h1, h2, h3, h4, h5, h6⟩ := hp
    have h7 := (h6 i h hw).mp (by unfold closeAt; rw [ht]; exact hcl)
    omega
  | joinIndex fr i hr hpc hi hw =>
    have hp := si.phase_at hr
    simp only [hpc] at hp
    obtain ⟨h1, h2, h3, h4, h5, h6⟩ := hp
    rw [List.getElem?_eq_none_iff] at hw
    omega
  | truncate fr hr hpc hn =>
    have hp := si.phase_at hr
    simp only [hpc] at hp
    omega
  | exitClosed w t hw hpc hcl hcd =>
    have h1 := (si.threadOk w t hw).closed_iff.mp hcd
    rw [hpc] at h1
    cases h1
  | sendClosed w t r res x hw hpc hx hcl =>
    have ok := qi.callOk _ x hx
    have hfin := ok.closed_fin hcl
    have hret := ok.closer_ret (by rw [hfin]; simp)
    have hwg0 := ok.closer_wg (Or.inr hfin)
    obtain ⟨x', hx', hrw⟩ := qi.reqOk w t r hw (by simp [WorkerPc.job, hpc])
    rw [hx] at hx'
    cases hx'
    have hk := ok.kind
    rw [hret] at hk
    have hne : x.api.isExecute = false := by
      rw [← hk]; rfl
    have hrw' : r.wg = some r.outputChannel := by
      rw [hrw]; simp [wgFor, hne]
    have h1 := qi.wgInv _ x hx
    have h2 := le_lsum (holdsWg r.outputChannel) hw
    have h3 : holdsWg r.outputChannel t = 1 := by
      simp [holdsWg, WorkerPc.job, hpc, hrw']
    omega
  | deliverClosed w t r res x hw hpc hx _ hcl =>
    have ok := qi.callOk _ x hx
    have hfin := ok.closed_fin hcl
    have hret := ok.closer_ret (by rw [hfin]; simp)
    have hwg0 := ok.closer_wg (Or.inr hfin)
    obtain ⟨x', hx', hrw⟩ := qi.reqOk w t r hw (by simp [WorkerPc.job, hpc])
    rw [hx] at hx'
    cases hx'
    have hk := ok.kind
    rw [hret] at hk
    have hne : x.api.isExecute = false := by
      rw [← hk]; rfl
    have hrw' : r.wg = some r.outputChannel := by
      rw [hrw]; simp [wgFor, hne]
    have h1 := qi.wgInv _ x hx
    have h2 := le_lsum (holdsWg r.outputChannel) hw
    have h3 : holdsWg r.outputChannel t = 1 := by
      simp [holdsWg, WorkerPc.job, hpc, hrw']
    omega
  | doneNegative w t r g x hw hpc hg hx h0 =>
    have h1 := qi.wgInv _ x hx
    have h2 := le_lsum (holdsWg g) hw
    have h3 : holdsWg g t = 1 := by
      simp [holdsWg, WorkerPc.job, hpc, hg]
    omega
  | closeClosed c x hc hcw hcl =>
    have ok := qi.callOk _ x hc
    have hfin := ok.closed_fin hcl
    rw [hcw] at hfin
    cases hfin

theorem Step.panicked {s s' : State V} {a : Action V} (h : Step f s a s')
    (hp : ¬ Panics s a) :
    s'.panicked = s.panicked := by
  cases h <;> first | rfl | contradiction

/-- Every reachable state satisfies both invariants, and no reachable state is panicked:
no channel is closed twice, no `WaitGroup` counter goes negative, no send is on a closed
channel and no index is out of range. -/
theorem Reachable.inv {size : Nat} {s : State V} (h : Reachable f size s) :
    SInv size s ∧ QInv f s ∧ s.panicked = false := by
  induction h with
  | init => exact ⟨SInv.init size, QInv.initQ size, rfl⟩
  | step a _ hs ih =>
    obtain ⟨si, qi, hp⟩ := ih
    have hst := step_sound hs
    refine ⟨si.step hst, qi.stepQ hst, ?_⟩
    rw [hst.panicked (no_panics si qi)]
    exact hp

theorem reachable_run {size : Nat} {s s' : State V} {acts : List (Action V)}
    (h : Reachable f size s) (hr : run f s acts = some s') : Reachable f size s' := by
  induction acts generalizing s with
  | nil => simp [run] at hr; subst hr; exact h
  | cons a as ih =>
    simp only [run] at hr
    cases hs : step f s a with
    | none => rw [hs] at hr; simp at hr
    | some s1 =>
      rw [hs] at hr
      exact ih (Reachable.step a h hs) hr

theorem run_append {s : State V} (as bs : List (Action V)) :
    run f s (as ++ bs) = (run f s as).bind (fun s' => run f s' bs) := by
  induction as generalizing s with
  | nil => simp [run]
  | cons a as ih =>
    simp only [List.cons_append, run]
    cases step f s a with
    | none => simp
    | some s1 => simp [ih]

theorem run_append_of {s s1 s2 : State V} {as bs : List (Action V)}
    (h1 : run f s as = some s1) (h2 : run f s1 bs = some s2) :
    run f s (as ++ bs) = some s2 := by
  rw [run_append, h1]; exact h2

theorem run_cons_of {s s1 s2 : State V} {a : Action V} {bs : List (Action V)}
    (h1 : step f s a = some s1) (h2 : run f s1 bs = some s2) :
    run f s (a :: bs) = some s2 := by
  simp only [run, h1]; exact h2

/-- Two lists with the same number of elements satisfying each predicate are permutations
of each other. -/
theorem perm_of_countP {α : Type} {l₁ l₂ : List α}
    (h : ∀ p : α → Bool, l₁.countP p = l₂.countP p) : l₁.Perm l₂ := by
  classical
  rw [List.perm_iff_count]
  intro a
  have := h (fun b => b == a)
  simpa [List.count] using this

/-- The only step that releases the mutex is the last step of `SetSize`, and it leaves
`pool.workers` with exactly `n` entries. -/
theorem return_size {size : Nat} {s s' : State V} {a : Action V} {fr : SetSizeCall}
    (h : Reachable f size s) (hs : step f s a = some s') (hr : s.resizer = some fr)
    (hn : s'.resizer = none) :
    s'.pool.workers = s.pool.workers.take fr.n ∧ s'.pool.workers.length = fr.n ∧
      s'.constructed = true ∧ fr.pc = .truncate ∧ s'.threads = s.threads := by
  obtain ⟨si, qi, hp⟩ := h.inv
  have hst := step_sound hs
  have hnp : ¬ Panics s a := no_panics si qi
  cases hst with
  | truncate fr' hr' hpc hle =>
    rw [hr] at hr'
    cases hr'
    refine ⟨rfl, ?_, rfl, hpc, rfl⟩
    simp
    omega
  | panic hpn => exact absurd hpn hnp
  | lock n _ hr' => rw [hr] at hr'; cases hr'
  | spawn => cases hn
  | growEnd => cases hn
  | append => cases hn
  | stop => cases hn
  | stopEnd => cases hn
  | join => cases hn
  | joinEnd => cases hn
  | newCall => have : s.resizer = none := hn; rw [hr] at this; cases this
  | execStart => have : s.resizer = none := hn; rw [hr] at this; cases this
  | execClosed => have : s.resizer = none := hn; rw [hr] at this; cases this
  | aStart => have : s.resizer = none := hn; rw [hr] at this; cases this
  | mStart => have : s.resizer = none := hn; rw [hr] at this; cases this
  | mReturn => have : s.resizer = none := hn; rw [hr] at this; cases this
  | acceptExec => have : s.resizer = none := hn; rw [hr] at this; cases this
  | acceptBatch => have : s.resizer = none := hn; rw [hr] at this; cases this
  | exit => have : s.resizer = none := hn; rw [hr] at this; cases this
  | callF => have : s.resizer = none := hn; rw [hr] at this; cases this
  | sendBuf => have : s.resizer = none := hn; rw [hr] at this; cases this
  | dec => have : s.resizer = none := hn; rw [hr] at this; cases this
  | doneNil => have : s.resizer = none := hn; rw [hr] at this; cases this
  | doneWg => have : s.resizer = none := hn; rw [hr] at this; cases this
  | deliver => have : s.resizer = none := hn; rw [hr] at this; cases this
  | closerWait => have : s.resizer = none := hn; rw [hr] at this; cases this
  | closerClose => have : s.resizer = none := hn; rw [hr] at this; cases this
  | recv => have : s.resizer = none := hn; rw [hr] at this; cases this
  | recvClosed => have : s.resizer = none := hn; rw [hr] at this; cases this

/-- What `Execute` returned is what the user function returns on the input. -/
theorem execute_returns_f {size : Nat} {s : State V} (h : Reachable f size s)
    {c : Nat} {x : Call V} {v out : Option V} {err : Option GoError}
    (hc : s.calls[c]? = some x) (hapi : x.api = .Execute v)
    (hpc : x.pc = .execReturned out err) : out = (f v).1 ∧ err = (f v).2 := by
  classical
  obtain ⟨_, qi, _⟩ := h.inv
  have h1 := qi.resInv (fun r => !decide (r = Rf f v)) c x hc
  have h2 : delivered (fun r => !decide (r = Rf f v)) x = 0 := by
    simp [hapi, Api.input] at h1
    omega
  simp [delivered, hpc] at h2
  have h3 := h2.2
  simp [Rf] at h3
  exact h3

/-- No thread holds an unsent result of a batch call whose `WaitGroup` is at zero and
whose requests are all sent. -/
theorem no_pending_of_wg_zero {s : State V} (qi : QInv f s) {c : Nat} {x : Call V}
    (hc : s.calls[c]? = some x) (hne : x.api.isExecute = false) (hwg : x.wg = 0)
    (p : Result V → Bool) : lsum (pendingP f p c) s.threads = 0 := by
  have h1 := qi.wgInv c x hc
  apply lsum_eq_zero
  intro h t ht
  have h2 := le_lsum (holdsWg c) ht
  have h3 : holdsWg c t = 0 := by omega
  unfold pendingP
  split
  next r hpc =>
    obtain ⟨x', hx', hrw⟩ := qi.reqOk h t r ht (by simp [WorkerPc.job, hpc])
    by_cases hrc : r.outputChannel = c
    · subst hrc
      rw [hc] at hx'; cases hx'
      simp [holdsWg, WorkerPc.job, hpc, hrw, wgFor, hne] at h3
    · simp [hrc]
  next r res hpc =>
    obtain ⟨x', hx', hrw⟩ := qi.reqOk h t r ht (by simp [WorkerPc.job, hpc])
    by_cases hrc : r.outputChannel = c
    · subst hrc
      rw [hc] at hx'; cases hx'
      simp [holdsWg, WorkerPc.job, hpc, hrw, wgFor, hne] at h3
    · simp [hrc]
  next => rfl

/-- Once the result channel of a call is closed, it has been sent every result. -/
theorem closed_all_written {size : Nat} {s : State V} (h : Reachable f size s)
    {c : Nat} {x : Call V} (hc : s.calls[c]? = some x) (hcl : x.closed = true) :
    (x.received ++ x.buf).Perm (x.api.input.map (Rf f)) := by
  obtain ⟨_, qi, _⟩ := h.inv
  have ok := qi.callOk c x hc
  have hfin := ok.closed_fin hcl
  have hret := ok.closer_ret (by rw [hfin]; simp)
  have hwg := ok.closer_wg (Or.inr hfin)
  have hk := ok.kind
  rw [hret] at hk
  have hne : x.api.isExecute = false := by rw [← hk]; rfl
  apply perm_of_countP
  intro p
  have h1 := qi.resInv p c x hc
  rw [no_pending_of_wg_zero qi hc hne hwg p] at h1
  simp [delivered, unsent, hret] at h1
  simpa using h1

/-- At every moment the results sent on the channel of a call are among the results of
its inputs, each at most as often as its input occurs. -/
theorem written_subperm {size : Nat} {s : State V} (h : Reachable f size s)
    {c : Nat} {x : Call V} (hc : s.calls[c]? = some x) :
    (x.received ++ x.buf).Subperm (x.api.input.map (Rf f)) := by
  classical
  obtain ⟨_, qi, _⟩ := h.inv
  rw [List.subperm_ext_iff]
  intro a _
  have h1 := qi.resInv (fun b => b == a) c x hc
  have h2 : List.countP (fun b => b == a) (x.received ++ x.buf) ≤
      List.countP (fun b => b == a) (x.api.input.map (Rf f)) := by
    unfold delivered at h1
    omega
  simpa [List.count] using h2

/-- `SetSize(n)` on a pool that already has `n` workers: its five steps run without
waiting for anything and give back the very same state. -/
theorem setSize_same {s : State V} {n : Nat} (hp : s.panicked = false)
    (hc : s.constructed = true) (hr : s.resizer = none) (hn : s.pool.workers.length = n) :
    run f s [.SetSize n, .resize, .resize, .resize, .resize] = some s := by
  obtain ⟨pool, threads, resizer, calls, constructed, panicked⟩ := s
  obtain ⟨q, workers⟩ := pool
  simp only at hp hc hr hn
  subst hp hc hr hn
  simp [run, step, stepResize, State.setResizer]

/-- Every step of the relation from a state that has not panicked is the step of the
executable transition function. -/
theorem step_complete {s s' : State V} {a : Action V} (h : Step f s a s')
    (hp : s.panicked = false) : step f s a = some s' := by
  cases h with
  | panic hpn =>
    cases hpn with
    | stopIndex fr i hr hpc hi hw => simp [step, stepResize, hp, hr, hpc, hi, hw]
    | stopClosed fr i h t hr hpc hi hw ht hcl =>
      simp [step, stepResize, hp, hr, hpc, hi, hw, ht, hcl]
    | joinIndex fr i hr hpc hi hw => simp [step, stepResize, hp, hr, hpc, hi, hw]
    | truncate fr hr hpc hn =>
      have : ¬ fr.n ≤ s.pool.workers.length := by omega
      simp [step, stepResize, hp, hr, hpc, this]
    | exitClosed w t hw hpc hcl hcd => simp [step, stepWork, hp, hw, hpc, hcl, hcd]
    | sendClosed w t r res x hw hpc hx hcl => simp [step, stepWork, hp, hw, hpc, hx, hcl]
    | deliverClosed w t r res x hw hpc hx hxp hcl =>
      simp [step, stepDeliver, hp, hw, hpc, hx, hxp, hcl]
    | doneNegative w t r g x hw hpc hg hx h0 => simp [step, stepWork, hp, hw, hpc, hg, hx, h0]
    | closeClosed c x hc hcw hcl => simp [step, stepCloser, hp, hc, hcw, hcl]
  | lock n hcon hr => simp [step, hp, hcon, hr]
  | spawn fr i hr hpc hi => simp [step, stepResize, hp, hr, hpc, hi]
  | growEnd fr i hr hpc hi => simp [step, stepResize, hp, hr, hpc, hi]
  | append fr i w hr hpc => simp [step, stepResize, hp, hr, hpc]
  | stop fr i h t hr hpc hi hw ht hcl => simp [step, stepResize, hp, hr, hpc, hi, hw, ht, hcl]
  | stopEnd fr i hr hpc hi => simp [step, stepResize, hp, hr, hpc, hi]
  | join fr i h t hr hpc hi hw ht hcd => simp [step, stepResize, hp, hr, hpc, hi, hw, ht, hcd]
  | joinEnd fr i hr hpc hi => simp [step, stepResize, hp, hr, hpc, hi]
  | truncate fr hr hpc hn => simp [step, stepResize, hp, hr, hpc, hn]
  | newCall api hcon => cases api <;> simp [step, hp, hcon, Api.action, Api.startPc]
  | execStart c x hc hpc => simp [step, stepCaller, hp, hc, hpc]
  | execClosed c x hc hpc hcl => simp [step, stepCaller, hp, hc, hpc, hcl]
  | aStart c x hc hpc => simp [step, stepCaller, hp, hc, hpc]
  | mStart c x hc hpc => simp [step, stepCaller, hp, hc, hpc]
  | mReturn c x i hc hpc hi => simp [step, stepCaller, hp, hc, hpc, hi]
  | acceptExec w c t x p hw hc hpc hx hp' => simp [step, stepAccept, hp, hw, hc, hpc, hx, hp']
  | acceptBatch w c t x i p hw hc hpc hx hp' => simp [step, stepAccept, hp, hw, hc, hpc, hx, hp']
  | exit w t hw hpc hcl hcd => simp [step, stepWork, hp, hw, hpc, hcl, hcd]
  | callF w t r hw hpc => simp [step, stepWork, hp, hw, hpc]
  | sendBuf w t r res x hw hpc hx hcl hb => simp [step, stepWork, hp, hw, hpc, hx, hcl, hb]
  | dec w t r hw hpc => simp [step, stepWork, hp, hw, hpc]
  | doneNil w t r hw hpc hg => simp [step, stepWork, hp, hw, hpc, hg]
  | doneWg w t r g x hw hpc hg hx h0 => simp [step, stepWork, hp, hw, hpc, hg, hx, h0]
  | deliver w c t r res x hw hc hpc hrc hx hcl =>
    simp [step, stepDeliver, hp, hw, hc, hpc, hrc, hx, hcl]
  | closerWait c x hc hcw h0 => simp [step, stepCloser, hp, hc, hcw, h0]
  | closerClose c x hc hcw hcl => simp [step, stepCloser, hp, hc, hcw, hcl]
  | recv c x r rest hc hpc hd hb => simp [step, stepRecv, hp, hc, hpc, hd, hb]
  | recvClosed c x hc hpc hd hb hcl => simp [step, stepRecv, hp, hc, hpc, hd, hb, hcl]

theorem WFrame.refl (h : Nat) (s : State V) : WFrame h s s :=
  ⟨rfl, rfl, rfl, rfl, rfl, fun _ => rfl, fun _ => rfl, fun _ _ hx _ => hx, fun _ _ => rfl,
    fun _ x hx => ⟨x, hx, rfl, fun _ => rfl, rfl, rfl, rfl⟩⟩

theorem WFrame.trans {h : Nat} {s s1 s2 : State V} (a : WFrame h s s1) (b : WFrame h s1 s2) :
    WFrame h s s2 := by
  refine ⟨?_, ?_, ?_, ?_, ?_, ?_, ?_, ?_, ?_, ?_⟩
  · rw [b.resizer, a.resizer]
  · rw [b.workers, a.workers]
  · rw [b.constructed, a.constructed]
  · rw [b.tlen, a.tlen]
  · rw [b.clen, a.clen]
  · intro k; rw [b.close, a.close]
  · intro k; rw [b.closed, a.closed]
  · intro c x hx hpc; exact b.fresh c x (a.fresh c x hx hpc) hpc
  · intro k hk; rw [b.others k hk, a.others k hk]
  · intro c x hx
    obtain ⟨x1, hx1, a1, a2, a3, a4, a5⟩ := a.keep c x hx
    obtain ⟨x2, hx2, b1, b2, b3, b4, b5⟩ := b.keep c x1 hx1
    refine ⟨x2, hx2, by rw [b1, a1], ?_, by rw [b3, a3], by rw [b4, a4], by rw [b5, a5]⟩
    intro hne
    have h1 := a2 hne
    rw [b2 (by rw [h1]; exact hne), h1]

theorem Upd.get_other {α : Type} {l l' : List α} {i : Nat} {a b : α}
    (h : Upd l l' i a b) {k : Nat} (hk : k ≠ i) : l'[k]? = l[k]? := by
  cases h with
  | same => rfl
  | set _ _ _ hi => exact List.getElem?_set_ne (Ne.symm hk)

/-- A step that replaces the state of worker `h`, keeping its two channels, and of at
most one call that is past its first statement. -/
theorem WFrame.of_upd {h c : Nat} {s s' : State V} {t t' : structWorker V} {x x' : Call V}
    (hr : s'.resizer = s.resizer) (hw : s'.pool.workers = s.pool.workers)
    (hcon : s'.constructed = s.constructed)
    (ht : Upd s.threads s'.threads h t t') (hc : Upd s.calls s'.calls c x x')
    (hcl : t'.close = t.close) (hcd : t'.closed = t.closed)
    (hfresh : (x.pc = .execStart ∨ x.pc = .aStart ∨ x.pc = .mStart) → x' = x)
    (hkeep : x'.api = x.api ∧ (x.pc ≠ .execAwait → x'.pc = x.pc) ∧
      x'.closer = x.closer ∧ x'.drained = x.drained ∧ x'.closed = x.closed) :
    WFrame h s s' := by
  refine ⟨hr, hw, hcon, ht.length, hc.length, ?_, ?_, ?_, ?_, ?_⟩
  · intro k
    unfold closeAt
    cases hk : s'.threads[k]? with
    | none =>
      have : s.threads[k]? = none := by
        rw [List.getElem?_eq_none_iff] at hk ⊢
        have := ht.length
        omega
      rw [this]
    | some u =>
      rcases ht.get_new hk with ⟨_, h1⟩ | ⟨_, h1, h2⟩ | ⟨h1, _⟩
      · rw [h1]
      · rw [h2, h1]; exact hcl
      · rw [h1]
  · intro k
    unfold closedAt
    cases hk : s'.threads[k]? with
    | none =>
      have : s.threads[k]? = none := by
        rw [List.getElem?_eq_none_iff] at hk ⊢
        have := ht.length
        omega
      rw [this]
    | some u =>
      rcases ht.get_new hk with ⟨_, h1⟩ | ⟨_, h1, h2⟩ | ⟨h1, _⟩
      · rw [h1]
      · rw [h2, h1]; exact hcd
      · rw [h1]
  · intro j y hy hpc
    rcases hc.get_old hy with ⟨_, h1⟩ | ⟨_, h1, h2⟩ | ⟨h1, _⟩
    · exact h1
    · subst h1
      rw [h2, hfresh hpc]
    · exact h1
  · intro k hk
    exact ht.get_other hk
  · intro j y hy
    rcases hc.get_old hy with ⟨_, h1⟩ | ⟨_, h1, h2⟩ | ⟨h1, _⟩
    · exact ⟨y, h1, rfl, fun _ => rfl, rfl, rfl, rfl⟩
    · subst h1
      exact ⟨x', h2, hkeep⟩
    · exact ⟨y, h1, rfl, fun _ => rfl, rfl, rfl, rfl⟩

theorem getElem?_setThread_self {s : State V} {h : Nat} {t : structWorker V}
    (t' : structWorker V) (ht : s.threads[h]? = some t) :
    (s.setThread h t').threads[h]? = some t' := by
  simp only [State.setThread]
  exact List.getElem?_set_self (getElem?_lt ht)

/-- A worker that holds a request can always take its next step, which brings it nearer
to the `select`: the send of the result is never blocked, be it on the channel of an
`Execute` (the caller is waiting) or on that of `ExecuteM` (the buffer has room). -/
theorem worker_progress {size : Nat} {s : State V} (hreach : Reachable f size s)
    {h : Nat} {t : structWorker V} (ht : s.threads[h]? = some t) :
    (∀ r, t.pc = .call r → ∃ a s' t', step f s a = some s' ∧ WFrame h s s' ∧
      s'.threads[h]? = some t' ∧ (∃ res, t'.pc = .send r res)) ∧
    (∀ r res, t.pc = .send r res → ∃ a s' t', step f s a = some s' ∧ WFrame h s s' ∧
      s'.threads[h]? = some t' ∧ t'.pc = .dec r) ∧
    (∀ r, t.pc = .dec r → ∃ a s' t', step f s a = some s' ∧ WFrame h s s' ∧
      s'.threads[h]? = some t' ∧ t'.pc = .done r) ∧
    (∀ r, t.pc = .done r → ∃ a s' t', step f s a = some s' ∧ WFrame h s s' ∧
      s'.threads[h]? = some t' ∧ t'.pc = .select) := by
  obtain ⟨si, qi, hp⟩ := hreach.inv
  have dummy : Upd s.calls s.calls 0 (Call.new (.Execute none) .execStart)
      (Call.new (.Execute none) .execStart) := Upd.same _ _ _
  refine ⟨?_, ?_, ?_, ?_⟩
  · intro r hpc
    refine ⟨_, _, { t with pc := .send r ⟨(f r.param).1, (f r.param).2⟩ },
      step_complete (Step.callF h t r ht hpc) hp, ?_, getElem?_setThread_self _ ht, ⟨_, rfl⟩⟩
    exact WFrame.of_upd rfl rfl rfl (Upd.set _ _ _ _ ht) dummy rfl rfl (fun _ => rfl)
      ⟨rfl, fun _ => rfl, rfl, rfl, rfl⟩
  · intro r res hpc
    obtain ⟨x, hx, hrw⟩ := qi.reqOk h t r ht (by simp [WorkerPc.job, hpc])
    have ok := qi.callOk _ x hx
    have hres := qi.resInv (fun _ => true) _ x hx
    have hpend : pendingP f (fun _ => true) r.outputChannel t = 1 := by
      simp [pendingP, hpc]
    have hle := le_lsum (pendingP f (fun _ => true) r.outputChannel) ht
    simp only [List.countP_true, List.length_map] at hres
    have hwgI := qi.wgInv _ x hx
    have hwgle := le_lsum (holdsWg r.outputChannel) ht
    -- the channel is open
    have hopen : x.closed = false := by
      cases hcl : x.closed with
      | false => rfl
      | true =>
        exfalso
        have hfin := ok.closed_fin hcl
        have hret := ok.closer_ret (by rw [hfin]; simp)
        have hwg0 := ok.closer_wg (Or.inr hfin)
        have hk := ok.kind
        rw [hret] at hk
        have hne : x.api.isExecute = false := by rw [← hk]; rfl
        have h3 : holdsWg r.outputChannel t = 1 := by
          simp [holdsWg, WorkerPc.job, hpc, hrw, wgFor, hne]
        omega
    cases hex : x.api.isExecute with
    | true =>
      -- `Execute`: the caller is at the receive of line 144
      obtain ⟨v, hv⟩ := input_of_isExecute hex
      have hk := ok.kind
      rw [hex] at hk
      have hawait : x.pc = .execAwait := by
        rw [hv] at hres
        cases hxpc : x.pc with
        | execAwait => rfl
        | execStart => simp [unsent, hxpc, hv] at hres; omega
        | execPush => simp [unsent, hxpc, hv] at hres; omega
        | execReturned o e => simp [delivered, hxpc] at hres; omega
        | aStart => rw [hxpc] at hk; simp [CallerPc.isExec] at hk
        | mStart => rw [hxpc] at hk; simp [CallerPc.isExec] at hk
        | mPush i => rw [hxpc] at hk; simp [CallerPc.isExec] at hk
        | mReturned => rw [hxpc] at hk; simp [CallerPc.isExec] at hk
      refine ⟨_, _, { t with pc := .dec r },
        step_complete (Step.deliver h r.outputChannel t r res x ht hx hpc rfl hawait hopen) hp,
        ?_, ?_, rfl⟩
      · exact WFrame.of_upd rfl rfl rfl (Upd.set _ _ _ _ ht) (Upd.set _ _ _ _ hx) rfl rfl
          (fun hst => by rw [hawait] at hst; simp at hst)
          ⟨rfl, fun hne => absurd hawait hne, rfl, rfl, rfl⟩
      · show ((s.threads.set h _)[h]? = some _)
        exact List.getElem?_set_self (getElem?_lt ht)
    | false =>
      -- `ExecuteM`: the buffer has room
      have hk := ok.kind
      rw [hex] at hk
      have hpast : x.pc = .mReturned ∨ ∃ i, x.pc = .mPush i := by
        cases hxpc : x.pc with
        | mReturned => exact Or.inl rfl
        | mPush i => exact Or.inr ⟨i, rfl⟩
        | aStart => simp [unsent, hxpc] at hres; omega
        | mStart => simp [unsent, hxpc] at hres; omega
        | execAwait => rw [hxpc] at hk; simp [CallerPc.isExec] at hk
        | execStart => rw [hxpc] at hk; simp [CallerPc.isExec] at hk
        | execPush => rw [hxpc] at hk; simp [CallerPc.isExec] at hk
        | execReturned o e => rw [hxpc] at hk; simp [CallerPc.isExec] at hk
      have hcap := ok.cap_eq hpast
      have hroom : x.buf.length < x.cap := by
        rw [hcap]
        have : x.buf.length ≤ delivered (fun _ => true) x := by
          simp [delivered]
          omega
        omega
      refine ⟨_, _, { t with pc := .dec r },
        step_complete (Step.sendBuf h t r res x ht hpc hx hopen hroom) hp, ?_, ?_, rfl⟩
      · refine WFrame.of_upd rfl rfl rfl (Upd.set _ _ t _ ?_) (Upd.set _ _ _ _ hx) rfl rfl ?_
          ⟨rfl, fun _ => rfl, rfl, rfl, rfl⟩
        · exact ht
        · intro hst
          exfalso
          rcases hpast with h1 | ⟨i, h1⟩ <;> rw [h1] at hst <;> simp at hst
      · show ((s.threads.set h _)[h]? = some _)
        exact List.getElem?_set_self (getElem?_lt ht)
  · intro r hpc
    refine ⟨_, _, { t with pc := .done r }, step_complete (Step.dec h t r ht hpc) hp,
      ?_, ?_, rfl⟩
    · exact WFrame.of_upd rfl rfl rfl (Upd.set _ _ _ _ ht) dummy rfl rfl (fun _ => rfl)
        ⟨rfl, fun _ => rfl, rfl, rfl, rfl⟩
    · show ((s.threads.set h _)[h]? = some _)
      exact List.getElem?_set_self (getElem?_lt ht)
  · intro r hpc
    cases hg : r.wg with
    | none =>
      refine ⟨_, _, { t with pc := .select }, step_complete (Step.doneNil h t r ht hpc hg) hp,
        ?_, getElem?_setThread_self _ ht, rfl⟩
      exact WFrame.of_upd rfl rfl rfl (Upd.set _ _ _ _ ht) dummy rfl rfl (fun _ => rfl)
        ⟨rfl, fun _ => rfl, rfl, rfl, rfl⟩
    | some g =>
      obtain ⟨x0, hx0, hrw⟩ := qi.reqOk h t r ht (by simp [WorkerPc.job, hpc])
      have hg' : g = r.outputChannel := by
        rw [hg] at hrw
        unfold wgFor at hrw
        split at hrw
        · cases hrw
        · exact Option.some.inj hrw
      subst hg'
      have ok := qi.callOk _ x0 hx0
      have hwgI := qi.wgInv _ x0 hx0
      have hwgle := le_lsum (holdsWg r.outputChannel) ht
      have h3 : holdsWg r.outputChannel t = 1 := by
        simp [holdsWg, WorkerPc.job, hpc, hg]
      have h0 : x0.wg ≠ 0 := by omega
      refine ⟨_, _, { t with pc := .select },
        step_complete (Step.doneWg h t r _ x0 ht hpc hg hx0 h0) hp, ?_, ?_, rfl⟩
      · refine WFrame.of_upd rfl rfl rfl (Upd.set _ _ t _ ?_) (Upd.set _ _ _ _ hx0) rfl rfl ?_
          ⟨rfl, fun _ => rfl, rfl, rfl, rfl⟩
        · exact ht
        · intro hst
          exact absurd (ok.start_wg hst) h0
      · show ((s.threads.set h _)[h]? = some _)
        exact List.getElem?_set_self (getElem?_lt ht)

theorem drive_from_done {size : Nat} {s : State V} (hreach : Reachable f size s)
    {h : Nat} {t : structWorker V} (ht : s.threads[h]? = some t) {r : request V}
    (hpc : t.pc = .done r) :
    ∃ acts s' t', run f s acts = some s' ∧ WFrame h s s' ∧
      s'.threads[h]? = some t' ∧ t'.pc = .select := by
  obtain ⟨a, s1, t1, hs, hf, ht1, hpc1⟩ := (worker_progress hreach ht).2.2.2 r hpc
  exact ⟨[a], s1, t1, by simp [run, hs], hf, ht1, hpc1⟩

theorem drive_from_dec {size : Nat} {s : State V} (hreach : Reachable f size s)
    {h : Nat} {t : structWorker V} (ht : s.threads[h]? = some t) {r : request V}
    (hpc : t.pc = .dec r) :
    ∃ acts s' t', run f s acts = some s' ∧ WFrame h s s' ∧
      s'.threads[h]? = some t' ∧ t'.pc = .select := by
  obtain ⟨a, s1, t1, hs, hf, ht1, hpc1⟩ := (worker_progress hreach ht).2.2.1 r hpc
  obtain ⟨acts, s2, t2, hr2, hf2, ht2, hpc2⟩ :=
    drive_from_done (Reachable.step a hreach hs) ht1 hpc1
  exact ⟨a :: acts, s2, t2, run_cons_of hs hr2, hf.trans hf2, ht2, hpc2⟩

theorem drive_from_send {size : Nat} {s : State V} (hreach : Reachable f size s)
    {h : Nat} {t : structWorker V} (ht : s.threads[h]? = some t) {r : request V}
    {res : Result V} (hpc : t.pc = .send r res) :
    ∃ acts s' t', run f s acts = some s' ∧ WFrame h s s' ∧
      s'.threads[h]? = some t' ∧ t'.pc = .select := by
  obtain ⟨a, s1, t1, hs, hf, ht1, hpc1⟩ := (worker_progress hreach ht).2.1 r res hpc
  obtain ⟨acts, s2, t2, hr2, hf2, ht2, hpc2⟩ :=
    drive_from_dec (Reachable.step a hreach hs) ht1 hpc1
  exact ⟨a :: acts, s2, t2, run_cons_of hs hr2, hf.trans hf2, ht2, hpc2⟩

theorem drive_from_call {size : Nat} {s : State V} (hreach : Reachable f size s)
    {h : Nat} {t : structWorker V} (ht : s.threads[h]? = some t) {r : request V}
    (hpc : t.pc = .call r) :
    ∃ acts s' t', run f s acts = some s' ∧ WFrame h s s' ∧
      s'.threads[h]? = some t' ∧ t'.pc = .select := by
  obtain ⟨a, s1, t1, hs, hf, ht1, res, hpc1⟩ := (worker_progress hreach ht).1 r hpc
  obtain ⟨acts, s2, t2, hr2, hf2, ht2, hpc2⟩ :=
    drive_from_send (Reachable.step a hreach hs) ht1 hpc1
  exact ⟨a :: acts, s2, t2, run_cons_of hs hr2, hf.trans hf2, ht2, hpc2⟩

/-- A worker that has not terminated can be run until it is back at its `select`: it
finishes the job it holds, if any, within four steps of its own. -/
theorem drive_select {size : Nat} {s : State V} (hreach : Reachable f size s)
    {h : Nat} {t : structWorker V} (ht : s.threads[h]? = some t) (hne : t.pc ≠ .exited) :
    ∃ acts s' t', run f s acts = some s' ∧ WFrame h s s' ∧
      s'.threads[h]? = some t' ∧ t'.pc = .select := by
  cases hpc : t.pc with
  | select => exact ⟨[], s, t, rfl, WFrame.refl h s, ht, hpc⟩
  | call r => exact drive_from_call hreach ht hpc
  | send r res => exact drive_from_send hreach ht hpc
  | dec r => exact drive_from_dec hreach ht hpc
  | done r => exact drive_from_done hreach ht hpc
  | exited => exact absurd hpc hne

/-- A worker whose stop signal is raised can be run until it has terminated and confirmed. -/
theorem drive_exit {size : Nat} {s : State V} (hreach : Reachable f size s)
    {h : Nat} {t : structWorker V} (ht : s.threads[h]? = some t) (hcl : t.close = true) :
    ∃ acts s', run f s acts = some s' ∧ s'.resizer = s.resizer ∧
      s'.pool.workers = s.pool.workers ∧ s'.constructed = s.constructed ∧
      closedAt s' h = true := by
  by_cases hex : t.pc = .exited
  · obtain ⟨si, _, _⟩ := hreach.inv
    refine ⟨[], s, rfl, rfl, rfl, rfl, ?_⟩
    unfold closedAt
    rw [ht]
    exact (si.threadOk h t ht).closed_iff.mpr hex
  · obtain ⟨acts, s1, t1, hr1, hf, ht1, hpc1⟩ := drive_select hreach ht hex
    have hreach1 := reachable_run hreach hr1
    obtain ⟨si1, _, hp1⟩ := hreach1.inv
    have hcl1 : t1.close = true := by
      have := hf.close h
      unfold closeAt at this
      rw [ht1, ht] at this
      simp only at this
      rw [this]; exact hcl
    have hcd1 : t1.closed = false := by
      cases hc : t1.closed with
      | false => rfl
      | true =>
        have := (si1.threadOk h t1 ht1).closed_iff.mp hc
        rw [hpc1] at this; cases this
    have hs := @step_complete V f _ _ _ (Step.exit h t1 ht1 hpc1 hcl1 hcd1) hp1
    refine ⟨acts ++ [.work h], _, run_append_of hr1 (run_cons_of hs rfl), ?_, ?_, ?_, ?_⟩
    · exact hf.resizer
    · exact hf.workers
    · exact hf.constructed
    · unfold closedAt
      rw [getElem?_setThread_self _ ht1]

theorem Finished.cons {s s1 : State V} {n : Nat} {a : Action V}
    (hs : step f s a = some s1) (h : Finished f s1 n) : Finished f s n := by
  obtain ⟨acts, s', hr, h1, h2, h3⟩ := h
  exact ⟨a :: acts, s', run_cons_of hs hr, h1, h2, h3⟩

theorem Finished.append {s s1 : State V} {n : Nat} {as : List (Action V)}
    (hs : run f s as = some s1) (h : Finished f s1 n) : Finished f s n := by
  obtain ⟨acts, s', hr, h1, h2, h3⟩ := h
  exact ⟨as ++ acts, s', run_append_of hs hr, h1, h2, h3⟩

theorem finish_truncate {size : Nat} {s : State V} (hreach : Reachable f size s)
    {fr : SetSizeCall} (hr : s.resizer = some fr) (hpc : fr.pc = .truncate) :
    Finished f s fr.n := by
  obtain ⟨si, _, hp⟩ := hreach.inv
  have hph := si.phase_at hr
  simp only [hpc] at hph
  have hs := @step_complete V f _ _ _ (Step.truncate fr hr hpc hph.1) hp
  refine ⟨[.resize], _, run_cons_of hs rfl, rfl, rfl, ?_⟩
  simp
  exact hph.1

theorem finish_join {size : Nat} (d : Nat) : ∀ {s : State V}, Reachable f size s →
    ∀ {fr : SetSizeCall} {i : Nat}, s.resizer = some fr → fr.pc = .join i →
    fr.poolLen - i = d → Finished f s fr.n := by
  induction d with
  | zero =>
    intro s hreach fr i hr hpc hd
    obtain ⟨si, _, hp⟩ := hreach.inv
    have hs := @step_complete V f _ _ _ (Step.joinEnd fr i hr hpc (by omega)) hp
    exact Finished.cons hs
      (@finish_truncate V f size _ (Reachable.step _ hreach hs) { fr with pc := .truncate } rfl rfl)
  | succ d ih =>
    intro s hreach fr i hr hpc hd
    obtain ⟨si, _, hp⟩ := hreach.inv
    have hph := si.phase_at hr
    simp only [hpc] at hph
    obtain ⟨h1, h2, h3, h4, h5, h6⟩ := hph
    have hi : i < fr.poolLen := by omega
    have hil : i < s.pool.workers.length := by omega
    obtain ⟨h, hw⟩ : ∃ h, s.pool.workers[i]? = some h :=
      ⟨s.pool.workers[i], List.getElem?_eq_getElem hil⟩
    have hv := si.valid_get hw
    obtain ⟨t, ht⟩ : ∃ t, s.threads[h]? = some t :=
      ⟨s.threads[h], List.getElem?_eq_getElem hv⟩
    have hcl : t.close = true := by
      have := (h5 i h hw).mpr ⟨h4, hi⟩
      unfold closeAt at this
      rw [ht] at this
      exact this
    obtain ⟨acts, s1, hr1, hres1, hw1, _, hcd1⟩ := drive_exit hreach ht hcl
    have hreach1 := reachable_run hreach hr1
    obtain ⟨_, _, hp1⟩ := hreach1.inv
    have hv1 : ∃ t1, s1.threads[h]? = some t1 ∧ t1.closed = true := by
      unfold closedAt at hcd1
      cases ht1 : s1.threads[h]? with
      | none => rw [ht1] at hcd1; cases hcd1
      | some t1 => rw [ht1] at hcd1; exact ⟨t1, rfl, hcd1⟩
    obtain ⟨t1, ht1, hcd⟩ := hv1
    have hs := @step_complete V f _ _ _
      (Step.join fr i h t1 (hres1.trans hr) hpc hi (by rw [hw1]; exact hw) ht1 hcd) hp1
    apply Finished.append hr1
    apply Finished.cons hs
    exact @ih _ (Reachable.step _ hreach1 hs) { fr with pc := .join (i + 1) } _ rfl rfl
      (by simp only; omega)

theorem finish_stop {size : Nat} (d : Nat) : ∀ {s : State V}, Reachable f size s →
    ∀ {fr : SetSizeCall} {i : Nat}, s.resizer = some fr → fr.pc = .stop i →
    fr.poolLen - i = d → Finished f s fr.n := by
  induction d with
  | zero =>
    intro s hreach fr i hr hpc hd
    obtain ⟨si, _, hp⟩ := hreach.inv
    have hs := @step_complete V f _ _ _ (Step.stopEnd fr i hr hpc (by omega)) hp
    exact Finished.cons hs
      (@finish_join V f size _ _ (Reachable.step _ hreach hs) { fr with pc := .join fr.n } _ rfl rfl rfl)
  | succ d ih =>
    intro s hreach fr i hr hpc hd
    obtain ⟨si, _, hp⟩ := hreach.inv
    have hph := si.phase_at hr
    simp only [hpc] at hph
    obtain ⟨h1, h2, h3, h4, h5, h6⟩ := hph
    have hi : i < fr.poolLen := by omega
    have hil : i < s.pool.workers.length := by omega
    obtain ⟨h, hw⟩ : ∃ h, s.pool.workers[i]? = some h :=
      ⟨s.pool.workers[i], List.getElem?_eq_getElem hil⟩
    have hv := si.valid_get hw
    obtain ⟨t, ht⟩ : ∃ t, s.threads[h]? = some t :=
      ⟨s.threads[h], List.getElem?_eq_getElem hv⟩
    have hcl : t.close = false := by
      cases hc : t.close with
      | false => rfl
      | true =>
        have := (h6 i h hw).mp (by unfold closeAt; rw [ht]; exact hc)
        omega
    have hs := @step_complete V f _ _ _ (Step.stop fr i h t hr hpc hi hw ht hcl) hp
    apply Finished.cons hs
    exact @ih _ (Reachable.step _ hreach hs) { fr with pc := .stop (i + 1) } _ rfl rfl
      (by simp only; omega)

theorem finish_grow {size : Nat} (d : Nat) : ∀ {s : State V}, Reachable f size s →
    ∀ {fr : SetSizeCall} {i : Nat}, s.resizer = some fr → fr.pc = .grow i →
    fr.n - i = d → Finished f s fr.n := by
  induction d with
  | zero =>
    intro s hreach fr i hr hpc hd
    obtain ⟨si, _, hp⟩ := hreach.inv
    have hs := @step_complete V f _ _ _ (Step.growEnd fr i hr hpc (by omega)) hp
    exact Finished.cons hs
      (@finish_stop V f size _ _ (Reachable.step _ hreach hs) { fr with pc := .stop fr.n } _ rfl rfl rfl)
  | succ d ih =>
    intro s hreach fr i hr hpc hd
    obtain ⟨si, _, hp⟩ := hreach.inv
    have hs := @step_complete V f _ _ _ (Step.spawn fr i hr hpc (by omega)) hp
    have hreach1 := Reachable.step _ hreach hs
    obtain ⟨_, _, hp1⟩ := hreach1.inv
    have hs2 := @step_complete V f _ _ _
      (Step.append { fr with pc := .append i s.threads.length } i s.threads.length rfl rfl) hp1
    apply Finished.cons hs
    apply Finished.cons hs2
    exact @ih _ (Reachable.step _ hreach1 hs2) { fr with pc := .grow (i + 1) } _ rfl rfl
      (by simp only; omega)

/-- Whatever the workers and callers are doing, the `SetSize(n)` that holds the mutex can
be run to its return, and then `pool.workers` has `n` entries. -/
theorem resize_completes {size : Nat} {s : State V} (hreach : Reachable f size s)
    {fr : SetSizeCall} (hr : s.resizer = some fr) : Finished f s fr.n := by
  cases hpc : fr.pc with
  | grow i => exact finish_grow _ hreach hr hpc rfl
  | append i w =>
    obtain ⟨_, _, hp⟩ := hreach.inv
    have hs := @step_complete V f _ _ _ (Step.append fr i w hr hpc) hp
    exact Finished.cons hs
      (@finish_grow V f size _ _ (Reachable.step _ hreach hs) { fr with pc := .grow (i + 1) } _
        rfl rfl rfl)
  | stop i => exact finish_stop _ hreach hr hpc rfl
  | join i => exact finish_join _ hreach hr hpc rfl
  | truncate => exact finish_truncate hreach hr hpc

/-- A call of `SetSize(n)` made while the mutex is free can be run to its return. -/
theorem setSize_completes {size : Nat} {s : State V} (hreach : Reachable f size s)
    (hcon : s.constructed = true) (hr : s.resizer = none) (n : Nat) :
    ∃ acts s', run f s (.SetSize n :: acts) = some s' ∧ s'.resizer = none ∧
      s'.pool.workers.length = n := by
  obtain ⟨_, _, hp⟩ := hreach.inv
  have hs := @step_complete V f _ _ _ (Step.lock n hcon hr) hp
  obtain ⟨acts, s', h1, h2, _, h4⟩ :=
    @resize_completes V f size _ (Reachable.step _ hreach hs)
      { n := n, poolLen := s.pool.workers.length, pc := .grow s.pool.workers.length } rfl
  exact ⟨acts, s', run_cons_of hs h1, h2, h4⟩

theorem do_newCall {s : State V} (hp : s.panicked = false) (hcon : s.constructed = true)
    (api : Api V) :
    ∃ s', step f s api.action = some s' ∧ s'.threads = s.threads ∧
      s'.calls[s.calls.length]? = some (Call.new api api.startPc) ∧
      s'.constructed = true := by
  refine ⟨_, step_complete (Step.newCall api hcon) hp, rfl, ?_, hcon⟩
  show (s.calls ++ [_])[s.calls.length]? = _
  simp

theorem do_execStart {s : State V} (hp : s.panicked = false) {c : Nat} {x : Call V}
    (hx : s.calls[c]? = some x) (hpc : x.pc = .execStart) :
    ∃ s' x', step f s (.caller c) = some s' ∧ s'.threads = s.threads ∧
      s'.calls[c]? = some x' ∧ x'.pc = .execPush ∧ x'.api = x.api := by
  refine ⟨_, { x with pc := .execPush, cap := 0 }, step_complete (Step.execStart c x hx hpc) hp,
    rfl, ?_, rfl, rfl⟩
  show (s.calls.set c _)[c]? = _
  exact List.getElem?_set_self (getElem?_lt hx)

theorem do_acceptExec {s : State V} (hp : s.panicked = false) {h c : Nat}
    {t : structWorker V} {x : Call V} {p : Option V}
    (ht : s.threads[h]? = some t) (hpc : t.pc = .select)
    (hx : s.calls[c]? = some x) (hxpc : x.pc = .execPush) (hin : x.api.input[0]? = some p) :
    ∃ s' t' x', step f s (.accept h c) = some s' ∧ s'.threads[h]? = some t' ∧
      t'.pc = .call { param := p, outputChannel := c, wg := none } ∧
      s'.calls[c]? = some x' ∧ x'.pc = .execAwait ∧ x'.api = x.api ∧ x'.closed = x.closed := by
  refine ⟨_, { t with pc := .call { param := p, outputChannel := c, wg := none } },
    { x with pc := .execAwait }, step_complete (Step.acceptExec h c t x p ht hx hpc hxpc hin) hp,
    ?_, rfl, ?_, rfl, rfl, rfl⟩
  · show (s.threads.set h _)[h]? = _
    exact List.getElem?_set_self (getElem?_lt ht)
  · show (s.calls.set c _)[c]? = _
    exact List.getElem?_set_self (getElem?_lt hx)

theorem do_callF {s : State V} (hp : s.panicked = false) {h : Nat}
    {t : structWorker V} {r : request V}
    (ht : s.threads[h]? = some t) (hpc : t.pc = .call r) :
    ∃ s' t', step f s (.work h) = some s' ∧ s'.threads[h]? = some t' ∧
      t'.pc = .send r ⟨(f r.param).1, (f r.param).2⟩ ∧ s'.calls = s.calls := by
  refine ⟨_, { t with pc := .send r ⟨(f r.param).1, (f r.param).2⟩ },
    step_complete (Step.callF h t r ht hpc) hp, ?_, rfl, rfl⟩
  show (s.threads.set h _)[h]? = _
  exact List.getElem?_set_self (getElem?_lt ht)

theorem do_deliver {s : State V} (hp : s.panicked = false) {h c : Nat}
    {t : structWorker V} {x : Call V} {r : request V} {res : Result V}
    (ht : s.threads[h]? = some t) (hpc : t.pc = .send r res) (hrc : r.outputChannel = c)
    (hx : s.calls[c]? = some x) (hxpc : x.pc = .execAwait) (hcl : x.closed = false) :
    ∃ s' x', step f s (.deliver h c) = some s' ∧
      s'.calls[c]? = some x' ∧ x'.pc = .execReturned res.Output res.Err ∧ x'.api = x.api := by
  refine ⟨_, { x with pc := .execReturned res.Output res.Err },
    step_complete (Step.deliver h c t r res x ht hx hpc hrc hxpc hcl) hp, ?_, rfl, rfl⟩
  show (s.calls.set c _)[c]? = _
  exact List.getElem?_set_self (getElem?_lt hx)

/-- A call of `Execute(v)` made while some worker has not terminated can be run to its
return, and it returns what `f` returns on `v`. -/
theorem execute_completes {size : Nat} {s : State V} (hreach : Reachable f size s)
    (hcon : s.constructed = true) {h : Nat} {t : structWorker V}
    (ht : s.threads[h]? = some t) (hne : t.pc ≠ .exited) (v : Option V) :
    ∃ acts s' x, run f s (.Execute v :: acts) = some s' ∧
      s'.calls[s.calls.length]? = some x ∧ x.api = .Execute v ∧
      x.pc = .execReturned (f v).1 (f v).2 := by
  obtain ⟨_, _, hp⟩ := hreach.inv
  -- the call is made
  obtain ⟨s0, hs0, ht0, hx0, _⟩ := @do_newCall V f s hp hcon (.Execute v)
  have hreach0 := Reachable.step _ hreach hs0
  -- the worker finishes what it is doing
  obtain ⟨acts1, s1, t1, hr1, hf1, ht1, hpc1⟩ :=
    @drive_select V f size _ hreach0 h t (by rw [ht0]; exact ht) hne
  have hreach1 := reachable_run hreach0 hr1
  obtain ⟨_, _, hp1⟩ := hreach1.inv
  have hx1 := hf1.fresh _ _ hx0 (Or.inl rfl)
  -- lines 141-142
  obtain ⟨s2, x2, hs2, ht2, hx2, hpc2, hapi2⟩ := @do_execStart V f s1 hp1 _ _ hx1 rfl
  have hreach2 := Reachable.step _ hreach1 hs2
  obtain ⟨_, qi2, hp2⟩ := hreach2.inv
  -- the send of line 143 meets the receive of line 59
  obtain ⟨s3, t3, x3, hs3, ht3, hpc3, hx3, hxpc3, hapi3, hcl3⟩ :=
    @do_acceptExec V f s2 hp2 h _ t1 x2 v (by rw [ht2]; exact ht1) hpc1 hx2 hpc2
      (by rw [hapi2]; rfl)
  have hreach3 := Reachable.step _ hreach2 hs3
  obtain ⟨_, _, hp3⟩ := hreach3.inv
  have hcl2 : x2.closed = false := by
    have ok := qi2.callOk _ x2 hx2
    cases hc : x2.closed with
    | false => rfl
    | true =>
      have := ok.closer_ret (by rw [ok.closed_fin hc]; simp)
      rw [hpc2] at this; cases this
  -- line 64
  obtain ⟨s4, t4, hs4, ht4, hpc4, hc4⟩ := @do_callF V f s3 hp3 h t3 _ ht3 hpc3
  have hreach4 := Reachable.step _ hreach3 hs4
  obtain ⟨_, _, hp4⟩ := hreach4.inv
  -- the send of line 65 meets the receive of line 144
  obtain ⟨s5, x5, hs5, hx5, hpc5, hapi5⟩ :=
    @do_deliver V f s4 hp4 h s.calls.length t4 x3 _ _ ht4 hpc4 rfl (by rw [hc4]; exact hx3)
      hxpc3 (by rw [hcl3]; exact hcl2)
  refine ⟨acts1 ++ [.caller s.calls.length, .accept h s.calls.length, .work h,
    .deliver h s.calls.length], s5, x5, ?_, hx5, ?_, hpc5⟩
  · exact run_cons_of hs0 (run_append_of hr1 (run_cons_of hs2 (run_cons_of hs3
      (run_cons_of hs4 (run_cons_of hs5 rfl)))))
  · rw [hapi5, hapi3, hapi2]; rfl

theorem do_mStart {s : State V} (hp : s.panicked = false) {c : Nat} {x : Call V}
    (hx : s.calls[c]? = some x) (hpc : x.pc = .mStart) :
    ∃ s' x', step f s (.caller c) = some s' ∧ s'.threads = s.threads ∧
      s'.calls[c]? = some x' ∧ x'.pc = .mPush 0 ∧ x'.api = x.api ∧
      x'.closer = x.closer ∧ x'.drained = x.drained := by
  refine ⟨_, { x with pc := .mPush 0, cap := x.api.input.length,
                      wg := x.wg + x.api.input.length },
    step_complete (Step.mStart c x hx hpc) hp, rfl, ?_, rfl, rfl, rfl, rfl⟩
  show (s.calls.set c _)[c]? = _
  exact List.getElem?_set_self (getElem?_lt hx)

theorem do_acceptBatch {s : State V} (hp : s.panicked = false) {h c i : Nat}
    {t : structWorker V} {x : Call V} {p : Option V}
    (ht : s.threads[h]? = some t) (hpc : t.pc = .select)
    (hx : s.calls[c]? = some x) (hxpc : x.pc = .mPush i) (hin : x.api.input[i]? = some p) :
    ∃ s' t' x', step f s (.accept h c) = some s' ∧ s'.threads[h]? = some t' ∧
      t'.pc = .call { param := p, outputChannel := c, wg := some c } ∧
      s'.calls[c]? = some x' ∧ x'.pc = .mPush (i + 1) ∧ x'.api = x.api ∧
      x'.closer = x.closer ∧ x'.drained = x.drained ∧
      ∀ k, k ≠ h → s'.threads[k]? = s.threads[k]? := by
  refine ⟨_, { t with pc := .call { param := p, outputChannel := c, wg := some c } },
    { x with pc := .mPush (i + 1) },
    step_complete (Step.acceptBatch h c t x i p ht hx hpc hxpc hin) hp,
    ?_, rfl, ?_, rfl, rfl, rfl, rfl, ?_⟩
  · show (s.threads.set h _)[h]? = _
    exact List.getElem?_set_self (getElem?_lt ht)
  · show (s.calls.set c _)[c]? = _
    exact List.getElem?_set_self (getElem?_lt hx)
  · intro k hk
    show (s.threads.set h _)[k]? = _
    exact List.getElem?_set_ne (Ne.symm hk)

theorem do_mReturn {s : State V} (hp : s.panicked = false) {c i : Nat} {x : Call V}
    (hx : s.calls[c]? = some x) (hpc : x.pc = .mPush i) (hi : ¬ i < x.api.input.length) :
    ∃ s' x', step f s (.caller c) = some s' ∧ s'.threads = s.threads ∧
      s'.calls[c]? = some x' ∧ x'.pc = .mReturned ∧ x'.api = x.api ∧
      x'.closer = .wait ∧ x'.drained = x.drained := by
  refine ⟨_, { x with pc := .mReturned, closer := .wait },
    step_complete (Step.mReturn c x i hx hpc hi) hp, rfl, ?_, rfl, rfl, rfl, rfl⟩
  show (s.calls.set c _)[c]? = _
  exact List.getElem?_set_self (getElem?_lt hx)

theorem do_closerWait {s : State V} (hp : s.panicked = false) {c : Nat} {x : Call V}
    (hx : s.calls[c]? = some x) (hcw : x.closer = .wait) (h0 : x.wg = 0) :
    ∃ s' x', step f s (.closer c) = some s' ∧
      s'.calls[c]? = some x' ∧ x'.pc = x.pc ∧ x'.api = x.api ∧
      x'.closer = .close ∧ x'.drained = x.drained := by
  refine ⟨_, { x with closer := .close },
    step_complete (Step.closerWait c x hx hcw h0) hp, ?_, rfl, rfl, rfl, rfl⟩
  show (s.calls.set c _)[c]? = _
  exact List.getElem?_set_self (getElem?_lt hx)

theorem do_closerClose {s : State V} (hp : s.panicked = false) {c : Nat} {x : Call V}
    (hx : s.calls[c]? = some x) (hcw : x.closer = .close) (hcl : x.closed = false) :
    ∃ s' x', step f s (.closer c) = some s' ∧
      s'.calls[c]? = some x' ∧ x'.pc = x.pc ∧ x'.api = x.api ∧
      x'.closed = true ∧ x'.drained = x.drained := by
  refine ⟨_, { x with closed := true, closer := .finished },
    step_complete (Step.closerClose c x hx hcw hcl) hp, ?_, rfl, rfl, rfl, rfl⟩
  show (s.calls.set c _)[c]? = _
  exact List.getElem?_set_self (getElem?_lt hx)

/-- The consumer of a closed channel can receive until it sees the channel closed. -/
theorem drain {size : Nat} {c : Nat} (n : Nat) : ∀ {s : State V}, Reachable f size s →
    ∀ {x : Call V}, s.calls[c]? = some x → x.pc = .mReturned → x.closed = true →
    x.drained = false → x.buf.length = n →
    ∃ acts s' x', run f s acts = some s' ∧ s'.calls[c]? = some x' ∧ x'.drained = true ∧
      x'.api = x.api := by
  induction n with
  | zero =>
    intro s hreach x hx hpc hcl hd hb
    obtain ⟨_, _, hp⟩ := hreach.inv
    have hb' : x.buf = [] := List.length_eq_zero.mp hb
    have hs := @step_complete V f _ _ _ (Step.recvClosed c x hx hpc hd hb' hcl) hp
    refine ⟨[.recv c], _, { x with drained := true }, run_cons_of hs rfl, ?_, rfl, rfl⟩
    show (s.calls.set c _)[c]? = _
    exact List.getElem?_set_self (getElem?_lt hx)
  | succ n ih =>
    intro s hreach x hx hpc hcl hd hb
    obtain ⟨_, _, hp⟩ := hreach.inv
    cases hbuf : x.buf with
    | nil => rw [hbuf] at hb; simp at hb
    | cons r rest =>
      have hs := @step_complete V f _ _ _ (Step.recv c x r rest hx hpc hd hbuf) hp
      have hx1 : (s.setCall c { x with buf := rest, received := x.received ++ [r] }).calls[c]?
          = some { x with buf := rest, received := x.received ++ [r] } := by
        show (s.calls.set c _)[c]? = _
        exact List.getElem?_set_self (getElem?_lt hx)
      obtain ⟨acts, s', x', hr, hx', hd', hapi⟩ :=
        @ih _ (Reachable.step _ hreach hs) _ hx1 hpc hcl hd
          (by rw [hbuf] at hb; simpa using hb)
      exact ⟨.recv c :: acts, s', x', run_cons_of hs hr, hx', hd', hapi⟩

/-- The loop of lines 164-166 with one worker serving every request. -/
theorem batch_loop {size : Nat} {h c : Nat} (d : Nat) : ∀ {s : State V},
    Reachable f size s → ∀ {t : structWorker V} {x : Call V} {i : Nat},
    s.threads[h]? = some t → t.pc = .select → s.calls[c]? = some x → x.pc = .mPush i →
    x.api.input.length - i = d →
    (∀ (k : Nat) (tk : structWorker V), k ≠ h → s.threads[k]? = some tk → holdsWg c tk = 0) →
    ∃ acts s' t' x' i', run f s acts = some s' ∧ s'.threads[h]? = some t' ∧
      t'.pc = .select ∧ s'.calls[c]? = some x' ∧ x'.pc = .mPush i' ∧
      ¬ i' < x'.api.input.length ∧ x'.api = x.api ∧ x'.drained = x.drained ∧
      x'.closer = x.closer ∧
      (∀ (k : Nat) (tk : structWorker V), k ≠ h → s'.threads[k]? = some tk →
        holdsWg c tk = 0) := by
  induction d with
  | zero =>
    intro s hreach t x i ht hpc hx hxpc hd hoth
    exact ⟨[], s, t, x, i, rfl, ht, hpc, hx, hxpc, by omega, rfl, rfl, rfl, hoth⟩
  | succ d ih =>
    intro s hreach t x i ht hpc hx hxpc hd hoth
    obtain ⟨_, _, hp⟩ := hreach.inv
    have hi : i < x.api.input.length := by omega
    obtain ⟨s1, t1, x1, hs1, ht1, hpc1, hx1, hxpc1, hapi1, hclo1, hdr1, hoth1⟩ :=
      @do_acceptBatch V f s hp h c i t x _ ht hpc hx hxpc (List.getElem?_eq_getElem hi)
    have hreach1 := Reachable.step _ hreach hs1
    obtain ⟨acts2, s2, t2, hr2, hf2, ht2, hpc2⟩ := drive_from_call hreach1 ht1 hpc1
    have hreach2 := reachable_run hreach1 hr2
    obtain ⟨x2, hx2, hapi2, hkeep2, hclo2, hdr2, _⟩ := hf2.keep c x1 hx1
    have hxpc2 : x2.pc = .mPush (i + 1) := by
      rw [hkeep2 (by rw [hxpc1]; simp), hxpc1]
    have hoth2 : ∀ (k : Nat) (tk : structWorker V), k ≠ h → s2.threads[k]? = some tk →
        holdsWg c tk = 0 := by
      intro k tk hk htk
      rw [hf2.others k hk, hoth1 k hk] at htk
      exact hoth k tk hk htk
    obtain ⟨acts3, s3, t3, x3, i3, hr3, ht3, hpc3, hx3, hxpc3, hi3, hapi3, hdr3, hclo3, hoth3⟩ :=
      @ih s2 hreach2 t2 x2 (i + 1) ht2 hpc2 hx2 hxpc2 (by rw [hapi2, hapi1]; omega) hoth2
    refine ⟨.accept h c :: (acts2 ++ acts3), s3, t3, x3, i3,
      run_cons_of hs1 (run_append_of hr2 hr3), ht3, hpc3, hx3, hxpc3, hi3, ?_, ?_, ?_, hoth3⟩
    · rw [hapi3, hapi2, hapi1]
    · rw [hdr3, hdr2, hdr1]
    · rw [hclo3, hclo2, hclo1]

/-- A call of `ExecuteM(xs)` made while some worker has not terminated can be run until
the consumer has received everything and seen the channel closed; what it has received
is then a permutation of the results of `f` on the inputs. -/
theorem executeM_completes {size : Nat} {s : State V} (hreach : Reachable f size s)
    (hcon : s.constructed = true) {h : Nat} {t : structWorker V}
    (ht : s.threads[h]? = some t) (hne : t.pc ≠ .exited) (xs : List (Option V)) :
    ∃ acts s' x, run f s (.ExecuteM xs :: acts) = some s' ∧
      s'.calls[s.calls.length]? = some x ∧ x.api = .ExecuteM xs ∧ x.drained = true ∧
      x.closed = true ∧ x.received.Perm (xs.map (Rf f)) := by
  obtain ⟨_, qi, hp⟩ := hreach.inv
  -- the call is made
  obtain ⟨s0, hs0, ht0, hx0, _⟩ := @do_newCall V f s hp hcon (.ExecuteM xs)
  have hreach0 := Reachable.step _ hreach hs0
  have hoth0 : ∀ (k : Nat) (tk : structWorker V), s0.threads[k]? = some tk →
      holdsWg s.calls.length tk = 0 := by
    intro k tk htk
    rw [ht0] at htk
    unfold holdsWg
    split
    next r hj =>
      have := qi.noReq s.calls.length (Nat.le_refl _) k tk r htk hj
      simp [this]
    next => rfl
  -- the worker finishes what it is doing
  obtain ⟨acts1, s1, t1, hr1, hf1, ht1, hpc1⟩ :=
    @drive_select V f size _ hreach0 h t (by rw [ht0]; exact ht) hne
  have hreach1 := reachable_run hreach0 hr1
  obtain ⟨_, _, hp1⟩ := hreach1.inv
  have hx1 := hf1.fresh _ _ hx0 (Or.inr (Or.inr rfl))
  -- lines 159-163
  obtain ⟨s2, x2, hs2, ht2, hx2, hpc2, hapi2, hclo2, hdr2⟩ :=
    @do_mStart V f s1 hp1 _ _ hx1 rfl
  have hreach2 := Reachable.step _ hreach1 hs2
  have hoth2 : ∀ (k : Nat) (tk : structWorker V), k ≠ h → s2.threads[k]? = some tk →
      holdsWg s.calls.length tk = 0 := by
    intro k tk hk htk
    rw [ht2, hf1.others k hk] at htk
    exact hoth0 k tk htk
  -- the loop of lines 164-166
  obtain ⟨acts3, s3, t3, x3, i3, hr3, ht3, hpc3, hx3, hxpc3, hi3, hapi3, hdr3, hclo3, hoth3⟩ :=
    @batch_loop V f size h s.calls.length _ s2 hreach2 t1 x2 0 (by rw [ht2]; exact ht1)
      hpc1 hx2 hpc2 rfl hoth2
  have hreach3 := reachable_run hreach2 hr3
  obtain ⟨_, _, hp3⟩ := hreach3.inv
  -- lines 167-171
  obtain ⟨s4, x4, hs4, ht4, hx4, hpc4, hapi4, hclo4, hdr4⟩ :=
    @do_mReturn V f s3 hp3 _ _ x3 hx3 hxpc3 hi3
  have hreach4 := Reachable.step _ hreach3 hs4
  obtain ⟨_, qi4, hp4⟩ := hreach4.inv
  have hwg4 : x4.wg = 0 := by
    have h1 := qi4.wgInv _ x4 hx4
    have h2 : lsum (holdsWg s.calls.length) s4.threads = 0 := by
      apply lsum_eq_zero
      intro k tk htk
      rw [ht4] at htk
      by_cases hk : k = h
      · subst hk
        rw [ht3] at htk
        cases htk
        simp [holdsWg, WorkerPc.job, hpc3]
      · exact hoth3 k tk hk htk
    simp [unpushedW, hpc4] at h1
    omega
  -- the goroutine of lines 167-170
  obtain ⟨s5, x5, hs5, hx5, hpc5, hapi5, hclo5, hdr5⟩ :=
    @do_closerWait V f s4 hp4 _ x4 hx4 hclo4 hwg4
  have hreach5 := Reachable.step _ hreach4 hs5
  obtain ⟨_, qi5, hp5⟩ := hreach5.inv
  have hcl5 : x5.closed = false := by
    cases hc : x5.closed with
    | false => rfl
    | true =>
      have := (qi5.callOk _ x5 hx5).closed_fin hc
      rw [hclo5] at this; cases this
  obtain ⟨s6, x6, hs6, hx6, hpc6, hapi6, hcl6, hdr6⟩ :=
    @do_closerClose V f s5 hp5 _ x5 hx5 hclo5 hcl5
  have hreach6 := Reachable.step _ hreach5 hs6
  -- the consumer
  have hd6 : x6.drained = false := by
    rw [hdr6, hdr5, hdr4, hdr3, hdr2]; rfl
  obtain ⟨acts7, s7, x7, hr7, hx7, hd7, hapi7⟩ :=
    @drain V f size s.calls.length _ s6 hreach6 x6 hx6
      (by rw [hpc6, hpc5, hpc4]) hcl6 hd6 rfl
  have hreach7 := reachable_run hreach6 hr7
  obtain ⟨_, qi7, _⟩ := hreach7.inv
  have ok7 := qi7.callOk _ x7 hx7
  have hapi : x7.api = .ExecuteM xs := by
    rw [hapi7, hapi6, hapi5, hapi4, hapi3, hapi2]; rfl
  have hperm := closed_all_written hreach7 hx7 (ok7.drained_ok hd7).1
  rw [(ok7.drained_ok hd7).2, hapi] at hperm
  refine ⟨acts1 ++ (.caller s.calls.length :: (acts3 ++ (.caller s.calls.length ::
    .closer s.calls.length :: .closer s.calls.length :: acts7))), s7, x7, ?_, hx7, hapi, hd7,
    (ok7.drained_ok hd7).1, by simpa [Api.input] using hperm⟩
  exact run_cons_of hs0 (run_append_of hr1 (run_cons_of hs2 (run_append_of hr3
    (run_cons_of hs4 (run_cons_of hs5 (run_cons_of hs6 hr7))))))

theorem Local.dummy (s s' : State V) (a : Action V)
    (h : a ≠ .resize → (∀ n, a ≠ .SetSize n) →
      s'.resizer = s.resizer ∧ s'.pool.workers = s.pool.workers) :
    Local s s' a 0 (⟨false, false, .select⟩ : structWorker V) ⟨false, false, .select⟩
      (Call.new (.Execute none) .execStart) (Call.new (.Execute none) .execStart) :=
  ⟨rfl, fun _ => rfl, (fun h => by cases h), (fun r h => by simp [WorkerPc.job] at h),
    fun h1 h2 => ⟨(h h1 h2).1, (h h1 h2).2, rfl⟩⟩

/-- Every step replaces the state of at most one worker and of at most one call, or
starts a worker, or is the entry of a caller. -/
theorem Step.shape {s s' : State V} {a : Action V} (h : Step f s a s') :
    (∃ w c t t' x x', Upd s.threads s'.threads w t t' ∧ Upd s.calls s'.calls c x x' ∧
      Local s s' a c t t' x x') ∨
    (a = .resize ∧ s'.threads = s.threads ++ [⟨false, false, .select⟩] ∧ s'.calls = s.calls) ∨
    (a.isSubmit = true ∧ s'.threads = s.threads ∧ s'.resizer = s.resizer ∧
      s'.pool.workers = s.pool.workers ∧
      ∃ api, s'.calls = s.calls ++ [Call.new api api.startPc]) := by
  have dummyT : Upd s.threads s.threads 0 (⟨false, false, .select⟩ : structWorker V)
      ⟨false, false, .select⟩ := Upd.same _ _ _
  have dummyC : Upd s.calls s.calls 0 (Call.new (.Execute none) .execStart)
      (Call.new (.Execute none) .execStart) := Upd.same _ _ _
  cases h with
  | panic _ =>
    exact Or.inl ⟨_, _, _, _, _, _, dummyT, dummyC, Local.dummy _ _ _ (fun _ _ => ⟨rfl, rfl⟩)⟩
  | lock n _ _ =>
    exact Or.inl ⟨_, _, _, _, _, _, dummyT, dummyC,
      Local.dummy _ _ _ (fun _ h2 => absurd rfl (h2 n))⟩
  | spawn fr i _ _ _ => exact Or.inr (Or.inl ⟨rfl, rfl, rfl⟩)
  | growEnd fr i _ _ _ =>
    exact Or.inl ⟨_, _, _, _, _, _, dummyT, dummyC,
      Local.dummy _ _ _ (fun h1 _ => absurd rfl h1)⟩
  | append fr i w _ _ =>
    exact Or.inl ⟨_, _, _, _, _, _, dummyT, dummyC,
      Local.dummy _ _ _ (fun h1 _ => absurd rfl h1)⟩
  | stop fr i h t _ _ _ _ ht hcl =>
    refine Or.inl ⟨h, 0, t, { t with close := true }, _, _, Upd.set _ _ _ _ ht, dummyC, ?_⟩
    exact ⟨rfl, fun _ => rfl, fun h => Or.elim (Classical.em (t.pc = .select)) Or.inl
      (fun _ => Or.inr h), fun r h1 h2 => Or.inl ⟨h1, h2⟩, fun h1 _ => absurd rfl h1⟩
  | stopEnd fr i _ _ _ =>
    exact Or.inl ⟨_, _, _, _, _, _, dummyT, dummyC,
      Local.dummy _ _ _ (fun h1 _ => absurd rfl h1)⟩
  | join fr i h t _ _ _ _ _ _ =>
    exact Or.inl ⟨_, _, _, _, _, _, dummyT, dummyC,
      Local.dummy _ _ _ (fun h1 _ => absurd rfl h1)⟩
  | joinEnd fr i _ _ _ =>
    exact Or.inl ⟨_, _, _, _, _, _, dummyT, dummyC,
      Local.dummy _ _ _ (fun h1 _ => absurd rfl h1)⟩
  | truncate fr _ _ _ =>
    exact Or.inl ⟨_, _, _, _, _, _, dummyT, dummyC,
      Local.dummy _ _ _ (fun h1 _ => absurd rfl h1)⟩
  | newCall api _ =>
    refine Or.inr (Or.inr ⟨?_, rfl, rfl, rfl, api, rfl⟩)
    cases api <;> rfl
  | execStart c x hc hpc =>
    refine Or.inl ⟨0, c, _, _, x, _, dummyT, Upd.set _ _ _ _ hc, ?_⟩
    exact ⟨rfl, (fun h => by rw [hpc] at h; cases h), (fun h => by cases h),
      (fun r h => by simp [WorkerPc.job] at h), fun _ _ => ⟨rfl, rfl, rfl⟩⟩
  | execClosed c x hc hpc hcl =>
    refine Or.inl ⟨0, c, _, _, x, _, dummyT, Upd.set _ _ _ _ hc, ?_⟩
    exact ⟨rfl, (fun h => by rw [hpc] at h; cases h), (fun h => by cases h),
      (fun r h => by simp [WorkerPc.job] at h), fun _ _ => ⟨rfl, rfl, rfl⟩⟩
  | aStart c x hc hpc =>
    refine Or.inl ⟨0, c, _, _, x, _, dummyT, Upd.set _ _ _ _ hc, ?_⟩
    exact ⟨rfl, (fun h => by rw [hpc] at h; cases h), (fun h => by cases h),
      (fun r h => by simp [WorkerPc.job] at h), fun _ _ => ⟨rfl, rfl, rfl⟩⟩
  | mStart c x hc hpc =>
    refine Or.inl ⟨0, c, _, _, x, _, dummyT, Upd.set _ _ _ _ hc, ?_⟩
    exact ⟨rfl, (fun h => by rw [hpc] at h; cases h), (fun h => by cases h),
      (fun r h => by simp [WorkerPc.job] at h), fun _ _ => ⟨rfl, rfl, rfl⟩⟩
  | mReturn c x i hc hpc hi =>
    refine Or.inl ⟨0, c, _, _, x, _, dummyT, Upd.set _ _ _ _ hc, ?_⟩
    exact ⟨rfl, (fun h => by rw [hpc] at h; cases h), (fun h => by cases h),
      (fun r h => by simp [WorkerPc.job] at h), fun _ _ => ⟨rfl, rfl, rfl⟩⟩
  | acceptExec w c t x p hw hc hpc hx hp =>
    refine Or.inl ⟨w, c, t, _, x, _, Upd.set _ _ _ _ hw, Upd.set _ _ _ _ hc, ?_⟩
    refine ⟨rfl, (fun h => by rw [hx] at h; cases h), (fun h => by cases h), ?_,
      fun _ _ => ⟨rfl, rfl, rfl⟩⟩
    intro r hr _
    simp [WorkerPc.job] at hr
    subst hr
    exact Or.inr ⟨hc, rfl, by rw [hx]; rfl⟩
  | acceptBatch w c t x i p hw hc hpc hx hp =>
    refine Or.inl ⟨w, c, t, _, x, _, Upd.set _ _ _ _ hw, Upd.set _ _ _ _ hc, ?_⟩
    refine ⟨rfl, (fun h => by rw [hx] at h; cases h), (fun h => by cases h), ?_,
      fun _ _ => ⟨rfl, rfl, rfl⟩⟩
    intro r hr _
    simp [WorkerPc.job] at hr
    subst hr
    exact Or.inr ⟨hc, rfl, by rw [hx]; rfl⟩
  | exit w t hw hpc hcl hcd =>
    refine Or.inl ⟨w, 0, t, _, _, _, Upd.set _ _ _ _ hw, dummyC, ?_⟩
    exact ⟨rfl, fun _ => rfl, fun _ => Or.inl hpc, (fun r h => by simp [WorkerPc.job] at h),
      fun _ _ => ⟨rfl, rfl, rfl⟩⟩
  | callF w t r hw hpc =>
    refine Or.inl ⟨w, 0, t, _, _, _, Upd.set _ _ _ _ hw, dummyC, ?_⟩
    refine ⟨rfl, fun _ => rfl, (fun h => by cases h), ?_, fun _ _ => ⟨rfl, rfl, rfl⟩⟩
    intro r' hr _
    simp [WorkerPc.job] at hr
    subst hr
    exact Or.inl ⟨by simp [WorkerPc.job, hpc], by simp [counted, hpc]⟩
  | sendBuf w t r res x hw hpc hx hcl hb =>
    refine Or.inl ⟨w, _, t, _, x, _, Upd.set _ _ _ _ hw, Upd.set _ _ _ _ hx, ?_⟩
    refine ⟨rfl, fun _ => rfl, (fun h => by cases h), ?_, fun _ _ => ⟨rfl, rfl, rfl⟩⟩
    intro r' hr _
    simp [WorkerPc.job] at hr
    subst hr
    exact Or.inl ⟨by simp [WorkerPc.job, hpc], by simp [counted, hpc]⟩
  | dec w t r hw hpc =>
    refine Or.inl ⟨w, 0, t, _, _, _, Upd.set _ _ _ _ hw, dummyC, ?_⟩
    refine ⟨rfl, fun _ => rfl, (fun h => by cases h), ?_, fun _ _ => ⟨rfl, rfl, rfl⟩⟩
    intro r' _ hc
    simp [counted] at hc
  | doneNil w t r hw hpc hg =>
    refine Or.inl ⟨w, 0, t, _, _, _, Upd.set _ _ _ _ hw, dummyC, ?_⟩
    exact ⟨rfl, fun _ => rfl, (fun h => by cases h), (fun r h => by simp [WorkerPc.job] at h),
      fun _ _ => ⟨rfl, rfl, rfl⟩⟩
  | doneWg w t r g x hw hpc hg hx h0 =>
    refine Or.inl ⟨w, _, t, _, x, _, Upd.set _ _ _ _ hw, Upd.set _ _ _ _ hx, ?_⟩
    exact ⟨rfl, fun _ => rfl, (fun h => by cases h), (fun r h => by simp [WorkerPc.job] at h),
      fun _ _ => ⟨rfl, rfl, rfl⟩⟩
  | deliver w c t r res x hw hc hpc hrc hx hcl =>
    refine Or.inl ⟨w, c, t, _, x, _, Upd.set _ _ _ _ hw, Upd.set _ _ _ _ hc, ?_⟩
    refine ⟨rfl, (fun h => by rw [hx] at h; cases h), (fun h => by cases h), ?_,
      fun _ _ => ⟨rfl, rfl, rfl⟩⟩
    intro r' hr _
    simp [WorkerPc.job] at hr
    subst hr
    exact Or.inl ⟨by simp [WorkerPc.job, hpc], by simp [counted, hpc]⟩
  | closerWait c x hc hcw h0 =>
    refine Or.inl ⟨0, c, _, _, x, _, dummyT, Upd.set _ _ _ _ hc, ?_⟩
    exact ⟨rfl, fun _ => rfl, (fun h => by cases h),
      (fun r h => by simp [WorkerPc.job] at h), fun _ _ => ⟨rfl, rfl, rfl⟩⟩
  | closerClose c x hc hcw hcl =>
    refine Or.inl ⟨0, c, _, _, x, _, dummyT, Upd.set _ _ _ _ hc, ?_⟩
    exact ⟨rfl, fun _ => rfl, (fun h => by cases h),
      (fun r h => by simp [WorkerPc.job] at h), fun _ _ => ⟨rfl, rfl, rfl⟩⟩
  | recv c x r rest hc hpc hd hb =>
    refine Or.inl ⟨0, c, _, _, x, _, dummyT, Upd.set _ _ _ _ hc, ?_⟩
    exact ⟨rfl, fun _ => rfl, (fun h => by cases h),
      (fun r h => by simp [WorkerPc.job] at h), fun _ _ => ⟨rfl, rfl, rfl⟩⟩
  | recvClosed c x hc hpc hd hb hcl =>
    refine Or.inl ⟨0, c, _, _, x, _, dummyT, Upd.set _ _ _ _ hc, ?_⟩
    exact ⟨rfl, fun _ => rfl, (fun h => by cases h),
      (fun r h => by simp [WorkerPc.job] at h), fun _ _ => ⟨rfl, rfl, rfl⟩⟩

theorem quiet_calls {s : State V} (h : quiet s = true) {c : Nat} {x : Call V}
    (hx : s.calls[c]? = some x) : x.pc.isReturned = true := by
  simp only [quiet, Bool.and_eq_true, List.all_eq_true] at h
  exact h.1 x (List.getElem?_mem hx)

theorem quiet_threads {s : State V} (h : quiet s = true) {k : Nat} {t : structWorker V}
    (ht : s.threads[k]? = some t) : counted t = 0 := by
  simp only [quiet, Bool.and_eq_true, List.all_eq_true] at h
  have := h.2 t (List.getElem?_mem ht)
  simpa using this

theorem counted_job {t : structWorker V} (h : counted t = 1) : ∃ r, t.pc.job = some r := by
  unfold counted at h
  split at h
  next r hpc => exact ⟨r, by simp [WorkerPc.job, hpc]⟩
  next r res hpc => exact ⟨r, by simp [WorkerPc.job, hpc]⟩
  next r hpc => exact ⟨r, by simp [WorkerPc.job, hpc]⟩
  next => cases h

theorem counted_le_one (t : structWorker V) : counted t = 0 ∨ counted t = 1 := by
  unfold counted
  split <;> simp

theorem lsum_snoc_of {α : Type} (g : α → Nat) : ∀ (l l' : List α) (z : α),
    l'.length = l.length + 1 →
    (∀ (j : Nat) (y : α), l[j]? = some y → ∃ y', l'[j]? = some y' ∧ g y' = g y) →
    l'[l.length]? = some z → lsum g l' = lsum g l + g z := by
  intro l
  induction l with
  | nil =>
    intro l' z hl _ hz
    match l', hl, hz with
    | [a], _, hz => simp at hz; subst hz; simp
  | cons a as ih =>
    intro l' z hl hold hz
    match l', hl with
    | a' :: as', hl =>
      obtain ⟨y', hy', hg⟩ := hold 0 a (by simp)
      simp at hy'
      subst hy'
      have := ih as' z (by simpa using hl)
        (fun j y hj => by simpa using hold (j + 1) y (by simpa using hj))
        (by simpa using hz)
      simp [this, hg]
      omega

theorem alone_step {s0 s s' : State V} {xs : List (Option V)} {a : Action V}
    (hq : quiet s0 = true) (al : Alone s0 xs s) (hs : Step f s a s')
    (ha : a.isSubmit = false) : Alone s0 xs s' := by
  rcases hs.shape with ⟨w, c, t, t', x, x', hT, hC, loc⟩ | ⟨_, hT, hC⟩ | ⟨hsub, _⟩
  · have hkeep : ∀ (j : Nat) (y : Call V), s.calls[j]? = some y →
        ∃ y', s'.calls[j]? = some y' ∧ y'.api = y.api ∧
          (y.pc.isReturned = true → y'.pc = y.pc) := by
      intro j y hy
      rcases hC.get_old hy with ⟨_, h1⟩ | ⟨_, h1, h2⟩ | ⟨h1, _⟩
      · exact ⟨y, h1, rfl, fun _ => rfl⟩
      · subst h1; exact ⟨x', h2, loc.api, loc.ret⟩
      · exact ⟨y, h1, rfl, fun _ => rfl⟩
    refine ⟨by rw [hC.length]; exact al.len, ?_, ?_, ?_⟩
    · intro j y hy
      obtain ⟨y1, hy1, ha1, hp1⟩ := al.old j y hy
      obtain ⟨y2, hy2, ha2, hp2⟩ := hkeep j y1 hy1
      have hret : y1.pc.isReturned = true := by rw [hp1]; exact quiet_calls hq hy
      exact ⟨y2, hy2, by rw [ha2, ha1], by rw [hp2 hret, hp1]⟩
    · obtain ⟨x1, hx1, ha1⟩ := al.new
      obtain ⟨x2, hx2, ha2, _⟩ := hkeep _ x1 hx1
      exact ⟨x2, hx2, by rw [ha2, ha1]⟩
    · intro k u r hu hr hcnt
      have hnew : s.threads[k]? = some t → t'.pc.job = some r → counted t' = 1 →
          r.outputChannel = s0.calls.length := by
        intro htk hr' hcnt'
        rcases loc.job r hr' hcnt' with ⟨h3, h4⟩ | ⟨h3, h4, h5⟩
        · exact al.jobs k t r htk h3 h4
        · -- the request comes from a call that has not returned: it is the batch
          have hlt := getElem?_lt h3
          rw [al.len] at hlt
          rcases Nat.lt_or_ge c s0.calls.length with h6 | h6
          · exfalso
            obtain ⟨y1, hy1, _, hp1⟩ :=
              al.old c (s0.calls[c]) (List.getElem?_eq_getElem h6)
            rw [h3] at hy1
            cases hy1
            have := quiet_calls hq (List.getElem?_eq_getElem h6)
            rw [← hp1, h5] at this
            cases this
          · rw [h4]; omega
      rcases hT.get_new hu with ⟨_, h1⟩ | ⟨_, h1, h2⟩ | ⟨h1, _⟩
      · exact al.jobs k u r h1 hr hcnt
      · subst h1; exact hnew h2 hr hcnt
      · exact al.jobs k u r h1 hr hcnt
  · refine ⟨by rw [hC]; exact al.len, by rw [hC]; exact al.old, by rw [hC]; exact al.new, ?_⟩
    intro k u r hu hr hcnt
    rw [hT] at hu
    rcases getElem?_append_single hu with h1 | ⟨_, h1⟩
    · exact al.jobs k u r h1 hr hcnt
    · rw [h1] at hr; simp [WorkerPc.job] at hr
  · rw [ha] at hsub; cases hsub

theorem alone_run {s0 : State V} {xs : List (Option V)} (hq : quiet s0 = true) :
    ∀ (acts : List (Action V)) {s s' : State V}, Alone s0 xs s →
    (∀ a ∈ acts, a.isSubmit = false) → run f s acts = some s' → Alone s0 xs s' := by
  intro acts
  induction acts with
  | nil =>
    intro s s' al _ hr
    simp [run] at hr
    subst hr
    exact al
  | cons a as ih =>
    intro s s' al hsub hr
    simp only [run] at hr
    cases hs : step f s a with
    | none => rw [hs] at hr; simp at hr
    | some s1 =>
      rw [hs] at hr
      exact ih (alone_step hq al (step_sound hs) (hsub a (List.mem_cons_self _ _)))
        (fun b hb => hsub b (List.mem_cons_of_mem _ hb)) hr

theorem alone_init {s0 s1 : State V} {xs : List (Option V)} (hq : quiet s0 = true)
    (hs : step f s0 (.ExecuteM xs) = some s1) : Alone s0 xs s1 := by
  unfold step at hs
  split at hs
  · cases hs
  · simp only at hs
    split at hs
    · cases hs
      refine ⟨by simp, ?_, ⟨Call.new (.ExecuteM xs) .mStart, by simp, rfl⟩, ?_⟩
      · intro j y hy
        exact ⟨y, getElem?_append_old hy, rfl, rfl⟩
      · intro k t r ht _ hc
        have := quiet_threads hq ht
        omega
    · cases hs

/-- With no other submission in flight, once the channel returned by `ExecuteM` has been
drained to its closure, `queuedJobs` is back at its value before the call; and the
channel is closed only after every worker's decrement for the batch. -/
theorem counter_restored {size : Nat} {s0 s : State V} (hreach : Reachable f size s0)
    (hq : quiet s0 = true) {xs : List (Option V)} {acts : List (Action V)}
    (hsub : ∀ a ∈ acts, a.isSubmit = false)
    (hrun : run f s0 (.ExecuteM xs :: acts) = some s) {x : Call V}
    (hx : s.calls[s0.calls.length]? = some x) (hcl : x.closed = true) :
    GetQueuedJobs s = GetQueuedJobs s0 ∧
      (∀ (k : Nat) (t : structWorker V), s.threads[k]? = some t → counted t = 0) := by
  simp only [run] at hrun
  cases hs1 : step f s0 (.ExecuteM xs) with
  | none => rw [hs1] at hrun; simp at hrun
  | some s1 =>
    rw [hs1] at hrun
    have hrun' : run f s1 acts = some s := hrun
    have al := alone_run hq acts (alone_init hq hs1) hsub hrun'
    have hreach' : Reachable f size s :=
      reachable_run (Reachable.step _ hreach hs1) hrun'
    obtain ⟨_, qi, _⟩ := hreach'.inv
    obtain ⟨_, qi0, _⟩ := hreach.inv
    obtain ⟨x1, hx1, hapi1⟩ := al.new
    rw [hx] at hx1
    cases hx1
    have ok := qi.callOk _ x hx
    have hfin := ok.closed_fin hcl
    have hret := ok.closer_ret (by rw [hfin]; simp)
    have hwg := ok.closer_wg (Or.inr hfin)
    -- no worker has a decrement to come
    have hcnt : ∀ (k : Nat) (t : structWorker V), s.threads[k]? = some t → counted t = 0 := by
      intro k t ht
      rcases counted_le_one t with h0 | h1
      · exact h0
      · exfalso
        obtain ⟨r, hr⟩ := counted_job h1
        have hout := al.jobs k t r ht hr h1
        obtain ⟨x', hx', hrw⟩ := qi.reqOk k t r ht hr
        rw [hout, hx] at hx'
        cases hx'
        have h2 := qi.wgInv _ x hx
        have h3 := le_lsum (holdsWg s0.calls.length) ht
        have h4 : holdsWg s0.calls.length t = 1 := by
          simp [holdsWg, hr, hrw, hout, wgFor, hapi1, Api.isExecute]
        omega
    refine ⟨?_, hcnt⟩
    have hc1 : lsum counted s.threads = 0 := lsum_eq_zero counted hcnt
    have hc0 : lsum counted s0.threads = 0 :=
      lsum_eq_zero counted (fun k t ht => quiet_threads hq ht)
    have hu : lsum unpushed s.calls = lsum unpushed s0.calls + unpushed x := by
      apply lsum_snoc_of unpushed s0.calls s.calls x al.len _ hx
      intro j y hy
      obtain ⟨y', hy', ha, hp⟩ := al.old j y hy
      exact ⟨y', hy', by simp [unpushed, ha, hp]⟩
    have hl : lsum leaked s.calls = lsum leaked s0.calls + leaked x := by
      apply lsum_snoc_of leaked s0.calls s.calls x al.len _ hx
      intro j y hy
      obtain ⟨y', hy', ha, hp⟩ := al.old j y hy
      exact ⟨y', hy', by simp [leaked, ha, hp]⟩
    have hux : unpushed x = 0 := by simp [unpushed, hret]
    have hlx : leaked x = 0 := by simp [leaked, hapi1]
    have h1 := qi.cntInv
    have h0 := qi0.cntInv
    unfold GetQueuedJobs
    rw [h1, h0, hu, hl, hc1, hc0, hux, hlx]
    simp

theorem Mid.congr {ws : List Nat} {T0 n : Nat} {s s' : State V} (h : Mid ws T0 n s)
    (hr : s'.resizer = s.resizer) (hw : s'.pool.workers = s.pool.workers)
    (hl : s'.threads.length = s.threads.length) : Mid ws T0 n s' := by
  unfold Mid at h ⊢
  rw [hr, hw, hl]
  exact h

theorem step_setSize_free {s s' : State V} {m : Nat} (h : step f s (.SetSize m) = some s') :
    s.resizer = none ∧ s.constructed = true ∧
      s' = s.setResizer
        { n := m, poolLen := s.pool.workers.length, pc := .grow s.pool.workers.length } := by
  unfold step at h
  by_cases hp : s.panicked = true
  · simp [hp] at h
  · by_cases hc : s.constructed = true
    · cases hr : s.resizer with
      | none => simp [hp, hc, hr] at h; exact ⟨rfl, hc, h.symm⟩
      | some fr => simp [hp, hc, hr] at h
    · simp [hp, hc] at h

theorem mid_step {ws : List Nat} {T0 n : Nat} {s s' : State V} {a : Action V}
    (hm : Mid ws T0 n s) (hs : Step f s a s') (ha : a.isSetSize = false) :
    Mid ws T0 n s' := by
  cases hs with
  | panic _ => exact hm.congr rfl rfl rfl
  | spawn fr i hr hpc hi =>
    unfold Mid at hm ⊢
    rw [hr] at hm
    simp only [hpc] at hm ⊢
    obtain ⟨h1, h2, h3, h4, h5, h6⟩ := hm
    refine ⟨h1, h2, h3, by omega, ?_, h5, ?_⟩
    · simp [h6]
    · simp [h6]
  | growEnd fr i hr hpc hi =>
    unfold Mid at hm ⊢
    rw [hr] at hm
    simp only [hpc, State.setResizer] at hm ⊢
    obtain ⟨h1, h2, h3, h4, h5, h6⟩ := hm
    have : i - ws.length = n - ws.length := by omega
    rw [this] at h5 h6
    exact ⟨h1, h2, h5, h6⟩
  | append fr i w hr hpc =>
    unfold Mid at hm ⊢
    rw [hr] at hm
    simp only [hpc] at hm ⊢
    obtain ⟨h1, h2, h3, h4, h5, h6, h7⟩ := hm
    refine ⟨h1, h2, by omega, by omega, ?_, ?_⟩
    · have : i + 1 - ws.length = (i - ws.length) + 1 := by omega
      rw [this, List.range'_1_concat, h6, h5, List.append_assoc]
    · rw [h7]; omega
  | stop fr i h t hr hpc hi hw ht hcl =>
    unfold Mid at hm ⊢
    rw [hr] at hm
    simp only [hpc, State.setResizer, State.setThread, List.length_set] at hm ⊢
    exact hm
  | stopEnd fr i hr hpc hi =>
    unfold Mid at hm ⊢
    rw [hr] at hm
    simp only [hpc, State.setResizer] at hm ⊢
    exact hm
  | join fr i h t hr hpc hi hw ht hcl =>
    unfold Mid at hm ⊢
    rw [hr] at hm
    simp only [hpc, State.setResizer] at hm ⊢
    exact hm
  | joinEnd fr i hr hpc hi =>
    unfold Mid at hm ⊢
    rw [hr] at hm
    simp only [hpc, State.setResizer] at hm ⊢
    exact hm
  | truncate fr hr hpc hle =>
    unfold Mid at hm ⊢
    rw [hr] at hm
    simp only [hpc] at hm ⊢
    obtain ⟨h1, h2, h3, h4⟩ := hm
    refine ⟨?_, h4⟩
    rw [h3, h1]
    rcases Nat.lt_or_ge ws.length n with h5 | h5
    · rw [List.take_of_length_le (by simp; omega), List.take_of_length_le (by omega)]
    · have : n - ws.length = 0 := by omega
      rw [this]
      simp
  | lock m _ _ => cases ha
  | _ =>
    first
      | exact hm.congr rfl rfl rfl
      | exact hm.congr rfl rfl (by simp [State.setThread, State.setCall, State.addQueued])

theorem mid_run {ws : List Nat} {T0 n : Nat} : ∀ (acts : List (Action V)) {s s' : State V},
    Mid ws T0 n s → (∀ a ∈ acts, a.isSetSize = false) → run f s acts = some s' →
    Mid ws T0 n s' := by
  intro acts
  induction acts with
  | nil =>
    intro s s' hm _ hr
    simp [run] at hr
    subst hr
    exact hm
  | cons a as ih =>
    intro s s' hm hno hr
    simp only [run] at hr
    cases hs : step f s a with
    | none => rw [hs] at hr; simp at hr
    | some s1 =>
      rw [hs] at hr
      exact ih (mid_step hm (step_sound hs) (hno a (List.mem_cons_self _ _)))
        (fun b hb => hno b (List.mem_cons_of_mem _ hb)) hr

/-- The worker slice and the number of goroutines started when a call `SetSize(n)` has
returned and no other call of `SetSize` was made since it was entered. -/
theorem setSize_run {s0 s1 : State V} {n : Nat} {acts : List (Action V)}
    (hno : ∀ a ∈ acts, a.isSetSize = false)
    (hrun : run f s0 (.SetSize n :: acts) = some s1) (hret : s1.resizer = none) :
    s1.pool.workers = s0.pool.workers.take n ++
        List.range' s0.threads.length (n - s0.pool.workers.length) ∧
      s1.threads.length = s0.threads.length + (n - s0.pool.workers.length) := by
  simp only [run] at hrun
  cases hs : step f s0 (.SetSize n) with
  | none => rw [hs] at hrun; simp at hrun
  | some sa =>
    rw [hs] at hrun
    have hrun' : run f sa acts = some s1 := hrun
    obtain ⟨_, _, hsa⟩ := step_setSize_free hs
    have hm0 : Mid s0.pool.workers s0.threads.length n sa := by
      subst hsa
      unfold Mid
      simp [State.setResizer]
    have hm := mid_run acts hm0 hno hrun'
    unfold Mid at hm
    rw [hret] at hm
    exact hm

/-- The worker slice when `NewPool(size, f)` has returned and no call of `SetSize` was
made since. -/
theorem newPool_run {size : Nat} {s1 : State V} {acts : List (Action V)}
    (hno : ∀ a ∈ acts, a.isSetSize = false)
    (hrun : run f (NewPool size) acts = some s1) (hret : s1.resizer = none) :
    s1.pool.workers = List.range' 0 size ∧ s1.threads.length = size := by
  have hm0 : Mid [] 0 size (NewPool size : State V) := by
    unfold Mid
    simp [NewPool]
  have hm := mid_run acts hm0 hno hrun
  unfold Mid at hm
  rw [hret] at hm
  simpa using hm

/-- From a run in which the mutex is released, the part up to the first release: no call of
`SetSize` is entered in it. -/
theorem first_return : ∀ (acts : List (Action V)) {sa s' : State V},
    run f sa acts = some s' → sa.resizer ≠ none → s'.resizer = none →
    ∃ acts1 s1, (∀ a ∈ acts1, a.isSetSize = false) ∧ run f sa acts1 = some s1 ∧
      s1.resizer = none := by
  intro acts
  induction acts with
  | nil =>
    intro sa s' hr hne hn
    simp [run] at hr
    subst hr
    exact absurd hn hne
  | cons a as ih =>
    intro sa s' hr hne hn
    simp only [run] at hr
    cases hs : step f sa a with
    | none => rw [hs] at hr; simp at hr
    | some sm =>
      rw [hs] at hr
      have ha : a.isSetSize = false := by
        cases a with
        | SetSize m => exact absurd (step_setSize_free hs).1 hne
        | _ => rfl
      by_cases hsm : sm.resizer = none
      · refine ⟨[a], sm, ?_, run_cons_of hs rfl, hsm⟩
        intro b hb
        simp at hb
        subst hb
        exact ha
      · obtain ⟨acts1, s1, h1, h2, h3⟩ := ih hr hsm hn
        refine ⟨a :: acts1, s1, ?_, run_cons_of hs h2, h3⟩
        intro b hb
        rcases List.mem_cons.mp hb with hb | hb
        · subst hb; exact ha
        · exact h1 b hb

/-- While the mutex is free every worker of `pool.workers` is running: its stop signal is
not raised and its goroutine has not ended. -/
theorem workers_running {size : Nat} {s : State V} (hreach : Reachable f size s)
    (hfree : s.resizer = none) {h : Nat} (hh : h ∈ s.pool.workers) :
    closeAt s h = false ∧ closedAt s h = false := by
  obtain ⟨si, _, _⟩ := hreach.inv
  have hp := si.phase
  unfold PhaseOk at hp
  rw [hfree] at hp
  obtain ⟨j, hj⟩ := List.mem_iff_getElem?.mp hh
  have hcl := hp j h hj
  refine ⟨hcl, ?_⟩
  unfold closedAt
  unfold closeAt at hcl
  cases ht : s.threads[h]? with
  | none => rfl
  | some t =>
    rw [ht] at hcl
    simp only at hcl ⊢
    cases hc : t.closed with
    | false => rfl
    | true =>
      rw [(si.threadOk h t ht).closed_close hc] at hcl
      cases hcl

/-- While the mutex is free every worker that was started and is not in `pool.workers` has
had its stop signal raised and has confirmed that it ended. -/
theorem others_stopped {size : Nat} {s : State V} (hreach : Reachable f size s)
    (hfree : s.resizer = none) {h : Nat} (hlt : h < s.threads.length)
    (hn : h ∉ s.pool.workers) : closeAt s h = true ∧ closedAt s h = true := by
  obtain ⟨si, _, _⟩ := hreach.inv
  rcases si.offset h hlt hn with h1 | ⟨fr, i, h1, _⟩
  · refine ⟨?_, h1⟩
    unfold closedAt at h1
    unfold closeAt
    cases ht : s.threads[h]? with
    | none => rw [ht] at h1; cases h1
    | some t =>
      rw [ht] at h1
      exact (si.threadOk h t ht).closed_close h1
  · rw [hfree] at h1; cases h1

/-- The stop signals after a call of `SetSize(n)` has returned: raised for the workers
the call removed, as before the call for every other worker started before it. -/
theorem setSize_signals {size : Nat} {s0 s1 : State V} {n : Nat} {acts : List (Action V)}
    (hreach : Reachable f size s0) (hno : ∀ a ∈ acts, a.isSetSize = false)
    (hrun : run f s0 (.SetSize n :: acts) = some s1) (hret : s1.resizer = none) :
    (∀ h ∈ s0.pool.workers.drop n,
      closeAt s0 h = false ∧ closeAt s1 h = true ∧ closedAt s1 h = true) ∧
    (∀ h, h < s0.threads.length → h ∉ s0.pool.workers.drop n →
      closeAt s1 h = closeAt s0 h) := by
  obtain ⟨hw, hl⟩ := setSize_run hno hrun hret
  have hreach1 := reachable_run hreach hrun
  have hfree : s0.resizer = none := by
    simp only [run] at hrun
    cases hs : step f s0 (.SetSize n) with
    | none => rw [hs] at hrun; simp at hrun
    | some sa => exact (step_setSize_free hs).1
  obtain ⟨si, _, _⟩ := hreach.inv
  have hnd : (s0.pool.workers.take n ++ s0.pool.workers.drop n).Nodup := by
    rw [List.take_append_drop]; exact si.nodup
  have hdisj := (List.nodup_append.mp hnd).2.2
  have hnew : ∀ h, h < s0.threads.length →
      h ∉ List.range' s0.threads.length (n - s0.pool.workers.length) := by
    intro h hlt hm
    rw [List.mem_range'_1] at hm
    omega
  refine ⟨?_, ?_⟩
  · intro h hh
    have hmem : h ∈ s0.pool.workers := List.mem_of_mem_drop hh
    have hlt := si.valid h hmem
    have hn1 : h ∉ s1.pool.workers := by
      rw [hw]
      intro hm
      rcases List.mem_append.mp hm with hm | hm
      · exact hdisj hm hh
      · exact hnew h hlt hm
    have := others_stopped hreach1 hret (by rw [hl]; omega) hn1
    exact ⟨(workers_running hreach hfree hmem).1, this.1, this.2⟩
  · intro h hlt hnd'
    by_cases hmem : h ∈ s0.pool.workers
    · have htake : h ∈ s0.pool.workers.take n := by
        rw [← List.take_append_drop n s0.pool.workers] at hmem
        rcases List.mem_append.mp hmem with hm | hm
        · exact hm
        · exact absurd hm hnd'
      have h1 : h ∈ s1.pool.workers := by
        rw [hw]; exact List.mem_append_left _ htake
      rw [(workers_running hreach1 hret h1).1, (workers_running hreach hfree hmem).1]
    · have hn1 : h ∉ s1.pool.workers := by
        rw [hw]
        intro hm
        rcases List.mem_append.mp hm with hm | hm
        · exact hmem (List.mem_of_mem_take hm)
        · exact hnew h hlt hm
      rw [(others_stopped hreach1 hret (by rw [hl]; omega) hn1).1,
        (others_stopped hreach hfree hlt hmem).1]

/-- A call of `SetSize(n)` made while the mutex is free can be run to its return without
another call of `SetSize` being entered. -/
theorem setSize_returns {size : Nat} {s : State V} (hreach : Reachable f size s)
    (hcon : s.constructed = true) (hr : s.resizer = none) (n : Nat) :
    ∃ acts s', (∀ a ∈ acts, a.isSetSize = false) ∧
      run f s (.SetSize n :: acts) = some s' ∧ s'.resizer = none := by
  obtain ⟨acts, s', hrun, hret, _⟩ := setSize_completes hreach hcon hr n
  simp only [run] at hrun
  cases hs : step f s (.SetSize n) with
  | none => rw [hs] at hrun; simp at hrun
  | some sa =>
    rw [hs] at hrun
    have hrun' : run f sa acts = some s' := hrun
    have hsa : sa.resizer ≠ none := by
      rw [(step_setSize_free hs).2.2]
      simp [State.setResizer]
    obtain ⟨acts1, s1, h1, h2, h3⟩ := first_return acts hrun' hsa hret
    exact ⟨acts1, s1, h1, run_cons_of hs h2, h3⟩

/-- The call `NewPool(size, f)` can be run to its return. -/
theorem newPool_returns (f : Option V → Option V × Option GoError) (size : Nat) :
    ∃ acts s', (∀ a ∈ acts, a.isSetSize = false) ∧
      run f (NewPool size) acts = some s' ∧ s'.resizer = none := by
  obtain ⟨acts, s', hrun, hret, _, _⟩ :=
    @resize_completes V f size _ Reachable.init { n := size, poolLen := 0, pc := .grow 0 } rfl
  exact first_return acts hrun (by simp [NewPool]) hret

/-- The entries of a list that satisfy `p` are at most as many as the members of a list
that holds the index of each of them. -/
theorem countP_le_of_index {α : Type} (p : α → Bool) : ∀ (l : List α) (S : List Nat),
    (∀ (i : Nat) (a : α), l[i]? = some a → p a = true → i ∈ S) →
    l.countP p ≤ S.length := by
  intro l
  induction l with
  | nil => intro S _; simp
  | cons a l ih =>
    intro S hS
    have hshift : ∀ (T : List Nat), (∀ (i : Nat), i + 1 ∈ S → i + 1 ∈ T) →
        ∀ (i : Nat) (b : α), l[i]? = some b → p b = true → i ∈ T.map Nat.pred := by
      intro T hT i b hi hb
      have h1 : i + 1 ∈ S := hS (i + 1) b (by simpa using hi) hb
      exact List.mem_map.mpr ⟨i + 1, hT i h1, rfl⟩
    cases hpa : p a with
    | false =>
      have := ih (S.map Nat.pred) (hshift S (fun _ h => h))
      simp only [List.length_map] at this
      rw [List.countP_cons_of_neg]
      · exact this
      · simp [hpa]
    | true =>
      have h0 : 0 ∈ S := hS 0 a (by simp) hpa
      have := ih ((S.erase 0).map Nat.pred)
        (hshift (S.erase 0) (fun i h => (List.mem_erase_of_ne (by omega)).mpr h))
      simp only [List.length_map, List.length_erase_of_mem h0] at this
      rw [List.countP_cons_of_pos]
      · have hpos : 0 < S.length := List.length_pos_of_mem h0
        omega
      · exact hpa

/-- A worker that holds a request is in `pool.workers`, or it is the worker that the
running `SetSize` has started and not yet appended. -/
theorem busy_in_workers {size : Nat} {s : State V} (hreach : Reachable f size s)
    {h : Nat} {t : structWorker V} (ht : s.threads[h]? = some t)
    (hb : t.pc.job.isSome = true) : h ∈ s.pool.workers ++ startedNotAppended s := by
  obtain ⟨si, _, _⟩ := hreach.inv
  by_cases hmem : h ∈ s.pool.workers
  · exact List.mem_append_left _ hmem
  · apply List.mem_append_right
    rcases si.offset h (getElem?_lt ht) hmem with h1 | ⟨fr, i, h1, h2⟩
    · exfalso
      unfold closedAt at h1
      rw [ht] at h1
      have := (si.threadOk h t ht).closed_iff.mp h1
      rw [this] at hb
      simp [WorkerPc.job] at hb
    · unfold startedNotAppended
      rw [h1]
      simp only [h2]
      exact List.mem_singleton.mpr rfl

/-- The jobs being executed are at most the workers in `pool.workers`, plus the one that
the running `SetSize` has started and not yet appended. -/
theorem jobs_le_workers {size : Nat} {s : State V} (hreach : Reachable f size s) :
    jobsRunning s ≤ s.pool.workers.length + (startedNotAppended s).length := by
  have := countP_le_of_index (fun t : structWorker V => t.pc.job.isSome) s.threads
    (s.pool.workers ++ startedNotAppended s) (fun h t ht hb => busy_in_workers hreach ht hb)
  simpa [jobsRunning] using this

/-- A worker that holds a request does not end at its next step, whichever goroutine takes
a step. -/
theorem busy_not_exit {s s' : State V} {a : Action V} (hs : step f s a = some s')
    {h : Nat} {t t' : structWorker V} (ht : s.threads[h]? = some t)
    (hb : t.pc.job.isSome = true) (ht' : s'.threads[h]? = some t') : t'.pc ≠ .exited := by
  have hne : t.pc ≠ .exited := by
    intro he; rw [he] at hb; simp [WorkerPc.job] at hb
  have hns : t.pc ≠ .select := by
    intro he; rw [he] at hb; simp [WorkerPc.job] at hb
  rcases (step_sound hs).shape with ⟨w, c, u, u', x, x', hT, hC, loc⟩ | ⟨_, hT, _⟩ | ⟨_, hT, _⟩
  · rcases hT.get_new ht' with ⟨_, h1⟩ | ⟨h1, h2, h3⟩ | ⟨h1, _⟩
    · rw [ht] at h1; cases h1; exact hne
    · rw [ht] at h3
      cases h3
      subst h2
      intro he
      rcases loc.exit he with h4 | h4
      · exact hns h4
      · exact hne h4
    · rw [ht] at h1; cases h1; exact hne
  · rw [hT, getElem?_append_old ht] at ht'
    cases ht'
    exact hne
  · rw [hT, ht] at ht'
    cases ht'
    exact hne

theorem pool1_run : run fdouble (NewPool 1) newPool1 = some pool1 := by decide

theorem pool1_reachable : Reachable fdouble 1 pool1 :=
  reachable_run Reachable.init pool1_run

theorem batchFinal_run :
    run fdouble pool1 (.ExecuteM [some 10, some 11] :: batchSchedule) = some batchFinal := by
  decide

theorem growState_run : run fdouble (NewPool 0) growSchedule = some growState := by decide

theorem growState_reachable : Reachable fdouble 0 growState :=
  reachable_run Reachable.init growState_run

theorem constructed_of_free {size : Nat} {s : State V} (hreach : Reachable f size s)
    (hfree : s.resizer = none) : s.constructed = true := by
  obtain ⟨si, _, _⟩ := hreach.inv
  cases hc : s.constructed with
  | true => rfl
  | false =>
    obtain ⟨fr, h1, _⟩ := si.ctor hc
    rw [hfree] at h1
    cases h1

theorem size_of_workers {s : State V} {ws : List Nat} {T0 n : Nat}
    (hfree : s.resizer = none)
    (hw : s.pool.workers = ws.take n ++ List.range' T0 (n - ws.length)) :
    GetSize s = some n := by
  unfold GetSize
  rw [hfree, hw]
  simp
  omega

/-- C1: from every reachable pool on which no `SetSize` is running, a call of
`SetSize(n)` can be run to its return, and whenever it has returned (and no other call of
`SetSize` was entered since) `GetSize()` returns `n`; likewise `NewPool(size, f)` can be
run to its return, and then `GetSize()` returns `size`. -/
theorem getSize_after_setSize {size : Nat} {s0 : State V} (hreach : Reachable f size s0)
    (hcon : s0.constructed = true) (hfree : s0.resizer = none) (n : Nat) :
    (∃ acts s1, (∀ a ∈ acts, a.isSetSize = false) ∧
      run f s0 (.SetSize n :: acts) = some s1 ∧ s1.resizer = none) ∧
    (∀ (acts : List (Action V)) (s1 : State V), (∀ a ∈ acts, a.isSetSize = false) →
      run f s0 (.SetSize n :: acts) = some s1 → s1.resizer = none →
      GetSize s1 = some n) ∧
    (∃ acts s1, (∀ a ∈ acts, a.isSetSize = false) ∧
      run f (NewPool size) acts = some s1 ∧ s1.resizer = none) ∧
    (∀ (acts : List (Action V)) (s1 : State V), (∀ a ∈ acts, a.isSetSize = false) →
      run f (NewPool size) acts = some s1 → s1.resizer = none →
      GetSize s1 = some size) := by
  refine ⟨setSize_returns hreach hcon hfree n, ?_, newPool_returns f size, ?_⟩
  · intro acts s1 hno hrun hret
    exact size_of_workers hret (setSize_run hno hrun hret).1
  · intro acts s1 hno hrun hret
    have h := (newPool_run hno hrun hret).1
    unfold GetSize
    rw [hret, h]
    simp

theorem getSize_after_setSize_witness :
    ∃ (acts : List (Action Nat)) (s1 : State Nat),
      run fdouble pool1 (.SetSize 3 :: acts) = some s1 ∧ GetSize s1 = some 3 :=
  have h := getSize_after_setSize pool1_reachable rfl rfl 3
  match h.1 with
  | ⟨acts, s1, hno, hrun, hret⟩ => ⟨acts, s1, hrun, h.2.1 acts s1 hno hrun hret⟩

/-- C2: in every reachable state a call of `Execute(v)` that has returned has returned
exactly the pair `pool.f(v)`, output and error; and when some worker goroutine has not
ended, a call of `Execute(v)` can be run to its return. -/
theorem execute_round_trip {size : Nat} {s : State V} (hreach : Reachable f size s) :
    (∀ (c : Nat) (x : Call V) (v out : Option V) (err : Option GoError),
      s.calls[c]? = some x → x.api = .Execute v → x.pc = .execReturned out err →
      out = (f v).1 ∧ err = (f v).2) ∧
    (s.constructed = true → ∀ (h : Nat) (t : structWorker V), s.threads[h]? = some t →
      t.pc ≠ .exited → ∀ v : Option V, ∃ acts s' x,
        run f s (.Execute v :: acts) = some s' ∧ s'.calls[s.calls.length]? = some x ∧
        x.api = .Execute v ∧ x.pc = .execReturned (f v).1 (f v).2) := by
  refine ⟨?_, ?_⟩
  · intro c x v out err hc hapi hpc
    exact execute_returns_f hreach hc hapi hpc
  · intro hcon h t ht hne v
    exact execute_completes hreach hcon ht hne v

theorem execute_round_trip_witness :
    ∃ (acts : List (Action Nat)) (s' : State Nat) (x : Call Nat),
      run fdouble pool1 (.Execute (some 10) :: acts) = some s' ∧
      s'.calls[0]? = some x ∧ x.api = .Execute (some 10) ∧
      x.pc = .execReturned (some 20) none :=
  (execute_round_trip pool1_reachable).2 rfl 0 ⟨false, false, .select⟩ rfl (by decide)
    (some 10)

/-- C3: in every reachable state the results written to the channel of a call are
results of its inputs, each at most as often as the input occurs; once the channel is
closed they are exactly the results of the `k` inputs, as a multiset; a consumer that has
seen the channel closed has received exactly those `k` results; and when some worker
goroutine has not ended, a call of `ExecuteM(xs)` can be run until the consumer has seen
the channel closed. -/
theorem executeM_results {size : Nat} {s : State V} (hreach : Reachable f size s) :
    (∀ (c : Nat) (x : Call V), s.calls[c]? = some x →
      (x.received ++ x.buf).Subperm (x.api.input.map (Rf f)) ∧
      (x.closed = true → (x.received ++ x.buf).Perm (x.api.input.map (Rf f))) ∧
      (x.drained = true → x.closed = true ∧ x.received.Perm (x.api.input.map (Rf f)) ∧
        x.received.length = x.api.input.length)) ∧
    (s.constructed = true → ∀ (h : Nat) (t : structWorker V), s.threads[h]? = some t →
      t.pc ≠ .exited → ∀ xs : List (Option V), ∃ acts s' x,
        run f s (.ExecuteM xs :: acts) = some s' ∧ s'.calls[s.calls.length]? = some x ∧
        x.api = .ExecuteM xs ∧ x.drained = true ∧ x.closed = true ∧
        x.received.Perm (xs.map (Rf f))) := by
  refine ⟨?_, ?_⟩
  · intro c x hc
    refine ⟨written_subperm hreach hc, closed_all_written hreach hc, ?_⟩
    intro hd
    obtain ⟨_, qi, _⟩ := hreach.inv
    obtain ⟨hcl, hb⟩ := (qi.callOk c x hc).drained_ok hd
    have hp := closed_all_written hreach hc hcl
    rw [hb, List.append_nil] at hp
    refine ⟨hcl, hp, ?_⟩
    have := hp.length_eq
    simpa using this
  · intro hcon h t ht hne xs
    exact executeM_completes hreach hcon ht hne xs

theorem executeM_results_witness :
    ∃ (acts : List (Action Nat)) (s' : State Nat) (x : Call Nat),
      run fdouble pool1 (.ExecuteM [some 1, some 2, some 3] :: acts) = some s' ∧
      s'.calls[0]? = some x ∧ x.drained = true ∧
      x.received.Perm [⟨some 2, none⟩, ⟨some 4, none⟩, ⟨some 6, none⟩] :=
  match (executeM_results pool1_reachable).2 rfl 0 ⟨false, false, .select⟩ rfl (by decide)
    [some 1, some 2, some 3] with
  | ⟨acts, s', x, h1, h2, _, h4, _, h6⟩ => ⟨acts, s', x, h1, h2, h4, h6⟩

theorem queued_zero_of_quiet {size : Nat} {s0 : State V} (hreach : Reachable f size s0)
    (hq : quiet s0 = true) (hc : s0.calls = []) : GetQueuedJobs s0 = 0 := by
  obtain ⟨_, qi, _⟩ := hreach.inv
  have h := qi.cntInv
  have h0 : lsum counted s0.threads = 0 :=
    lsum_eq_zero counted (fun k t ht => quiet_threads hq ht)
  unfold GetQueuedJobs
  rw [h, hc, h0]
  simp

/-- C4: a call of `ExecuteM(xs)` is made in a reachable state in which no submission is in
flight, and no other submission is made after it.  Once the channel it returned is closed,
`GetQueuedJobs()` is what it was before the call (`0` when no call was ever made), and no
worker has a decrement for the batch still to come: every decrement precedes the close.
In any state, the step of line 161 adds `len(in)` to the counter and the step of line 66
subtracts one. -/
theorem queuedJobs_after_batch {size : Nat} {s0 s : State V} (hreach : Reachable f size s0)
    (hq : quiet s0 = true) {xs : List (Option V)} {acts : List (Action V)}
    (hsub : ∀ a ∈ acts, a.isSubmit = false)
    (hrun : run f s0 (.ExecuteM xs :: acts) = some s) {x : Call V}
    (hx : s.calls[s0.calls.length]? = some x) (hcl : x.closed = true) :
    GetQueuedJobs s = GetQueuedJobs s0 ∧
    (s0.calls = [] → GetQueuedJobs s = 0) ∧
    (∀ (k : Nat) (t : structWorker V), s.threads[k]? = some t → counted t = 0) ∧
    (∀ (u u' : State V) (c : Nat) (y : Call V), u.calls[c]? = some y → y.pc = .mStart →
      step f u (.caller c) = some u' →
      GetQueuedJobs u' = GetQueuedJobs u + y.api.input.length) ∧
    (∀ (u u' : State V) (w : Nat) (t : structWorker V) (r : request V),
      u.threads[w]? = some t → t.pc = .dec r → step f u (.work w) = some u' →
      GetQueuedJobs u' = GetQueuedJobs u - 1) := by
  obtain ⟨h1, h2⟩ := counter_restored hreach hq hsub hrun hx hcl
  refine ⟨h1, ?_, h2, ?_, ?_⟩
  · intro hc
    rw [h1]
    exact queued_zero_of_quiet hreach hq hc
  · intro u u' c y hy hpc hs
    have hp : u.panicked = false := by
      cases hp : u.panicked with
      | false => rfl
      | true => simp [step, hp] at hs
    simp [step, hp, hy, stepCaller, hpc] at hs
    subst hs
    simp [GetQueuedJobs, State.setCall, State.addQueued]
  · intro u u' w t r ht hpc hs
    have hp : u.panicked = false := by
      cases hp : u.panicked with
      | false => rfl
      | true => simp [step, hp] at hs
    simp [step, hp, ht, stepWork, hpc] at hs
    subst hs
    simp [GetQueuedJobs, State.setThread, State.addQueued]
    rfl

theorem queuedJobs_after_batch_witness :
    GetQueuedJobs batchFinal = GetQueuedJobs pool1 ∧ GetQueuedJobs batchFinal = 0 ∧
      (run fdouble pool1 [.ExecuteM [some 10, some 11], .caller 0]).map GetQueuedJobs
        = some (GetQueuedJobs pool1 + 2) :=
  have h := @queuedJobs_after_batch Nat fdouble 1 pool1 batchFinal pool1_reachable
    (by decide) [some 10, some 11] batchSchedule (by decide) batchFinal_run
    ((batchFinal.calls[0]?).getD (Call.new (.ExecuteM []) .mStart)) (by decide) (by decide)
  ⟨h.1, h.2.1 rfl, by decide⟩

/-- C5: `ExecuteA(10)` on the pool of `NewPool(1, f)`, run until the consumer has received
the one result `f(10) = 20` and has seen the channel closed: `queuedJobs` was `0` before
the call, is `2` once the call has made its two additions (line 153 adds one, line 161
adds `len(in) = 1`), and is `1` at the end, the worker having subtracted one. -/
theorem executeA_counter :
    (run fdouble (NewPool 1) newPool1).map GetQueuedJobs = some 0 ∧
    (run fdouble (NewPool 1)
      (newPool1 ++ [.ExecuteA (some 10), .caller 0, .caller 0])).map GetQueuedJobs = some 2 ∧
    (run fdouble (NewPool 1) executeASchedule).map GetQueuedJobs = some 1 ∧
    (run fdouble (NewPool 1) executeASchedule).map
      (fun s => s.calls.map (fun x => (x.drained, x.closed))) = some [(true, true)] ∧
    (run fdouble (NewPool 1) executeASchedule).map
      (fun s => s.calls.map (fun x => x.received)) = some [[⟨some 20, none⟩]] := by
  decide

/-- C6: `Execute(10)` on the pool of `NewPool(1, f)`: when the call has returned
`(20, nil)` the counter, `0` before the call, is still `1`, because the worker sends the
result (line 65) before it subtracts (line 66); the worker's next step brings it to `0`.
In no reachable state is the counter negative. -/
theorem execute_counter_at_return :
    (run fdouble (NewPool 1) newPool1).map GetQueuedJobs = some 0 ∧
    (run fdouble (NewPool 1) executeSchedule).map
      (fun s => (s.calls.map (fun x => x.pc), GetQueuedJobs s))
      = some ([.execReturned (some 20) none], 1) ∧
    (run fdouble (NewPool 1) (executeSchedule ++ [.work 0])).map GetQueuedJobs = some 0 ∧
    (∀ (size : Nat) (s : State Nat), Reachable fdouble size s → 0 ≤ GetQueuedJobs s) := by
  refine ⟨by decide, by decide, by decide, ?_⟩
  intro size s hreach
  obtain ⟨_, qi, _⟩ := hreach.inv
  unfold GetQueuedJobs
  rw [qi.cntInv]
  exact Int.ofNat_nonneg _

/-- C7: a call of `Execute(10)` waits at its send of line 143 while `Close()` runs to its
return.  Afterwards `pool.workers` is empty and the one worker has ended; the call is
still at line 143 and its channel `output` is not closed; none of its steps is enabled:
it neither proceeds nor returns.  And in no reachable state is the channel of a call of
`Execute` closed, nor has such a call returned `ErrPoolClosed`. -/
theorem execute_blocked_after_close :
    (run fdouble (NewPool 1) closeSchedule).map
      (fun s => (GetSize s, s.pool.workers, s.panicked)) = some (some 0, [], false) ∧
    (run fdouble (NewPool 1) closeSchedule).map
      (fun s => s.threads.map (fun t => t.pc)) = some [.exited] ∧
    (run fdouble (NewPool 1) closeSchedule).map
      (fun s => s.calls.map (fun x => (x.pc, x.closed))) = some [(.execPush, false)] ∧
    (run fdouble (NewPool 1) closeSchedule).bind (fun s => step fdouble s (.caller 0)) = none ∧
    (run fdouble (NewPool 1) closeSchedule).bind (fun s => step fdouble s (.accept 0 0)) = none ∧
    (run fdouble (NewPool 1) closeSchedule).bind (fun s => step fdouble s (.deliver 0 0)) = none ∧
    (run fdouble (NewPool 1) closeSchedule).bind (fun s => step fdouble s (.work 0)) = none ∧
    (∀ (size : Nat) (s : State Nat), Reachable fdouble size s →
      ∀ (c : Nat) (x : Call Nat), s.calls[c]? = some x → x.api.isExecute = true →
        x.closed = false ∧ x.pc ≠ .execReturned none (some .ErrPoolClosed)) := by
  refine ⟨by decide, by decide, by decide, by decide, by decide, by decide, by decide, ?_⟩
  intro size s hreach c x hc hex
  obtain ⟨_, qi, _⟩ := hreach.inv
  have ok := qi.callOk c x hc
  refine ⟨?_, ?_⟩
  · cases hcl : x.closed with
    | false => rfl
    | true =>
      have h1 := ok.closer_ret (by rw [ok.closed_fin hcl]; simp)
      have h2 := ok.kind
      rw [h1, hex] at h2
      cases h2
  · intro hpc
    obtain ⟨v, hv⟩ := input_of_isExecute hex
    have hapi : x.api = .Execute v := by
      cases hx : x.api with
      | Execute w =>
        rw [hx] at hv
        simp [Api.input] at hv
        rw [hv]
      | ExecuteA w => rw [hx] at hex; cases hex
      | ExecuteM ws => rw [hx] at hex; cases hex
    have h := (execute_returns_f hreach hc hapi hpc).2
    cases v with
    | none => cases h
    | some n => cases h

/-- C8: from every reachable pool on which no `SetSize` is running, `Close()` can be run
to its return twice in succession; whenever two successive calls have returned,
`GetSize()` is `0` after each and nothing has panicked; `SetSize(n)` on a pool of `n`
workers leaves `pool.workers` as it was, starts no goroutine and changes no stop signal;
and no run from the pool reaches a panic (a second `close` of a stop signal is one). -/
theorem close_twice {size : Nat} {s0 : State V} (hreach : Reachable f size s0)
    (hcon : s0.constructed = true) (hfree : s0.resizer = none) :
    (∃ acts1 s1 acts2 s2, (∀ a ∈ acts1, a.isSetSize = false) ∧
      run f s0 (.SetSize 0 :: acts1) = some s1 ∧ s1.resizer = none ∧
      (∀ a ∈ acts2, a.isSetSize = false) ∧
      run f s1 (.SetSize 0 :: acts2) = some s2 ∧ s2.resizer = none) ∧
    (∀ (acts1 acts2 : List (Action V)) (s1 s2 : State V),
      (∀ a ∈ acts1, a.isSetSize = false) → run f s0 (.SetSize 0 :: acts1) = some s1 →
      s1.resizer = none →
      (∀ a ∈ acts2, a.isSetSize = false) → run f s1 (.SetSize 0 :: acts2) = some s2 →
      s2.resizer = none →
      GetSize s1 = some 0 ∧ GetSize s2 = some 0 ∧ s1.panicked = false ∧
        s2.panicked = false ∧ s2.pool.workers = s1.pool.workers ∧
        s2.threads.length = s1.threads.length ∧ ∀ h, closeAt s2 h = closeAt s1 h) ∧
    (∀ (n : Nat) (acts : List (Action V)) (s1 : State V), s0.pool.workers.length = n →
      (∀ a ∈ acts, a.isSetSize = false) → run f s0 (.SetSize n :: acts) = some s1 →
      s1.resizer = none →
      s1.pool.workers = s0.pool.workers ∧ s1.threads.length = s0.threads.length ∧
        ∀ h, closeAt s1 h = closeAt s0 h) ∧
    (∀ (acts : List (Action V)) (s : State V), run f s0 acts = some s →
      s.panicked = false) := by
  -- `SetSize(n)` on a pool of `n` workers
  have same : ∀ {sz : Nat} {sa sb : State V} (n : Nat) (acts : List (Action V)),
      Reachable f sz sa → sa.pool.workers.length = n →
      (∀ a ∈ acts, a.isSetSize = false) → run f sa (.SetSize n :: acts) = some sb →
      sb.resizer = none →
      sb.pool.workers = sa.pool.workers ∧ sb.threads.length = sa.threads.length ∧
        ∀ h, closeAt sb h = closeAt sa h := by
    intro sz sa sb n acts hr hn hno hrun hret
    obtain ⟨hw, hl⟩ := setSize_run hno hrun hret
    have hsig := (setSize_signals hr hno hrun hret).2
    have hl' : sb.threads.length = sa.threads.length := by rw [hl, hn]; simp
    refine ⟨?_, hl', ?_⟩
    · rw [hw, hn, ← hn]; simp
    · intro h
      rcases Nat.lt_or_ge h sa.threads.length with hlt | hge
      · apply hsig h hlt
        rw [← hn]
        simp
      · unfold closeAt
        rw [List.getElem?_eq_none (by omega), List.getElem?_eq_none hge]
  refine ⟨?_, ?_, ?_, ?_⟩
  · obtain ⟨acts1, s1, h1, h2, h3⟩ := setSize_returns hreach hcon hfree 0
    have hreach1 := reachable_run hreach h2
    obtain ⟨acts2, s2, h4, h5, h6⟩ :=
      setSize_returns hreach1 (constructed_of_free hreach1 h3) h3 0
    exact ⟨acts1, s1, acts2, s2, h1, h2, h3, h4, h5, h6⟩
  · intro acts1 acts2 s1 s2 hno1 hrun1 hret1 hno2 hrun2 hret2
    have hreach1 := reachable_run hreach hrun1
    have hreach2 := reachable_run hreach1 hrun2
    have hs1 := size_of_workers hret1 (setSize_run hno1 hrun1 hret1).1
    have hlen : s1.pool.workers.length = 0 := by
      unfold GetSize at hs1
      rw [hret1] at hs1
      simpa using hs1
    obtain ⟨a1, a2, a3⟩ := same 0 acts2 hreach1 hlen hno2 hrun2 hret2
    exact ⟨hs1, size_of_workers hret2 (setSize_run hno2 hrun2 hret2).1,
      hreach1.inv.2.2, hreach2.inv.2.2, a1, a2, a3⟩
  · intro n acts s1 hn hno hrun hret
    exact same n acts hreach hn hno hrun hret
  · intro acts s hrun
    exact (reachable_run hreach hrun).inv.2.2

theorem close_twice_witness :
    ∃ (acts1 acts2 : List (Action Nat)) (s1 s2 : State Nat),
      run fdouble pool1 (.SetSize 0 :: acts1) = some s1 ∧
      run fdouble s1 (.SetSize 0 :: acts2) = some s2 ∧
      GetSize s1 = some 0 ∧ GetSize s2 = some 0 ∧ s2.panicked = false :=
  have h := close_twice pool1_reachable rfl rfl
  match h.1 with
  | ⟨acts1, s1, acts2, s2, h1, h2, h3, h4, h5, h6⟩ =>
    have h7 := h.2.1 acts1 acts2 s1 s2 h1 h2 h3 h4 h5 h6
    ⟨acts1, acts2, s1, s2, h2, h5, h7.1, h7.2.1, h7.2.2.2.1⟩

/-- C9: a call of `SetSize(n)` is made on a reachable pool with worker slice `ws` on which
no `SetSize` is running.  It can be run to its return.  Whenever it has returned (and no
other call of `SetSize` was entered since): `pool.workers` is the first `min n (len ws)`
entries of `ws`, in place, followed by `n - len ws` workers that the call started (exactly
that many goroutines were started); every worker of the slice is running, its stop
signal not raised; every worker of `ws` at an index from `n` on, whose stop signal was not
raised before, has its stop signal raised and has confirmed that it ended; and the stop
signal of every other worker is as it was. -/
theorem setSize_effect {size : Nat} {s0 : State V} (hreach : Reachable f size s0)
    (hcon : s0.constructed = true) (hfree : s0.resizer = none) (n : Nat) :
    (∃ acts s1, (∀ a ∈ acts, a.isSetSize = false) ∧
      run f s0 (.SetSize n :: acts) = some s1 ∧ s1.resizer = none) ∧
    (∀ (acts : List (Action V)) (s1 : State V), (∀ a ∈ acts, a.isSetSize = false) →
      run f s0 (.SetSize n :: acts) = some s1 → s1.resizer = none →
      s1.pool.workers = s0.pool.workers.take n ++
        List.range' s0.threads.length (n - s0.pool.workers.length) ∧
      s1.threads.length = s0.threads.length + (n - s0.pool.workers.length) ∧
      (∀ h ∈ s1.pool.workers, closeAt s1 h = false ∧ closedAt s1 h = false) ∧
      (∀ h ∈ s0.pool.workers.take n, closeAt s0 h = false ∧ closedAt s0 h = false) ∧
      (∀ h ∈ s0.pool.workers.drop n,
        closeAt s0 h = false ∧ closeAt s1 h = true ∧ closedAt s1 h = true) ∧
      (∀ h, h < s0.threads.length → h ∉ s0.pool.workers.drop n →
        closeAt s1 h = closeAt s0 h)) := by
  refine ⟨setSize_returns hreach hcon hfree n, ?_⟩
  intro acts s1 hno hrun hret
  obtain ⟨hw, hl⟩ := setSize_run hno hrun hret
  obtain ⟨hs1, hs2⟩ := setSize_signals hreach hno hrun hret
  have hreach1 := reachable_run hreach hrun
  refine ⟨hw, hl, ?_, ?_, hs1, hs2⟩
  · intro h hh
    exact workers_running hreach1 hret hh
  · intro h hh
    exact workers_running hreach hfree (List.mem_of_mem_take hh)

theorem setSize_effect_witness :
    ∃ (acts : List (Action Nat)) (s1 : State Nat),
      run fdouble pool1 (.SetSize 0 :: acts) = some s1 ∧ s1.pool.workers = [] ∧
      closeAt s1 0 = true ∧ closedAt s1 0 = true :=
  have h := setSize_effect pool1_reachable rfl rfl 0
  match h.1 with
  | ⟨acts, s1, hno, hrun, hret⟩ =>
    have h2 := h.2 acts s1 hno hrun hret
    ⟨acts, s1, hrun, h2.1, (h2.2.2.2.2.1 0 (by decide)).2⟩

/-- C10: in every reachable state the number of jobs being executed is at most
`len(pool.workers)`, plus one while the running `SetSize` has started a worker's goroutine
(line 131) and not yet appended the worker (line 103); so it is at most
`len(pool.workers)` whenever no `SetSize` is running.  A worker that holds a job is in
`pool.workers` or is that just started worker; no step, of any goroutine, ends it; and it
can be run through the rest of the loop body back to its `select`. -/
theorem jobs_bounded {size : Nat} {s : State V} (hreach : Reachable f size s) :
    jobsRunning s ≤ s.pool.workers.length + (startedNotAppended s).length ∧
    (startedNotAppended s).length ≤ 1 ∧
    (s.resizer = none → jobsRunning s ≤ s.pool.workers.length) ∧
    (∀ (h : Nat) (t : structWorker V), s.threads[h]? = some t → t.pc.job.isSome = true →
      h ∈ s.pool.workers ++ startedNotAppended s ∧
      (∀ (a : Action V) (s' : State V) (t' : structWorker V), step f s a = some s' →
        s'.threads[h]? = some t' → t'.pc ≠ .exited) ∧
      ∃ acts s' t', run f s acts = some s' ∧ s'.threads[h]? = some t' ∧
        t'.pc = .select) := by
  have hb := jobs_le_workers hreach
  refine ⟨hb, ?_, ?_, ?_⟩
  · unfold startedNotAppended
    split
    · split <;> simp
    · simp
  · intro hfree
    have : startedNotAppended s = [] := by
      unfold startedNotAppended
      rw [hfree]
    rw [this] at hb
    simpa using hb
  · intro h t ht hjob
    refine ⟨busy_in_workers hreach ht hjob, ?_, ?_⟩
    · intro a s' t' hs ht'
      exact busy_not_exit hs ht hjob ht'
    · have hne : t.pc ≠ .exited := by
        intro he
        rw [he] at hjob
        simp [WorkerPc.job] at hjob
      obtain ⟨acts, s', t', hr, _, ht', hpc⟩ := drive_select hreach ht hne
      exact ⟨acts, s', t', hr, ht', hpc⟩

theorem jobs_bounded_witness :
    jobsRunning growState ≤ growState.pool.workers.length + 1 ∧
      0 ∈ growState.pool.workers ++ startedNotAppended growState :=
  have h := @jobs_bounded Nat fdouble 0 growState growState_reachable
  ⟨h.1, (h.2.2.2 0 ((growState.threads[0]?).getD ⟨false, false, .select⟩) (by decide)
    (by decide)).1⟩

/-- C10: the bound `len(pool.workers)` alone does not hold in every reachable state.
After `growSchedule` one job is being executed, by the worker that `SetSize(1)` has
started and not yet appended, while `pool.workers` is empty. -/
theorem jobs_exceed_workers :
    (run fdouble (NewPool 0) growSchedule).map
      (fun s => (jobsRunning s, s.pool.workers.length, startedNotAppended s,
        s.threads.map (fun t => t.pc)))
      = some (1, 0, [0], [.call { param := some 10, outputChannel := 0, wg := none }]) ∧
    ∃ s : State Nat, Reachable fdouble 0 s ∧ s.panicked = false ∧
      s.pool.workers.length < jobsRunning s :=
  ⟨by decide, growState, growState_reachable, by decide, by decide⟩

end GoPool
